import Mathlib

/-!
Verification of the Walrus WebAssembly front-end compiler
(`src/parser/WASMParser.cpp`): a shallow embedding of the parser's
second-pass bytecode emitter, its value-stack tracker, block bookkeeping,
constant pool and preprocess collector, together with theorems about the
claims of the specification.

The embedding models the 64-bit release build (`WALRUS_64`, `NDEBUG`):
`ASSERT` is a no-op, pointers are 8 bytes wide, and the stack-offset type
(`Walrus::ByteCodeStackOffset`, 16-bit per the specification) wraps
modulo 2^16 where the source performs `uint16_t` arithmetic.

Bytecode record layouts live in `src/interpreter/ByteCode.h`, which is not
part of the given sources; the record sizes used here are modelled from the
spec (fixed-width records prefixed by an opcode tag, 16-bit operand
offsets, pointer-aligned tail arrays).  No claim below depends on the
numeric value of a record size, only on sizes being positive and on byte
positions being accumulated sizes, which the source guarantees by
construction.
-/

namespace Walrus

/-- Value kinds of the Walrus engine (`Walrus::Value::Type` without `Void`);
`WASMParser.cpp` only pushes non-void kinds on the shadow stack. -/
inductive ValueType where
  | i32
  | i64
  | f32
  | f64
  | v128
  | funcRef
  | externRef
deriving DecidableEq, Repr

/-- In-stack allocated width of a value kind
(`Walrus::valueStackAllocatedSize`; 4/8/16 bytes, references are
pointer-wide on the modelled 64-bit build). -/
def valueStackAllocatedSize : ValueType → Nat
  | .i32 => 4
  | .f32 => 4
  | .i64 => 8
  | .f64 => 8
  | .v128 => 16
  | .funcRef => 8
  | .externRef => 8

/-- Natural byte size of a value kind (`Walrus::valueSize`). -/
def valueSize : ValueType → Nat
  | .i32 => 4
  | .f32 => 4
  | .i64 => 8
  | .f64 => 8
  | .v128 => 16
  | .funcRef => 8
  | .externRef => 8

/-- Offsets contributed by one value in a call/end/throw tail array
(`valueFunctionCopyCount`): one offset per pointer-sized chunk. -/
def valueFunctionCopyCount : ValueType → Nat
  | .v128 => 2
  | _ => 1

/-- `SIZE_MAX`: the `std::numeric_limits<size_t>::max()` sentinel used by
the source for "no local index" and "interval still open". -/
def sizeMax : Nat := 2 ^ 64 - 1

/-- A typed constant as tracked by the constant pool.  Modelled from the
spec: `Walrus::Value` (in `runtime/Value.h`, not among the given sources)
compares bit-exactly, including NaN payloads, so a constant is its kind
together with its raw payload bits. -/
structure ConstValue where
  ty : ValueType
  bits : Nat
deriving DecidableEq, Repr

/-- Descending-count ordering used to rank pool entries
(`organizeConstantData`'s comparator `a.second > b.second`, read as a
"less-than": an entry comes first when its count is at least the other's). -/
def constCountGE (a b : ConstValue × Nat) : Prop := b.2 ≤ a.2

instance : DecidableRel constCountGE :=
  fun a b => inferInstanceAs (Decidable (b.2 ≤ a.2))

instance : IsTotal (ConstValue × Nat) constCountGE :=
  ⟨fun a b => Nat.le_total b.2 a.2⟩

instance : IsTrans (ConstValue × Nat) constCountGE :=
  ⟨fun _ _ _ h1 h2 => Nat.le_trans h2 h1⟩

/-- `PreprocessData::organizeConstantData`: sort the pool by descending
reference count.  The source calls `std::sort`, which promises a sorted
permutation with unspecified tie order; the embedding fixes insertion sort
as one implementation of that contract. -/
def organizeConstantData (pool : List (ConstValue × Nat)) : List (ConstValue × Nat) :=
  pool.insertionSort constCountGE

/-- `WALRUS_ASSIGN_CONSTANT_ON_STACK_MAX_COUNT` (default 6). -/
def maxConstantData : Nat := 6

/-- The lookup loop at the head of `PreprocessData::addConstantData`:
bump the count of the entry holding `v`, reporting whether it was found. -/
def bumpConstant (v : ConstValue) : List (ConstValue × Nat) → (List (ConstValue × Nat) × Bool)
  | [] => ([], false)
  | c :: rest =>
      if c.1 = v then ((c.1, c.2 + 1) :: rest, true)
      else
        let r := bumpConstant v rest
        (c :: r.1, r.2)

/-- `PreprocessData::addConstantData`: bump or append the constant, then,
when the pool has grown beyond `maxConstantData` entries, sort it by
descending count and erase the final `maxConstantData / 4` entries
(`m_constantData.erase(m_constantData.end() - maxConstantData / 4, ...)`). -/
def addConstantData (pool : List (ConstValue × Nat)) (v : ConstValue) : List (ConstValue × Nat) :=
  let r := bumpConstant v pool
  let pool2 := if r.2 then r.1 else r.1 ++ [(v, 1)]
  if maxConstantData < pool2.length then
    let s := organizeConstantData pool2
    s.take (s.length - maxConstantData / 4)
  else pool2

/-- One first-pass usage interval of a local
(`LocalVariableInfo::UsageInfo`).  `endPosition = sizeMax` marks a still
open interval. -/
structure UsageInfo where
  startPosition : Nat
  endPosition : Nat
  pushCount : Nat
  hasWriteUsage : Bool
deriving DecidableEq, Repr

/-- Per-local first-pass record (`PreprocessData::LocalVariableInfo`). -/
structure LocalVariableInfo where
  needsExplicitInitOnStartup : Bool
  definitelyWritePlaces : List Nat
  writePlacesBetweenBranches : List Nat
  usageInfo : List UsageInfo
deriving DecidableEq, Repr

/-- A fresh `LocalVariableInfo` (its default constructor). -/
def LocalVariableInfo.init : LocalVariableInfo :=
  ⟨false, [], [], []⟩

/-- `PreprocessData::addLocalVariableUsage` restricted to one local's
record: append an open interval at `pos` and raise the
needs-explicit-init flag when no write-since-last-branch is recorded and
no definitive write precedes `pos`.  `pushCount` is the number of shadow
stack entries currently referring to this local (computed by the caller). -/
def addLocalVariableUsage (pos pushCount : Nat) (info : LocalVariableInfo) : LocalVariableInfo :=
  let info := { info with usageInfo := info.usageInfo ++ [⟨pos, sizeMax, pushCount, false⟩] }
  if !info.needsExplicitInitOnStartup then
    if info.writePlacesBetweenBranches.length = 0 then
      let writeFound := info.definitelyWritePlaces.any (fun w => w < pos)
      if !writeFound then { info with needsExplicitInitOnStartup := true } else info
    else info
  else info

/-- `PreprocessData::addLocalVariableWrite` restricted to one local's
record: mark every interval containing `pos` as written, record `pos` as
a definitive write place when no enclosing block has seen a branch
(`isDefinitelyWritePlace`), and always record it as a
write-since-last-branch. -/
def addLocalVariableWrite (pos : Nat) (isDefinitelyWritePlace : Bool) (info : LocalVariableInfo) : LocalVariableInfo :=
  let usage := info.usageInfo.map fun u =>
    if u.startPosition ≤ pos ∧ pos ≤ u.endPosition then { u with hasWriteUsage := true } else u
  { info with
    usageInfo := usage
    definitelyWritePlaces :=
      if isDefinitelyWritePlace then info.definitelyWritePlaces ++ [pos]
      else info.definitelyWritePlaces
    writePlacesBetweenBranches := info.writePlacesBetweenBranches ++ [pos] }

/-- The per-local effect of `PreprocessData::seenBranch`: the
writes-since-last-branch list is cleared. -/
def clearWritesBetweenBranches (info : LocalVariableInfo) : LocalVariableInfo :=
  { info with writePlacesBetweenBranches := [] }

/-- The backwards scan shared by `popVMStackInfo` and the `BlockInfo`
constructor: close the most recently opened interval that is still open
(`m_endPosition == SIZE_MAX`), setting its end to `pos`. -/
def closeLastOpenUsage (pos : Nat) (l : List UsageInfo) : List UsageInfo :=
  let rec go : List UsageInfo → List UsageInfo
    | [] => []
    | u :: rest =>
        if u.endPosition = sizeMax then { u with endPosition := pos } :: rest
        else u :: go rest
  (go l.reverse).reverse

/-- The bytecode records the embedding needs (a subset of the record kinds
of `interpreter/ByteCode.h`). `endRec` stands for `Walrus::End` and carries
its tail array of result offsets; `brTable` carries its default offset and
its tail array of per-target offsets. -/
inductive ByteCodeRec where
  | i32Eqz (src dst : Nat)
  | i32Add (src0 src1 dst : Nat)
  | moveI32 (src dst : Nat)
  | moveF32 (src dst : Nat)
  | moveI64 (src dst : Nat)
  | moveF64 (src dst : Nat)
  | moveV128 (src dst : Nat)
  | jump (offset : Int)
  | jumpIfTrue (src : Nat) (offset : Int)
  | jumpIfFalse (src : Nat) (offset : Int)
  | const32 (dst : Nat) (value : Nat)
  | const64 (dst : Nat) (value : Nat)
  | const128 (dst : Nat) (value : Nat)
  | endRec (resultOffsets : List Nat)
  | brTable (cond : Nat) (defaultOffset : Int) (jumpOffsets : List Int)
  | unreachableRec
deriving DecidableEq, Repr

/-- `ByteCode::pointerAlignedSize` on the 64-bit build. -/
def pointerAlignedSize (n : Nat) : Nat := 8 * ((n + 7) / 8)

/-- Modelled from the spec: `sizeof(Walrus::BrTable)` (the fixed header of
a `br_table` record; its tail of `int32_t` targets follows it). -/
def sizeofBrTable : Nat := 24

/-- Modelled from the spec: `Walrus::BrTable::offsetOfDefault()`, the byte
offset of the default-target field inside the `BrTable` header.  It is
positive because every record is prefixed by its opcode tag. -/
def offsetOfDefault : Nat := 16

/-- Modelled from the spec: byte sizes of the fixed-width records
(`sizeof(...)` over `ByteCode.h`, which is not among the given sources).
Records with tail arrays add their pointer-aligned tail
(`expandByteCode(ByteCode::pointerAlignedSize(...))` in the source). -/
def recordSize : ByteCodeRec → Nat
  | .i32Eqz _ _ => 16
  | .i32Add _ _ _ => 16
  | .moveI32 _ _ => 16
  | .moveF32 _ _ => 16
  | .moveI64 _ _ => 16
  | .moveF64 _ _ => 16
  | .moveV128 _ _ => 16
  | .jump _ => 16
  | .jumpIfTrue _ _ => 16
  | .jumpIfFalse _ _ => 16
  | .const32 _ _ => 16
  | .const64 _ _ => 24
  | .const128 _ _ => 32
  | .endRec rs => 16 + pointerAlignedSize (2 * rs.length)
  | .brTable _ _ offs => sizeofBrTable + pointerAlignedSize (4 * offs.length)
  | .unreachableRec => 8

/-- `sizeof(Walrus::I32Eqz)` (a `UnaryOperation` record). -/
def sizeofI32Eqz : Nat := recordSize (.i32Eqz 0 0)

/-- `sizeof(Walrus::JumpIfTrue)` (equal to `sizeof(Walrus::JumpIfFalse)`,
as the source static-asserts). -/
def sizeofJumpIf : Nat := recordSize (.jumpIfTrue 0 0)

/-- `sizeof(Walrus::End)` (the header of an `End` record). -/
def sizeofEnd : Nat := recordSize (.endRec [])

/-- `s_noI32Eqz = SIZE_MAX - sizeof(Walrus::I32Eqz)`: the sentinel meaning
"no fusable `i32.eqz` has been emitted since the last block end". -/
def noI32Eqz : Nat := sizeMax - sizeofI32Eqz

/-- `ModuleFunction::currentByteCodeSize()`: the byte size of the buffer,
i.e. the sum of the record sizes. -/
def byteCodeSizeOf (b : List ByteCodeRec) : Nat :=
  (b.map recordSize).sum

/-- Traversal underlying `recordAt`. -/
def recordAtGo (p cur : Nat) : List ByteCodeRec → Option ByteCodeRec
  | [] => none
  | r :: rest => if cur = p then some r else recordAtGo p (cur + recordSize r) rest

/-- The record starting exactly at byte position `p` of the buffer
(`peekByteCode<T>(p)` for a record boundary `p`). -/
def recordAt (b : List ByteCodeRec) (p : Nat) : Option ByteCodeRec :=
  recordAtGo p 0 b

/-- Traversal underlying `modifyRecordAt`. -/
def modifyRecordAtGo (p : Nat) (f : ByteCodeRec → ByteCodeRec) (cur : Nat) :
    List ByteCodeRec → List ByteCodeRec
  | [] => []
  | r :: rest =>
      if cur = p then f r :: rest else r :: modifyRecordAtGo p f (cur + recordSize r) rest

/-- Replace the record starting exactly at byte position `p`
(the write half of `peekByteCode<T>(p)->set...`). -/
def modifyRecordAt (b : List ByteCodeRec) (p : Nat) (f : ByteCodeRec → ByteCodeRec) : List ByteCodeRec :=
  modifyRecordAtGo p f 0 b

/-- Traversal underlying `resizeByteCode`. -/
def resizeByteCodeGo (p cur : Nat) : List ByteCodeRec → List ByteCodeRec
  | [] => []
  | r :: rest =>
      if cur + recordSize r ≤ p then r :: resizeByteCodeGo p (cur + recordSize r) rest else []

/-- `ModuleFunction::resizeByteCode(p)` for a rewind: keep the records that
fit entirely below byte position `p`. -/
def resizeByteCode (b : List ByteCodeRec) (p : Nat) : List ByteCodeRec :=
  resizeByteCodeGo p 0 b

/-- `setOffset` on a `Jump`, `JumpIfTrue` or `JumpIfFalse` record
(the three records share the layout of their offset field, as the source
static-asserts for the conditional pair). -/
def setJumpOffset (off : Int) : ByteCodeRec → ByteCodeRec
  | .jump _ => .jump off
  | .jumpIfTrue src _ => .jumpIfTrue src off
  | .jumpIfFalse src _ => .jumpIfFalse src off
  | r => r

/-- Read the 32-bit slot of a `BrTable` record that lives `jo` bytes after
the record start: the default-target field or a tail-array entry. -/
def brTableSlotGet (r : ByteCodeRec) (jo : Nat) : Option Int :=
  match r with
  | .brTable _ defaultOffset jumpOffsets =>
      if jo = offsetOfDefault then some defaultOffset
      else if sizeofBrTable ≤ jo then jumpOffsets.get? ((jo - sizeofBrTable) / 4)
      else none
  | _ => none

/-- Write the 32-bit slot of a `BrTable` record that lives `jo` bytes after
the record start (`*(int32_t *)(peekByteCode<uint8_t>(base) + jo) = v`). -/
def brTableSlotSet (r : ByteCodeRec) (jo : Nat) (v : Int) : ByteCodeRec :=
  match r with
  | .brTable cond defaultOffset jumpOffsets =>
      if jo = offsetOfDefault then .brTable cond v jumpOffsets
      else if sizeofBrTable ≤ jo then
        .brTable cond defaultOffset (jumpOffsets.set ((jo - sizeofBrTable) / 4) v)
      else .brTable cond defaultOffset jumpOffsets
  | r => r

/-- Traversal underlying `recordContaining`. -/
def recordContainingGo (p cur : Nat) : List ByteCodeRec → Option (Nat × ByteCodeRec)
  | [] => none
  | r :: rest =>
      if cur ≤ p ∧ p < cur + recordSize r then some (cur, r)
      else recordContainingGo p (cur + recordSize r) rest

/-- The record containing byte position `p` together with its start
position, used to resolve a write through an interior pointer. -/
def recordContaining (b : List ByteCodeRec) (p : Nat) : Option (Nat × ByteCodeRec) :=
  recordContainingGo p 0 b

/-- Apply `f` to the 32-bit slot at absolute byte position `p`, which lies
inside a `BrTable` record (`*(int32_t *)(peekByteCode<uint8_t>(...) + jo)`
in `emitBrTableCase` and `OnEndExpr`). -/
def modifyBrTableSlotAt (b : List ByteCodeRec) (p : Nat) (f : Int → Int) : List ByteCodeRec :=
  match recordContaining b p with
  | some (start, r) =>
      match brTableSlotGet r (p - start) with
      | some old => modifyRecordAt b start (fun _ => brTableSlotSet r (p - start) (f old))
      | none => b
  | none => b

/-- A function type (`Walrus::FunctionType`). -/
structure FunctionType where
  param : List ValueType
  result : List ValueType
deriving DecidableEq, Repr

/-- `FunctionType::paramStackSize()`. -/
def FunctionType.paramStackSize (ft : FunctionType) : Nat :=
  (ft.param.map valueStackAllocatedSize).sum

/-- A wabt block signature (`wabt::Type` as used for block return types):
void, a single value kind, or an index into the module's function types. -/
inductive SigType where
  | void
  | val (t : ValueType)
  | idx (i : Nat)
deriving DecidableEq, Repr

/-- `Type::IsIndex()`. -/
def SigType.isIndex : SigType → Bool
  | .idx _ => true
  | _ => false

/-- One shadow-stack entry (`WASMBinaryReader::VMStackInfo`):
value kind, effective position, canonical (non-optimized) position, and a
local-index back-link with `sizeMax` as the "no local" sentinel. -/
structure VMStackInfo where
  valueType : ValueType
  pos : Nat
  nonOptimizedPos : Nat
  localIndex : Nat
deriving DecidableEq, Repr

instance : Inhabited VMStackInfo := ⟨⟨.i32, 0, 0, 0⟩⟩

/-- `VMStackInfo::hasValidLocalIndex()`. -/
def VMStackInfo.hasValidLocalIndex (i : VMStackInfo) : Bool :=
  i.localIndex ≠ sizeMax

/-- `VMStackInfo::stackAllocatedSize()`. -/
def VMStackInfo.stackAllocatedSize (i : VMStackInfo) : Nat :=
  valueStackAllocatedSize i.valueType

/-- Block kinds (`BlockInfo::BlockType`). -/
inductive BlockType where
  | ifElse
  | loop
  | block
  | tryCatch
deriving DecidableEq, Repr

/-- Fixup kinds (`BlockInfo::JumpToEndBrInfo::JumpToEndType`). -/
inductive JumpToEndType where
  | isJump
  | isJumpIf
  | isBrTable
deriving DecidableEq, Repr

/-- A deferred branch fixup recorded against a block
(`BlockInfo::JumpToEndBrInfo`): its kind and the byte position of the
field to patch at block end. -/
structure JumpToEndBrInfo where
  ty : JumpToEndType
  pos : Nat
deriving DecidableEq, Repr

/-- A nested control-structure record (`WASMBinaryReader::BlockInfo`). -/
structure BlockInfo where
  blockType : BlockType
  returnValueType : SigType
  pos : Nat
  vmStack : List VMStackInfo
  functionStackSizeSoFar : Nat
  shouldRestoreVMStackAtEnd : Bool
  byteCodeGenerationStopped : Bool
  seenBranch : Bool
  jumpToEndBrInfo : List JumpToEndBrInfo
deriving DecidableEq, Repr

/-- Pending catch clauses of open try blocks
(`WASMBinaryReader::CatchInfo`). -/
structure CatchInfo where
  tryCatchBlockDepth : Nat
  tryStart : Nat
  tryEnd : Nat
  catchStart : Nat
  tagIndex : Nat
deriving DecidableEq, Repr

/-- A finished catch record of the module function
(`ModuleFunction::m_catchInfo` entries). -/
structure FunctionCatchInfo where
  tryStart : Nat
  tryEnd : Nat
  catchStart : Nat
  stackSizeToBe : Nat
  tagIndex : Nat
deriving DecidableEq, Repr

/-- Per-local kind and home offset (`WASMBinaryReader::LocalInfo`). -/
structure LocalInfo where
  valueType : ValueType
  pos : Nat
deriving DecidableEq, Repr

instance : Inhabited LocalInfo := ⟨⟨.i32, 0⟩⟩

/-- First-pass accumulator (`WASMBinaryReader::PreprocessData`). -/
structure PreprocessData where
  inPreprocess : Bool
  localVariableInfo : List LocalVariableInfo
  constantData : List (ConstValue × Nat)
deriving DecidableEq, Repr

/-- The emitter state for one function: the mutable members of
`WASMBinaryReader` that the translated handlers read and write, plus the
parts of the current `ModuleFunction` they produce (`byteCode`,
`requiredStackSize`, `functionCatchInfo`).  `functionStackSizeSoFar` and
`initialFunctionStackSize` are `uint16_t` in the source and are kept
reduced modulo 2^16. -/
structure State where
  byteCode : List ByteCodeRec
  lastI32EqzPos : Nat
  vmStack : List VMStackInfo
  blockInfo : List BlockInfo
  catchInfo : List CatchInfo
  functionCatchInfo : List FunctionCatchInfo
  functionStackSizeSoFar : Nat
  initialFunctionStackSize : Nat
  requiredStackSize : Nat
  localInfo : List LocalInfo
  preprocessData : PreprocessData
  functionTypes : List FunctionType
  currentFunctionType : FunctionType
  readerOffset : Nat
  codeBytes : List Nat
  codeEndOffset : Nat
  shouldContinueToGenerateByteCode : Bool
  resumeGenerateByteCodeAfterNBlockEnd : Nat
  inInitExpr : Bool
deriving DecidableEq, Repr

/-- `currentByteCodeSize()` of the state's buffer. -/
def State.csize (s : State) : Nat := byteCodeSizeOf s.byteCode

/-- `pushByteCode`: append a record; the overload taking a
`Walrus::I32Eqz` additionally records the record's position in
`m_lastI32EqzPos` (overload resolution is by the record's static type, so
exactly the `i32Eqz` records update the tracker). -/
def pushByteCode (r : ByteCodeRec) (s : State) : State :=
  match r with
  | .i32Eqz a b => { s with lastI32EqzPos := s.csize, byteCode := s.byteCode ++ [.i32Eqz a b] }
  | r => { s with byteCode := s.byteCode ++ [r] }

/-- `WASMBinaryReader::canBeInverted(stackPos)`: the tracked `i32.eqz` is
the final record of the buffer and its destination is `stackPos`.  The
source reads the destination field through a `UnaryOperation` pointer; a
position tracked by `m_lastI32EqzPos` always holds an `i32.eqz` record, so
the embedding matches on that record kind. -/
def canBeInverted (s : State) (stackPos : Nat) : Bool :=
  (s.lastI32EqzPos + sizeofI32Eqz = s.csize : Bool) &&
    match recordAt s.byteCode s.lastI32EqzPos with
    | some (.i32Eqz _ dst) => dst = stackPos
    | _ => false

/-- `i32.eqz` source operand of the tracked record, read in the fusion
paths of `OnBrIfExpr` and `OnIfExpr`
(`peekByteCode<UnaryOperation>(m_lastI32EqzPos)->srcOffset()`). -/
def trackedEqzSrc (s : State) : Nat :=
  match recordAt s.byteCode s.lastI32EqzPos with
  | some (.i32Eqz src _) => src
  | _ => 0

/-- 16-bit wrap-around of the source's `uint16_t` stack-size arithmetic. -/
def u16 (n : Nat) : Nat := n % 65536

instance : Inhabited BlockInfo :=
  ⟨⟨.block, .void, 0, [], 0, false, false, false, []⟩⟩

/-- Replace the last element of a list (`back()` mutation). -/
def modifyLast (f : α → α) : List α → List α
  | [] => []
  | [x] => [f x]
  | x :: rest => x :: modifyLast f rest

/-- Function type looked up for an index block signature
(`m_result.m_functionTypes[type]`). -/
def State.ftypeAt (s : State) (i : Nat) : FunctionType :=
  s.functionTypes.getD i ⟨[], []⟩

/-- `PreprocessData::seenBranch()`: during the first pass, mark the
innermost block as having seen a branch and clear every local's
writes-since-last-branch list. -/
def applySeenBranch (s : State) : State :=
  if s.preprocessData.inPreprocess then
    let s := { s with blockInfo := modifyLast (fun bi => { bi with seenBranch := true }) s.blockInfo }
    { s with preprocessData :=
        { s.preprocessData with
          localVariableInfo := s.preprocessData.localVariableInfo.map clearWritesBetweenBranches } }
  else s

/-- `PreprocessData::addLocalVariableUsage(localIndex)` lifted to the
state: during the first pass, record a usage of the local at the current
reader offset; the concurrent push count scans the shadow stack before the
entry is pushed, exactly as the call site in `pushVMStack` does. -/
def applyAddLocalVariableUsage (idx : Nat) (s : State) : State :=
  if s.preprocessData.inPreprocess then
    let pushCount := (s.vmStack.filter (fun e => e.localIndex = idx)).length
    let infos := s.preprocessData.localVariableInfo
    let info := infos.getD idx .init
    { s with preprocessData :=
        { s.preprocessData with
          localVariableInfo := infos.set idx (addLocalVariableUsage s.readerOffset pushCount info) } }
  else s

/-- `PreprocessData::addLocalVariableWrite(localIndex)` lifted to the
state; a write place is definitive when no enclosing block has seen a
branch. -/
def applyAddLocalVariableWrite (idx : Nat) (s : State) : State :=
  if s.preprocessData.inPreprocess then
    let isDef := !s.blockInfo.any (·.seenBranch)
    let infos := s.preprocessData.localVariableInfo
    let info := infos.getD idx .init
    { s with preprocessData :=
        { s.preprocessData with
          localVariableInfo := infos.set idx (addLocalVariableWrite s.readerOffset isDef info) } }
  else s

/-- Close the most recently opened usage interval of a local at the
current reader offset (the backwards `m_usageInfo` scan in
`popVMStackInfo` and the `BlockInfo` constructor). -/
def closeUsageOfLocal (idx : Nat) (s : State) : State :=
  let infos := s.preprocessData.localVariableInfo
  let info := infos.getD idx .init
  { s with preprocessData :=
      { s.preprocessData with
        localVariableInfo :=
          infos.set idx { info with usageInfo := closeLastOpenUsage s.readerOffset info.usageInfo } } }

/-- `pushVMStack(type, pos, localIndex)`: record the usage, append the
entry (whose canonical position is the running stack size), grow the
running size by the kind's allocated width with `uint16_t` wrap-around,
and raise the required-stack watermark. -/
def pushVMStackAt (t : ValueType) (pos : Nat) (localIndex : Nat) (s : State) : State :=
  let s := if localIndex ≠ sizeMax then applyAddLocalVariableUsage localIndex s else s
  let entry : VMStackInfo := ⟨t, pos, s.functionStackSizeSoFar, localIndex⟩
  let newSize := u16 (s.functionStackSizeSoFar + valueStackAllocatedSize t)
  { s with
    vmStack := s.vmStack ++ [entry]
    functionStackSizeSoFar := newSize
    requiredStackSize := max s.requiredStackSize newSize }

/-- `pushVMStack(type)`: push at the running stack size and return that
position. -/
def pushVMStack (t : ValueType) (s : State) : Nat × State :=
  (s.functionStackSizeSoFar, pushVMStackAt t s.functionStackSizeSoFar sizeMax s)

/-- `popVMStackInfo()`: remove the top entry, shrink the running size by
its width (`uint16_t` wrap-around), and during the first pass close the
entry's open usage interval.  Popping an empty shadow stack is undefined
in the source (a debug-only assertion); the embedding returns the state
unchanged with a dummy entry, a case no theorem below relies on. -/
def popVMStackInfo (s : State) : VMStackInfo × State :=
  match s.vmStack.getLast? with
  | none => (default, s)
  | some info =>
      let s := { s with
        vmStack := s.vmStack.dropLast
        functionStackSizeSoFar :=
          u16 (s.functionStackSizeSoFar + 65536 - valueStackAllocatedSize info.valueType) }
      let s :=
        if s.preprocessData.inPreprocess ∧ info.hasValidLocalIndex then
          closeUsageOfLocal info.localIndex s
        else s
      (info, s)

/-- `popVMStack()`. -/
def popVMStack (s : State) : Nat × State :=
  let r := popVMStackInfo s
  (r.1.pos, r.2)

/-- `peekVMStackInfo()` (undefined on an empty stack in the source). -/
def peekVMStackInfo (s : State) : VMStackInfo :=
  s.vmStack.getLast?.getD default

/-- Pop `n` entries, discarding them. -/
def popN : Nat → State → State
  | 0, s => s
  | n + 1, s => popN n (popVMStackInfo s).2

/-- The typed move record selected by `generateMoveCodeIfNeeds`
(references use the pointer-wide integer move on the 64-bit build). -/
def moveRecordFor (t : ValueType) (src dst : Nat) : ByteCodeRec :=
  match t with
  | .i32 => .moveI32 src dst
  | .f32 => .moveF32 src dst
  | .i64 => .moveI64 src dst
  | .f64 => .moveF64 src dst
  | .v128 => .moveV128 src dst
  | .funcRef => .moveI64 src dst
  | .externRef => .moveI64 src dst

/-- `generateMoveCodeIfNeeds`: emit a typed move unless source and
destination already coincide. -/
def generateMoveCodeIfNeeds (src dst : Nat) (t : ValueType) (s : State) : State :=
  if src ≠ dst then pushByteCode (moveRecordFor t src dst) s else s

/-- The canonicalization loop of the `BlockInfo` constructor, acting on
the reversed shadow stack (top first): for each of the `k` argument
entries whose effective position differs from its canonical one, emit a
move, close the backing local's open usage interval during the first
pass, reset the position and drop the local back-link.  (The source's
`setPosition` happens through the live iterator, so the stack entries are
updated in place.) -/
def blockParamCanonCtor : Nat → List VMStackInfo → State → (List VMStackInfo × State)
  | 0, l, s => (l, s)
  | _ + 1, [], s => ([], s)
  | k + 1, e :: rest, s =>
      if e.pos ≠ e.nonOptimizedPos then
        let s := generateMoveCodeIfNeeds e.pos e.nonOptimizedPos e.valueType s
        let s :=
          if s.preprocessData.inPreprocess ∧ e.hasValidLocalIndex then
            closeUsageOfLocal e.localIndex s
          else s
        let e := { e with pos := e.nonOptimizedPos, localIndex := sizeMax }
        let r := blockParamCanonCtor k rest s
        (e :: r.1, r.2)
      else
        let r := blockParamCanonCtor k rest s
        (e :: r.1, r.2)

/-- The loop-parameter canonicalization loop of `OnBrExpr`/`OnBrIfExpr`,
acting on the reversed shadow stack: move each of the top `k` entries to
its canonical position and update the entry. -/
def loopParamCanon : Nat → List VMStackInfo → State → (List VMStackInfo × State)
  | 0, l, s => (l, s)
  | _ + 1, [], s => ([], s)
  | k + 1, e :: rest, s =>
      let s := generateMoveCodeIfNeeds e.pos e.nonOptimizedPos e.valueType s
      let e := { e with pos := e.nonOptimizedPos }
      let r := loopParamCanon k rest s
      (e :: r.1, r.2)

/-- The `BlockInfo` constructor: capture the running stack size, derive
`shouldRestoreVMStackAtEnd` from the signature, canonicalize the block's
parameters when the signature is a function-type index with parameters,
then snapshot the shadow stack and the bytecode position. -/
def mkBlockInfo (bt : BlockType) (sig : SigType) (s : State) : BlockInfo × State :=
  let savedSize := s.functionStackSizeSoFar
  let shouldRestore : Bool :=
    (sig.isIndex &&
      !(match sig with
        | .idx i => (s.ftypeAt i).result
        | _ => []).isEmpty) || decide (sig ≠ SigType.void)
  let s :=
    match sig with
    | .idx i =>
        let ft := s.ftypeAt i
        if ft.param.length ≠ 0 then
          let r := blockParamCanonCtor ft.param.length s.vmStack.reverse s
          { r.2 with vmStack := r.1.reverse }
        else s
    | _ => s
  (⟨bt, sig, s.csize, s.vmStack, savedSize, shouldRestore, false, false, []⟩, s)

/-- `restoreVMStackBy(blockInfo)`: pop down to the snapshot's depth, then
restore the snapshot and the saved running size. -/
def restoreVMStackBy (bi : BlockInfo) (s : State) : State :=
  let s :=
    if bi.vmStack.length ≤ s.vmStack.length then
      popN (s.vmStack.length - bi.vmStack.length) s
    else s
  { s with vmStack := bi.vmStack, functionStackSizeSoFar := bi.functionStackSizeSoFar }

/-- The result-keeping loop of `keepBlockResultsIfNeeds`: `n` times, move
the top entry to its canonical position if needed and pop it. -/
def popResultsWithMoves : Nat → State → State
  | 0, s => s
  | n + 1, s =>
      let info := peekVMStackInfo s
      let s := generateMoveCodeIfNeeds info.pos info.nonOptimizedPos info.valueType s
      popResultsWithMoves n (popVMStackInfo s).2

/-- `keepBlockResultsIfNeeds(blockInfo, dropSize)` (the `dropSize`
argument is unused by the source's body): when the block restores the
stack at its end and generation was not stopped, move the block's result
values to their canonical positions. -/
def keepBlockResultsIfNeeds (bi : BlockInfo) (s : State) : State :=
  if bi.shouldRestoreVMStackAtEnd ∧ ¬bi.byteCodeGenerationStopped then
    match bi.returnValueType with
    | .idx i => popResultsWithMoves (s.ftypeAt i).result.length s
    | .val _ => popResultsWithMoves 1 s
    | .void => s
  else s

/-- `findBlockInfoInBr(depth)`: the block `depth` levels below the top of
the block stack. -/
def findBlockInfoInBr (depth : Nat) (s : State) : BlockInfo :=
  s.blockInfo.getD (s.blockInfo.length - 1 - depth) default

/-- Update the block `depth` levels below the top of the block stack (the
source mutates it through the reference returned by
`findBlockInfoInBr`). -/
def modifyBlockInBr (depth : Nat) (f : BlockInfo → BlockInfo) (s : State) : State :=
  { s with blockInfo :=
      (s.blockInfo.set (s.blockInfo.length - 1 - depth) (f (findBlockInfoInBr depth s))) }

/-- `dropStackValuesBeforeBrIfNeeds(depth)`: the (drop size, parameter
size) pair for a branch to the block `depth` levels up; a branch past the
outermost block drops down to the outermost snapshot. -/
def dropStackValuesBeforeBrIfNeeds (depth : Nat) (s : State) : Nat × Nat :=
  if depth < s.blockInfo.length then
    let iter := findBlockInfoInBr depth s
    if iter.vmStack.length < s.vmStack.length then
      let drop0 := ((s.vmStack.drop iter.vmStack.length).map (·.stackAllocatedSize)).sum
      if iter.blockType = .loop then
        match iter.returnValueType with
        | .idx i =>
            let ft := s.ftypeAt i
            (drop0 + ft.paramStackSize, ft.paramStackSize)
        | _ => (drop0, 0)
      else
        match iter.returnValueType with
        | .idx i => (drop0, ((s.ftypeAt i).result.map valueStackAllocatedSize).sum)
        | .val t => (drop0, valueStackAllocatedSize t)
        | .void => (drop0, 0)
    else (0, 0)
  else if s.blockInfo.length ≠ 0 then
    let iter := s.blockInfo.getD 0 default
    (((s.vmStack.drop iter.vmStack.length).map (·.stackAllocatedSize)).sum, 0)
  else (0, 0)

/-- The accumulation loops of `generateMoveValuesCodeRegardToDrop`: the
index (from the top of the stack) at which the running width sum hits
`target` exactly; `none` on a stack mismatch (overshoot) or exhaustion. -/
def findExactAllocIdx (target : Nat) (rev : List VMStackInfo) : Option Nat :=
  let rec go (remain : Int) (idx : Nat) : List VMStackInfo → Option Nat
    | [] => none
    | e :: rest =>
        let r := remain - e.stackAllocatedSize
        if r = 0 then some idx
        else if r < 0 then none
        else go r (idx + 1) rest
  go target 0 rev

/-- The reverse-order copy loop of `generateMoveValuesCodeRegardToDrop`:
for `k = a, a-1, ..., 0`, move the entry `k` from the top to the canonical
position of the entry `k + d` from the top. -/
def emitDropMoves (rev : List VMStackInfo) (d : Nat) : Nat → State → State
  | 0, s =>
      let src := rev.getD 0 default
      let dst := rev.getD d default
      generateMoveCodeIfNeeds src.pos dst.nonOptimizedPos src.valueType s
  | k + 1, s =>
      let src := rev.getD (k + 1) default
      let dst := rev.getD (k + 1 + d) default
      let s := generateMoveCodeIfNeeds src.pos dst.nonOptimizedPos src.valueType s
      emitDropMoves rev d k s

/-- `generateMoveValuesCodeRegardToDrop(dropSize)`: locate the group of
top entries spanning `dropSize.second` bytes and the group spanning
`dropSize.first` bytes, and copy the former onto the canonical positions
of the latter in reverse order; on a stack mismatch no code is emitted. -/
def generateMoveValuesCodeRegardToDrop (dropSize : Nat × Nat) (s : State) : State :=
  let rev := s.vmStack.reverse
  match findExactAllocIdx dropSize.2 rev with
  | none => s
  | some a =>
      match findExactAllocIdx dropSize.1 rev with
      | none => s
      | some b => emitDropMoves rev (b - a) a s

/-- `stopToGenerateByteCodeWhileBlockEnd()`: unless a resume point is
already pending, either mark the innermost block stopped (forcing a
restore at its end) or, with no open block, drain the shadow stack; in
both cases generation stops. -/
def stopToGenerateByteCodeWhileBlockEnd (s : State) : State :=
  if s.resumeGenerateByteCodeAfterNBlockEnd ≠ 0 then s
  else if s.blockInfo.length ≠ 0 then
    let s := { s with
      resumeGenerateByteCodeAfterNBlockEnd := 1
      blockInfo := modifyLast
        (fun bi => { bi with shouldRestoreVMStackAtEnd := true, byteCodeGenerationStopped := true })
        s.blockInfo }
    { s with shouldContinueToGenerateByteCode := false }
  else
    let s := popN s.vmStack.length s
    { s with shouldContinueToGenerateByteCode := false }

/-- `generateEndCode(shouldClearVMStack)`: emit a `Walrus::End` record
whose tail array lists, in reverse-of-pop order and split into
pointer-sized chunks, the positions of the function's result values; the
malformed-initializer guard returns without emitting. -/
def generateEndCode (shouldClearVMStack : Bool) (s : State) : State :=
  if s.currentFunctionType.result.length > s.vmStack.length then s
  else
    let result := s.currentFunctionType.result
    let rev := s.vmStack.reverse
    let blocks := (List.range result.length).map fun i =>
      let t := result.getD (result.length - 1 - i) .i32
      let e := rev.getD i default
      (List.range (valueFunctionCopyCount t)).map fun j => e.pos + 8 * j
    let s := pushByteCode (.endRec blocks.reverse.flatten) s
    if shouldClearVMStack then popN result.length s else s

/-- The `while (dropSize) dropSize -= pop...` loop of
`generateFunctionReturnCode`; the fuel argument (instantiated with the
stack depth) makes the source's loop, which terminates on every reachable
state, structurally recursive. -/
def popWhileDrop (fuel : Nat) (drop : Int) (s : State) : State :=
  match fuel with
  | 0 => s
  | f + 1 =>
      if drop ≤ 0 then s
      else
        let r := popVMStackInfo s
        popWhileDrop f (drop - r.1.stackAllocatedSize) r.2

/-- `generateFunctionReturnCode(shouldClearVMStack)`. -/
def generateFunctionReturnCode (shouldClearVMStack : Bool) (s : State) : State :=
  let s := generateEndCode false s
  let s :=
    if shouldClearVMStack then
      let drop := (dropStackValuesBeforeBrIfNeeds s.blockInfo.length s).1
      popWhileDrop s.vmStack.length (drop : Int) s
    else
      let s := popN s.currentFunctionType.result.length s
      stopToGenerateByteCodeWhileBlockEnd s
  if s.blockInfo.length = 0 then
    { s with shouldContinueToGenerateByteCode := false, resumeGenerateByteCodeAfterNBlockEnd := 0 }
  else s

/-- `OnIfExpr(sigType)`: pop the condition, fuse with a pending `i32.eqz`
when `canBeInverted` holds (rewinding the buffer and switching to the
eqz's source), open the if block with a conditional-jump fixup at its
start, and emit the conditional jump — `JumpIfTrue` when inverted,
`JumpIfFalse` otherwise. -/
def OnIfExpr (sig : SigType) (s : State) : State :=
  let r := popVMStack s
  let s := r.2
  let isInverted := canBeInverted s r.1
  let stackPos := if isInverted then trackedEqzSrc s else r.1
  let s :=
    if isInverted then
      { s with byteCode := resizeByteCode s.byteCode s.lastI32EqzPos, lastI32EqzPos := noI32Eqz }
    else s
  let bs := mkBlockInfo .ifElse sig s
  let b := { bs.1 with jumpToEndBrInfo := [⟨.isJumpIf, bs.1.pos⟩] }
  let s := { bs.2 with blockInfo := bs.2.blockInfo ++ [b] }
  let s := pushByteCode (if isInverted then .jumpIfTrue stackPos 0 else .jumpIfFalse stackPos 0) s
  applySeenBranch s

/-- `OnLoopExpr(sigType)`. -/
def OnLoopExpr (sig : SigType) (s : State) : State :=
  let bs := mkBlockInfo .loop sig s
  { bs.2 with blockInfo := bs.2.blockInfo ++ [bs.1] }

/-- `OnBlockExpr(sigType)`. -/
def OnBlockExpr (sig : SigType) (s : State) : State :=
  let bs := mkBlockInfo .block sig s
  { bs.2 with blockInfo := bs.2.blockInfo ++ [bs.1] }

/-- `OnBrExpr(depth)`: a branch past the outermost block acts as a
return; otherwise move branch values as the drop/parameter sizes demand
(or canonicalize loop parameters), register a jump fixup against non-loop
targets, emit the jump, and stop generation. -/
def OnBrExpr (depth : Nat) (s : State) : State :=
  let s := applySeenBranch s
  if s.blockInfo.length = depth then generateFunctionReturnCode true s
  else
    let blockInfo := findBlockInfoInBr depth s
    let offset : Int := (blockInfo.pos : Int) - (s.csize : Int)
    let dropSize := dropStackValuesBeforeBrIfNeeds depth s
    let s :=
      if dropSize.2 ≠ 0 then generateMoveValuesCodeRegardToDrop dropSize s
      else
        match blockInfo.returnValueType with
        | .idx i =>
            let ft := s.ftypeAt i
            if blockInfo.blockType = .loop ∧ ft.param.length ≠ 0 then
              let r := loopParamCanon ft.param.length s.vmStack.reverse s
              { r.2 with vmStack := r.1.reverse }
            else s
        | _ => s
    let s :=
      if blockInfo.blockType ≠ .loop then
        modifyBlockInBr depth
          (fun bi => { bi with jumpToEndBrInfo := bi.jumpToEndBrInfo ++ [⟨.isJump, s.csize⟩] }) s
      else s
    let s := pushByteCode (.jump offset) s
    stopToGenerateByteCodeWhileBlockEnd s

/-- `OnBrIfExpr(depth)`: pop the condition, fuse with a pending `i32.eqz`
when `canBeInverted` holds, then emit one of the four source paths —
return-like (`depth` equals the block-stack size), branch with value
moves, loop back-edge with parameter canonicalization, or the plain
conditional jump with a conditional-jump fixup.  Fusion inverts the
polarity of the emitted conditional jump in every path. -/
def OnBrIfExpr (depth : Nat) (s : State) : State :=
  let s := applySeenBranch s
  let r := popVMStack s
  let s := r.2
  let isInverted := canBeInverted s r.1
  let stackPos := if isInverted then trackedEqzSrc s else r.1
  let s :=
    if isInverted then
      { s with byteCode := resizeByteCode s.byteCode s.lastI32EqzPos, lastI32EqzPos := noI32Eqz }
    else s
  if s.blockInfo.length = depth then
    let pos := s.csize
    let offVal : Int := ((sizeofJumpIf + sizeofEnd + 2 * s.currentFunctionType.result.length : Nat) : Int)
    let s := pushByteCode (if isInverted then .jumpIfTrue stackPos offVal else .jumpIfFalse stackPos offVal) s
    let s := generateEndCode false s
    { s with byteCode := modifyRecordAt s.byteCode pos (setJumpOffset ((s.csize : Int) - (pos : Int))) }
  else
    let blockInfo := findBlockInfoInBr depth s
    let dropSize := dropStackValuesBeforeBrIfNeeds depth s
    if dropSize.2 ≠ 0 then
      let pos := s.csize
      let s := pushByteCode (if isInverted then .jumpIfTrue stackPos 0 else .jumpIfFalse stackPos 0) s
      let s := generateMoveValuesCodeRegardToDrop dropSize s
      let offset : Int := (blockInfo.pos : Int) - (s.csize : Int)
      let s :=
        if blockInfo.blockType ≠ .loop then
          modifyBlockInBr depth
            (fun bi => { bi with jumpToEndBrInfo := bi.jumpToEndBrInfo ++ [⟨.isJump, s.csize⟩] }) s
        else s
      let s := pushByteCode (.jump offset) s
      { s with byteCode := modifyRecordAt s.byteCode pos (setJumpOffset ((s.csize : Int) - (pos : Int))) }
    else if blockInfo.blockType = .loop ∧ blockInfo.returnValueType.isIndex ∧
        (match blockInfo.returnValueType with
         | .idx i => (s.ftypeAt i).param.length
         | _ => 0) ≠ 0 then
      let pos := s.csize
      let s := pushByteCode (if isInverted then .jumpIfTrue stackPos 0 else .jumpIfFalse stackPos 0) s
      let paramLen :=
        match blockInfo.returnValueType with
        | .idx i => (s.ftypeAt i).param.length
        | _ => 0
      let r2 := loopParamCanon paramLen s.vmStack.reverse s
      let s := { r2.2 with vmStack := r2.1.reverse }
      let offset : Int := (blockInfo.pos : Int) - (s.csize : Int)
      let s :=
        if blockInfo.blockType ≠ .loop then
          modifyBlockInBr depth
            (fun bi => { bi with jumpToEndBrInfo := bi.jumpToEndBrInfo ++ [⟨.isJump, s.csize⟩] }) s
        else s
      let s := pushByteCode (.jump offset) s
      { s with byteCode := modifyRecordAt s.byteCode pos (setJumpOffset ((s.csize : Int) - (pos : Int))) }
    else
      let offset : Int := (blockInfo.pos : Int) - (s.csize : Int)
      let s :=
        if blockInfo.blockType ≠ .loop then
          modifyBlockInBr depth
            (fun bi => { bi with jumpToEndBrInfo := bi.jumpToEndBrInfo ++ [⟨.isJumpIf, s.csize⟩] }) s
        else s
      pushByteCode (if isInverted then .jumpIfFalse stackPos offset else .jumpIfTrue stackPos offset) s

/-- `emitBrTableCase(brTableCode, depth, jumpOffset)`: fill in one slot of
an emitted `BrTable` record — as an end-of-function case, as a rewritten
`br` when value moves are needed, or as a block-relative offset.  For a
non-loop target the written value is the slot's own intra-record offset
and an `IsBrTable` fixup is registered at byte `brTableCode + jumpOffset`. -/
def emitBrTableCase (brTableCode : Nat) (depth : Nat) (jumpOffset : Nat) (s : State) : State :=
  let offset : Int := (s.csize : Int) - (brTableCode : Int)
  if s.blockInfo.length = depth then
    let s := { s with byteCode := modifyBrTableSlotAt s.byteCode (brTableCode + jumpOffset) (fun _ => offset) }
    generateEndCode false s
  else
    let dropSize := dropStackValuesBeforeBrIfNeeds depth s
    if dropSize.2 ≠ 0 then
      let s := { s with byteCode := modifyBrTableSlotAt s.byteCode (brTableCode + jumpOffset) (fun _ => offset) }
      OnBrExpr depth s
    else
      let blockInfo := findBlockInfoInBr depth s
      let offset2 : Int := (blockInfo.pos : Int) - (brTableCode : Int)
      let r :=
        if blockInfo.blockType ≠ .loop then
          ((jumpOffset : Int),
            modifyBlockInBr depth
              (fun bi => { bi with jumpToEndBrInfo := bi.jumpToEndBrInfo ++ [⟨.isBrTable, brTableCode + jumpOffset⟩] }) s)
        else (offset2, s)
      { r.2 with byteCode := modifyBrTableSlotAt r.2.byteCode (brTableCode + jumpOffset) (fun _ => r.1) }

/-- `OnBrTableExpr(numTargets, targetDepths, defaultTargetDepth)`: pop the
selector, emit the `BrTable` record with its zero-initialized
pointer-aligned tail, fill every target slot and the default slot, and
stop generation. -/
def OnBrTableExpr (targetDepths : List Nat) (defaultTargetDepth : Nat) (s : State) : State :=
  let s := applySeenBranch s
  let r := popVMStack s
  let s := r.2
  let brTableCode := s.csize
  let s := pushByteCode (.brTable r.1 0 (List.replicate targetDepths.length 0)) s
  let s := (List.range targetDepths.length).foldl
    (fun s i => emitBrTableCase brTableCode (targetDepths.getD i 0) (sizeofBrTable + 4 * i) s) s
  let s := emitBrTableCase brTableCode defaultTargetDepth offsetOfDefault s
  stopToGenerateByteCodeWhileBlockEnd s

/-- The `TryCatch` harvest loop of `OnEndExpr`: catch records whose depth
matches the block being closed move to the module function, capturing the
restore stack size from the block's snapshot depth against the current
shadow stack. -/
def harvestCatch (bi : BlockInfo) (s : State) : State :=
  let stackSizeToBe :=
    s.initialFunctionStackSize +
      (((s.vmStack.take bi.vmStack.length).map (·.stackAllocatedSize)).sum)
  let matched := s.catchInfo.filter fun c => c.tryCatchBlockDepth - 1 = s.blockInfo.length
  let rest := s.catchInfo.filter fun c => ¬(c.tryCatchBlockDepth - 1 = s.blockInfo.length)
  { s with
    catchInfo := rest
    functionCatchInfo := s.functionCatchInfo ++
      matched.map fun c => ⟨c.tryStart, c.tryEnd, c.catchStart, stackSizeToBe, c.tagIndex⟩ }

/-- The fixup-patching step of `OnEndExpr` for one fixup: jumps and
conditional jumps get offset `currentByteCodeSize - site`; a br-table slot
gets `currentByteCodeSize + storedValue - site` written through its
interior pointer. -/
def patchOneFixup (f : JumpToEndBrInfo) (s : State) : State :=
  match f.ty with
  | .isJump =>
      { s with byteCode := modifyRecordAt s.byteCode f.pos (setJumpOffset ((s.csize : Int) - (f.pos : Int))) }
  | .isJumpIf =>
      { s with byteCode := modifyRecordAt s.byteCode f.pos (setJumpOffset ((s.csize : Int) - (f.pos : Int))) }
  | .isBrTable =>
      { s with byteCode := modifyBrTableSlotAt s.byteCode f.pos (fun old => (s.csize : Int) + old - (f.pos : Int)) }

/-- `OnEndExpr()`: clear the eqz-fusion candidate, pop the block, harvest
try/catch records, propagate a stopped state when no fixups are pending,
otherwise keep the block results, restore the snapshot, push the block's
result kinds, and patch every fixup recorded against the block.  (The
source computes `dropStackValuesBeforeBrIfNeeds(0)` here and passes it to
`keepBlockResultsIfNeeds`, whose body never reads it.)  A function-level
`end` emits the final `End` record instead. -/
def OnEndExpr (s : State) : State :=
  let s := { s with lastI32EqzPos := noI32Eqz }
  if s.blockInfo.length ≠ 0 then
    let blockInfo := s.blockInfo.getLast?.getD default
    let s := { s with blockInfo := s.blockInfo.dropLast }
    let s := if blockInfo.blockType = .tryCatch then harvestCatch blockInfo s else s
    if blockInfo.byteCodeGenerationStopped ∧ blockInfo.jumpToEndBrInfo.length = 0 then
      stopToGenerateByteCodeWhileBlockEnd s
    else
      let s := keepBlockResultsIfNeeds blockInfo s
      let s :=
        if blockInfo.shouldRestoreVMStackAtEnd then
          let s := restoreVMStackBy blockInfo s
          match blockInfo.returnValueType with
          | .idx i =>
              let ft := s.ftypeAt i
              let s := popN ft.param.length s
              ft.result.foldl (fun s t => (pushVMStack t s).2) s
          | .val t => (pushVMStack t s).2
          | .void => s
        else s
      blockInfo.jumpToEndBrInfo.foldl (fun s f => patchOneFixup f s) s
  else generateEndCode true s

/-- `OnUnreachableExpr()`. -/
def OnUnreachableExpr (s : State) : State :=
  let s := applySeenBranch s
  let s := pushByteCode .unreachableRec s
  stopToGenerateByteCodeWhileBlockEnd s

/-- `OnReturnExpr()`. -/
def OnReturnExpr (s : State) : State :=
  let s := applySeenBranch s
  generateFunctionReturnCode false s

/-- `lookaheadUnsigned8(offset)`: the raw instruction byte at the current
reader offset plus `offset`, when still inside the code section. -/
def lookaheadUnsigned8 (off : Nat) (s : State) : Option Nat :=
  if s.readerOffset + off < s.codeEndOffset then some (s.codeBytes.getD (s.readerOffset + off) 0)
  else none

/-- Modelled from the spec: `wabt::ReadU32Leb128` (the external binary
decoder publishes raw data for the one-instruction look-ahead).  Decodes
an unsigned LEB128 value of at most five bytes, returning the value and
the number of bytes consumed, with length 0 on malformed input. -/
def readU32Leb128 (bytes : List Nat) : Nat × Nat :=
  let rec go (l : List Nat) (shift acc len fuel : Nat) : Nat × Nat :=
    match fuel, l with
    | 0, _ => (0, 0)
    | _ + 1, [] => (0, 0)
    | f + 1, b :: rest =>
        let acc := acc + b % 128 * 2 ^ shift
        if b < 128 then (acc, len + 1) else go rest (shift + 7) acc (len + 1) f
  go bytes 0 0 0 5

/-- `lookaheadUnsigned32(offset)`: LEB128-decode at the current reader
offset plus `offset`, bounded by the end of the code section. -/
def lookaheadUnsigned32 (off : Nat) (s : State) : Option (Nat × Nat) :=
  if s.readerOffset + off < s.codeEndOffset then
    some (readU32Leb128 ((s.codeBytes.take s.codeEndOffset).drop (s.readerOffset + off)))
  else none

/-- `readAheadLocalGetIfExists()`: when the next opcode byte is
`local.set` (0x21) with a decodable index, the index and the byte length
of the whole instruction. -/
def readAheadLocalGetIfExists (s : State) : Option (Nat × Nat) :=
  match lookaheadUnsigned8 0 s with
  | some b =>
      if b = 33 then
        match lookaheadUnsigned32 1 s with
        | some r => some (r.1, r.2 + 1)
        | none => none
      else none
  | none => none

/-- `computeExprResultPosition(type)`: during the emit pass, a producer
followed by `local.set` targets the local's home slot directly, consuming
the look-ahead; otherwise the value is pushed on the shadow stack. -/
def computeExprResultPosition (t : ValueType) (s : State) : Nat × State :=
  if ¬s.preprocessData.inPreprocess then
    match readAheadLocalGetIfExists s with
    | some r =>
        let pos := (s.localInfo.getD r.1 default).pos
        (pos, { s with readerOffset := s.readerOffset + r.2 })
    | none => pushVMStack t s
  else pushVMStack t s

/-- `processConstValue(value)`: outside initializer expressions, feed the
pool during the first pass; during the emit pass, a value equal to a
retained constant pushes that constant's assigned slot and suppresses the
constant record. -/
def processConstValue (v : ConstValue) (s : State) : Bool × State :=
  if ¬s.inInitExpr then
    let s :=
      if s.preprocessData.inPreprocess then
        { s with preprocessData :=
            { s.preprocessData with constantData := addConstantData s.preprocessData.constantData v } }
      else s
    if ¬s.preprocessData.inPreprocess then
      match s.preprocessData.constantData.find? (fun e => e.1 = v) with
      | some e => (true, pushVMStackAt v.ty e.2 sizeMax s)
      | none => (false, s)
    else (false, s)
  else (false, s)

/-- `OnI32ConstExpr(value)`. -/
def OnI32ConstExpr (value : Nat) (s : State) : State :=
  let r := processConstValue ⟨.i32, value⟩ s
  if r.1 then r.2
  else
    let p := computeExprResultPosition .i32 r.2
    pushByteCode (.const32 p.1 value) p.2

/-- `OnLocalGetExpr(localIndex)`: when no usage interval containing the
current read position carries a write, reference the local's home slot
directly; otherwise copy it to a fresh stack slot. -/
def OnLocalGetExpr (idx : Nat) (s : State) : State :=
  let li := s.localInfo.getD idx default
  let pos := s.readerOffset
  let canUseDirectReference :=
    ¬(s.preprocessData.localVariableInfo.getD idx .init).usageInfo.any
      (fun r => r.startPosition ≤ pos ∧ pos ≤ r.endPosition ∧ r.hasWriteUsage)
  if canUseDirectReference then pushVMStackAt li.valueType li.pos idx s
  else
    let p := s.functionStackSizeSoFar
    let s := pushVMStackAt li.valueType p idx s
    generateMoveCodeIfNeeds li.pos p li.valueType s

/-- `OnLocalSetExpr(localIndex)`. -/
def OnLocalSetExpr (idx : Nat) (s : State) : State :=
  let localPos := (s.localInfo.getD idx default).pos
  let r := popVMStackInfo s
  let s := generateMoveCodeIfNeeds r.1.pos localPos r.1.valueType r.2
  applyAddLocalVariableWrite idx s

/-- `OnBinaryExpr` instantiated at the `i32.add` opcode (the opcode table
gives it two `i32` operands and an `i32` result). -/
def OnI32AddExpr (s : State) : State :=
  let r1 := popVMStack s
  let r0 := popVMStack r1.2
  let p := computeExprResultPosition .i32 r0.2
  pushByteCode (.i32Add r0.1 r1.1 p.1) p.2

/-- `OnUnaryExpr` instantiated at the `i32.eqz` opcode; the emitted record
updates the fusion tracker through the `pushByteCode` overload. -/
def OnI32EqzExpr (s : State) : State :=
  let r := popVMStack s
  let p := computeExprResultPosition .i32 r.2
  pushByteCode (.i32Eqz r.1 p.1) p.2

/-- `OnDropExpr()`. -/
def OnDropExpr (s : State) : State :=
  (popVMStack s).2

/-- The slot-assignment loop of `OnEndPreprocess`: each retained
constant's reference count is replaced by the next slot offset past the
parameter/local area, and the initial stack size grows by the constant's
allocated width (`uint16_t` arithmetic).  Returns the assigned pool and
the widened initial stack size. -/
def assignConstantPositions (init : Nat) : List (ConstValue × Nat) → List (ConstValue × Nat) × Nat
  | [] => ([], init)
  | e :: rest =>
      let r := assignConstantPositions (u16 (init + valueStackAllocatedSize e.1.ty)) rest
      ((e.1, init) :: r.1, r.2)

/-- `OnEndPreprocess()`: leave the first pass, discard the bytecode and
block bookkeeping, rank the constant pool, assign each retained constant a
slot past the parameter/local area (replacing its reference count by the
slot offset and widening the initial stack size), reset the running and
required stack sizes, and emit the constant prelude. -/
def OnEndPreprocess (s : State) : State :=
  let s := { s with
    preprocessData := { s.preprocessData with inPreprocess := false }
    shouldContinueToGenerateByteCode := true
    byteCode := []
    functionCatchInfo := []
    blockInfo := []
    catchInfo := []
    vmStack := [] }
  let sorted := organizeConstantData s.preprocessData.constantData
  let assignFold := assignConstantPositions s.initialFunctionStackSize sorted
  let s := { s with
    preprocessData := { s.preprocessData with constantData := assignFold.1 }
    initialFunctionStackSize := assignFold.2
    functionStackSizeSoFar := assignFold.2
    requiredStackSize := assignFold.2 }
  assignFold.1.foldl
    (fun s e =>
      let sz := valueSize e.1.ty
      if sz = 4 then pushByteCode (.const32 e.2 e.1.bits) s
      else if sz = 8 then pushByteCode (.const64 e.2 e.1.bits) s
      else pushByteCode (.const128 e.2 e.1.bits) s)
    s

/-- `EndFunctionBody` followed by `endFunction()` for a function that
declares no locals beyond its parameters, so `optimizeLocals()` returns
immediately (`param().size() == m_localInfo.size()`).  The post-emission
local-slot allocator for functions with declared locals is settled
separately and is not part of this embedding. -/
def EndFunctionBodyNoLocals (s : State) : State :=
  { s with
    lastI32EqzPos := noI32Eqz
    vmStack := []
    shouldContinueToGenerateByteCode := true }

/-- `beginFunction` followed by the `OnLocalDecl` events: parameters and
declared locals receive consecutive home offsets, the running and initial
stack sizes cover them, and the preprocess collector is cleared
(`OnStartPreprocess`). -/
def beginFunctionState (ft : FunctionType) (localDecls : List ValueType)
    (ftypes : List FunctionType) (codeBytes : List Nat) (codeEndOffset : Nat) : State :=
  let mkInfos := fun (types : List ValueType) (start : Nat) =>
    (types.foldl
      (fun (acc : List LocalInfo × Nat) t =>
        (acc.1 ++ [⟨t, acc.2⟩], acc.2 + valueStackAllocatedSize t))
      ([], start))
  let infos := mkInfos (ft.param ++ localDecls) 0
  let initial := u16 infos.2
  { byteCode := []
    lastI32EqzPos := noI32Eqz
    vmStack := []
    blockInfo := []
    catchInfo := []
    functionCatchInfo := []
    functionStackSizeSoFar := initial
    initialFunctionStackSize := initial
    requiredStackSize := initial
    localInfo := infos.1
    preprocessData :=
      { inPreprocess := true
        localVariableInfo := List.replicate (ft.param.length + localDecls.length) .init
        constantData := [] }
    functionTypes := ftypes
    currentFunctionType := ft
    readerOffset := 0
    codeBytes := codeBytes
    codeEndOffset := codeEndOffset
    shouldContinueToGenerateByteCode := true
    resumeGenerateByteCodeAfterNBlockEnd := 0
    inInitExpr := false }

/-- The instruction events the embedding drives through the handlers; the
external decoder advances the read offset past each instruction before
invoking its handler, which the driver models by pairing every event with
the offset at which its handler runs. -/
inductive Event where
  | localGet (idx : Nat)
  | localSet (idx : Nat)
  | i32Const (value : Nat)
  | i32AddE
  | i32EqzE
  | dropE
  | blockE (sig : SigType)
  | loopE (sig : SigType)
  | ifE (sig : SigType)
  | endE
  | brE (depth : Nat)
  | brIfE (depth : Nat)
  | brTableE (targetDepths : List Nat) (defaultDepth : Nat)
  | returnE
  | unreachableE
deriving DecidableEq, Repr

/-- Dispatch one decoder event at its reader offset.  After a block
`end`, the driver performs the resume step of the external binary reader
(`binary-reader-walrus.h`, not among the given sources), modelled from the
spec: the stopped state is "exited by the next enclosing block's `end`",
so a pending resume count is decremented and generation restarts when it
reaches zero. -/
def applyEvent (s : State) (oe : Nat × Event) : State :=
  let s := { s with readerOffset := oe.1 }
  match oe.2 with
  | .localGet idx => OnLocalGetExpr idx s
  | .localSet idx => OnLocalSetExpr idx s
  | .i32Const v => OnI32ConstExpr v s
  | .i32AddE => OnI32AddExpr s
  | .i32EqzE => OnI32EqzExpr s
  | .dropE => OnDropExpr s
  | .blockE sig => OnBlockExpr sig s
  | .loopE sig => OnLoopExpr sig s
  | .ifE sig => OnIfExpr sig s
  | .endE =>
      let s := OnEndExpr s
      if s.resumeGenerateByteCodeAfterNBlockEnd ≠ 0 then
        let r := s.resumeGenerateByteCodeAfterNBlockEnd - 1
        { s with
          resumeGenerateByteCodeAfterNBlockEnd := r
          shouldContinueToGenerateByteCode :=
            if r = 0 then true else s.shouldContinueToGenerateByteCode }
      else s
  | .brE d => OnBrExpr d s
  | .brIfE d => OnBrIfExpr d s
  | .brTableE ts d => OnBrTableExpr ts d s
  | .returnE => OnReturnExpr s
  | .unreachableE => OnUnreachableExpr s

/-- Fold a list of decoder events over the state. -/
def applyEvents (evs : List (Nat × Event)) (s : State) : State :=
  evs.foldl applyEvent s

/-- Number of `i32.eqz` records in a buffer. -/
def eqzCount (b : List ByteCodeRec) : Nat :=
  (b.filter fun r => match r with | .i32Eqz _ _ => true | _ => false).length

/-- Whether a record is one of the typed moves. -/
def isMoveRec : ByteCodeRec → Bool
  | .moveI32 _ _ => true
  | .moveF32 _ _ => true
  | .moveI64 _ _ => true
  | .moveF64 _ _ => true
  | .moveV128 _ _ => true
  | _ => false

/-- The conditional-branch polarity and condition source of a record. -/
def condBranchInfo : ByteCodeRec → Option (Bool × Nat)
  | .jumpIfTrue src _ => some (true, src)
  | .jumpIfFalse src _ => some (false, src)
  | _ => none

/-- The current value of the relative-offset field a fixup refers to:
for jump and conditional-jump fixups the offset field of the record at
the fixup site, for br-table fixups the 32-bit slot the site points into. -/
def fixupValueAt (b : List ByteCodeRec) (f : JumpToEndBrInfo) : Option Int :=
  match f.ty with
  | .isJump =>
      match recordAt b f.pos with
      | some (.jump off) => some off
      | some (.jumpIfTrue _ off) => some off
      | some (.jumpIfFalse _ off) => some off
      | _ => none
  | .isJumpIf =>
      match recordAt b f.pos with
      | some (.jump off) => some off
      | some (.jumpIfTrue _ off) => some off
      | some (.jumpIfFalse _ off) => some off
      | _ => none
  | .isBrTable =>
      match recordContaining b f.pos with
      | some (start, r) => brTableSlotGet r (f.pos - start)
      | none => none

/-- A fixup site is well formed for a buffer when it refers to a record of
its kind: a jump or conditional jump starting exactly at the site, or a
valid 32-bit slot (the default field or an in-range 4-aligned tail entry)
of a `BrTable` record containing the site. -/
def fixupKindValid (b : List ByteCodeRec) (f : JumpToEndBrInfo) : Bool :=
  match f.ty with
  | .isJump =>
      match recordAt b f.pos with
      | some (.jump _) => true
      | some (.jumpIfTrue _ _) => true
      | some (.jumpIfFalse _ _) => true
      | _ => false
  | .isJumpIf =>
      match recordAt b f.pos with
      | some (.jump _) => true
      | some (.jumpIfTrue _ _) => true
      | some (.jumpIfFalse _ _) => true
      | _ => false
  | .isBrTable =>
      match recordContaining b f.pos with
      | some (start, .brTable _ _ offs) =>
          decide (f.pos - start = offsetOfDefault) ||
            (decide (sizeofBrTable ≤ f.pos - start) &&
              decide ((f.pos - start - sizeofBrTable) % 4 = 0) &&
              decide ((f.pos - start - sizeofBrTable) / 4 < offs.length))
      | _ => false

/-- A block's fixup list is well formed for a buffer when the sites are
pairwise distinct and every fixup is kind-valid. -/
def fixupsWellFormed (b : List ByteCodeRec) (fixups : List JumpToEndBrInfo) : Prop :=
  (fixups.map (·.pos)).Nodup ∧ ∀ f ∈ fixups, fixupKindValid b f = true

/-- The Value-Stack Tracker operations of the specification: `push`,
`push-at` and `pop`. -/
inductive TrackerOp where
  | push (t : ValueType)
  | pushAt (t : ValueType) (pos : Nat) (localIndex : Nat)
  | pop
deriving DecidableEq, Repr

/-- Apply one tracker operation. -/
def applyTrackerOp (s : State) : TrackerOp → State
  | .push t => (pushVMStack t s).2
  | .pushAt t pos idx => pushVMStackAt t pos idx s
  | .pop => (popVMStackInfo s).2

/-- Apply a sequence of tracker operations. -/
def applyTrackerOps (ops : List TrackerOp) (s : State) : State :=
  ops.foldl applyTrackerOp s

/-- Sum of the allocated widths of the entries on the shadow stack. -/
def stackWidthSum (s : State) : Nat :=
  (s.vmStack.map (·.stackAllocatedSize)).sum

/-- Tracker well-formedness: the running stack size accounts for the
initial (parameter/local/constant) area plus the widths of the entries,
and fits the 16-bit offset type so that the `uint16_t` arithmetic is
exact. -/
def trackerWF (s : State) : Prop :=
  s.functionStackSizeSoFar = s.initialFunctionStackSize + stackWidthSum s ∧
    s.initialFunctionStackSize + stackWidthSum s ≤ 65535

/-- A tracker-operation sequence stays within the 16-bit range and never
pops an empty stack. -/
def trackerOpsFit : List TrackerOp → State → Bool
  | [], _ => true
  | op :: rest, s =>
      (match op with
       | .push t =>
           decide (s.initialFunctionStackSize + stackWidthSum s + valueStackAllocatedSize t ≤ 65535)
       | .pushAt t _ _ =>
           decide (s.initialFunctionStackSize + stackWidthSum s + valueStackAllocatedSize t ≤ 65535)
       | .pop => !s.vmStack.isEmpty) &&
        trackerOpsFit rest (applyTrackerOp s op)

/-- Scenario S1 of the specification: function type `(i32) → i32`. -/
def funcTypeS1 : FunctionType := ⟨[.i32], [.i32]⟩

/-- Scenario S1 body bytes: `local.get 0; i32.const 1; i32.add; end`. -/
def bodyBytesS1 : List Nat := [32, 0, 65, 1, 106, 11]

/-- Scenario S1 decoder events with their post-instruction offsets. -/
def eventsS1 : List (Nat × Event) :=
  [(2, .localGet 0), (4, .i32Const 1), (5, .i32AddE), (6, .endE)]

/-- Scenario S1 compiled end to end: preprocess pass, pass transition,
emit pass, function end (the function declares no locals, so the
local-slot allocator returns immediately). -/
def runS1 : State :=
  EndFunctionBodyNoLocals
    (applyEvents eventsS1
      (OnEndPreprocess (applyEvents eventsS1 (beginFunctionState funcTypeS1 [] [] bodyBytesS1 6))))

/-- Function type `(i32) → ()` of the eqz/branch scenarios. -/
def funcTypeBr : FunctionType := ⟨[.i32], []⟩

/-- Body bytes of the intervening-`end` scenario:
`block (result i32); local.get 0; i32.eqz; end; br_if 0; end`. -/
def bodyBytesBlockEqz : List Nat := [2, 127, 32, 0, 69, 11, 13, 0, 11]

/-- The events preceding the `br_if` of the intervening-`end` scenario. -/
def eventsBlockEqz : List (Nat × Event) :=
  [(2, .blockE (.val .i32)), (4, .localGet 0), (5, .i32EqzE), (6, .endE)]

/-- The emit-pass state at the `br_if` of the intervening-`end` scenario:
the buffer ends with the `i32.eqz` record and its destination is the top
of the shadow stack, but a block `end` has been processed since the eqz
was emitted. -/
def stateBeforeBrIf : State :=
  { applyEvents eventsBlockEqz
      (OnEndPreprocess
        (applyEvents (eventsBlockEqz ++ [(8, .brIfE 0), (9, .endE)])
          (beginFunctionState funcTypeBr [] [] bodyBytesBlockEqz 9))) with
    readerOffset := 8 }

/-- Body bytes of the fusable scenario: `local.get 0; i32.eqz; br_if 0; end`. -/
def bodyBytesFuse : List Nat := [32, 0, 69, 13, 0, 11]

/-- The events preceding the `br_if` of the fusable scenario. -/
def eventsFuse : List (Nat × Event) :=
  [(2, .localGet 0), (3, .i32EqzE)]

/-- The emit-pass state at the `br_if` of the fusable scenario (scenario
S4 of the specification): the `i32.eqz` was emitted after the last block
end, so `canBeInverted` holds. -/
def stateBeforeBrIfFuse : State :=
  { applyEvents eventsFuse
      (OnEndPreprocess
        (applyEvents (eventsFuse ++ [(5, .brIfE 0), (6, .endE)])
          (beginFunctionState funcTypeBr [] [] bodyBytesFuse 6))) with
    readerOffset := 5 }

/-- Function type `() → ()` of the br-table scenario. -/
def funcTypeBrT : FunctionType := ⟨[], []⟩

/-- Body bytes of the br-table scenario:
`block; i32.const 0; br_table [0] 0; end; end`. -/
def bodyBytesBrT : List Nat := [2, 64, 65, 0, 14, 1, 0, 0, 11, 11]

/-- The events preceding the block `end` of the br-table scenario. -/
def eventsBrT : List (Nat × Event) :=
  [(2, .blockE .void), (4, .i32Const 0), (8, .brTableE [0] 0)]

/-- The emit-pass state at the block `end` of the br-table scenario: the
block's fixup list holds the two `IsBrTable` fixups registered by
`emitBrTableCase` for the table entry and the default target. -/
def stateBeforeEndBrT : State :=
  { applyEvents eventsBrT
      (OnEndPreprocess
        (applyEvents (eventsBrT ++ [(9, .endE), (10, .endE)])
          (beginFunctionState funcTypeBrT [] [] bodyBytesBrT 10))) with
    readerOffset := 9 }

/-- A pool of six distinct constants, each seen once. -/
def poolSix : List (ConstValue × Nat) :=
  [(⟨.i32, 0⟩, 1), (⟨.i32, 1⟩, 1), (⟨.i32, 2⟩, 1),
    (⟨.i32, 3⟩, 1), (⟨.i32, 4⟩, 1), (⟨.i32, 5⟩, 1)]

/-- Claim C1 as stated, specialized to the formal consequence that is
refutable: whenever the final record of the buffer is an `i32.eqz` whose
destination equals the branch's condition source (the top shadow-stack
entry), `br_if` removes the eqz record from the buffer.  The claim demands
this for every such conditional branch, with no proviso about block ends
between the eqz and the branch. -/
def claimC1Statement : Prop :=
  ∀ (s : State) (depth src dst : Nat),
    s.byteCode.getLast? = some (.i32Eqz src dst) →
    (peekVMStackInfo s).pos = dst →
    s.vmStack ≠ [] →
    eqzCount (OnBrIfExpr depth s).byteCode + 1 = eqzCount s.byteCode

/-- Claim C4 as stated: on a block `end`, every fixup recorded in the
block's list ends up holding `current position - fixup site`. -/
def claimC4Statement : Prop :=
  ∀ (s : State) (f : JumpToEndBrInfo),
    s.blockInfo ≠ [] →
    f ∈ (s.blockInfo.getLast?.getD default).jumpToEndBrInfo →
    fixupValueAt (OnEndExpr s).byteCode f = some (((OnEndExpr s).csize : Int) - (f.pos : Int))

/-- Claim C5 as stated: an unseen constant is appended with count 1, and
the pool is only sorted and truncated when it exceeds
`maxConstantData + maxConstantData / 4` entries — so an append that keeps
the pool within that bound leaves all entries in place. -/
def claimC5Statement : Prop :=
  ∀ (pool : List (ConstValue × Nat)) (v : ConstValue),
    ¬pool.any (fun e => e.1 = v) = true →
    pool.length + 1 ≤ maxConstantData + maxConstantData / 4 →
    (addConstantData pool v).length = pool.length + 1

/-- Claim C7 as stated (scenario S1): exactly two emitted records — the
constant prelude `const32(dst = 4, value = 1)` and
`i32.add(src0 = 0, src1 = 4, dst = 0)` — and a required stack size of 8
bytes. -/
def claimC7Statement : Prop :=
  runS1.byteCode = [.const32 4 1, .i32Add 0 4 0] ∧ runS1.requiredStackSize = 8

/-- Claim C9 as stated, specialized to the formal consequence that is
refutable: the claim demands that a stack layout exceeding the
representable offset range fail compilation with an error, never silently
truncating offsets; the translated `pushVMStack` has no failure outcome at
all, so the claim entails that the running stack size never wraps. -/
def claimC9Statement : Prop :=
  ∀ (s : State) (t : ValueType),
    (pushVMStack t s).2.functionStackSizeSoFar =
      s.functionStackSizeSoFar + valueStackAllocatedSize t

/-- A state whose running stack size sits just below the 16-bit limit
(as after pushing 16383 `v128` values on an empty frame). -/
def nearLimitState : State :=
  { beginFunctionState ⟨[], []⟩ [] [] [] 0 with functionStackSizeSoFar := 65532 }

/-- An emit-pass state whose pool retains one `i32` constant with value 7
at slot offset 12. -/
def emitPoolState : State :=
  { beginFunctionState ⟨[], []⟩ [] [] [] 0 with
    preprocessData :=
      { inPreprocess := false
        localVariableInfo := []
        constantData := [(⟨.i32, 7⟩, 12)] } }

/-- Whether a record is an `i32.eqz`. -/
def isEqzRec : ByteCodeRec → Bool
  | .i32Eqz _ _ => true
  | _ => false

/-- Claim C6 as stated: over every tracker-operation sequence from a
function entry, the running stack size equals the sum of the allocated
widths of the entries currently on the shadow stack. -/
def claimC6Statement : Prop :=
  ∀ (ft : FunctionType) (locals : List ValueType) (ops : List TrackerOp),
    trackerOpsFit ops (beginFunctionState ft locals [] [] 0) = true →
    (applyTrackerOps ops (beginFunctionState ft locals [] [] 0)).functionStackSizeSoFar =
      stackWidthSum (applyTrackerOps ops (beginFunctionState ft locals [] [] 0))

/-- The relative-offset field of a jump-family record, when it has one. -/
def jumpOffsetOf : ByteCodeRec → Option Int
  | .jump off => some off
  | .jumpIfTrue _ off => some off
  | .jumpIfFalse _ off => some off
  | _ => none

/-- The portion of `OnEndExpr` that runs after the block is popped and
before the fixup-patching loop, for a block that keeps generating
byte code: harvest try/catch records, keep the block results, restore the
snapshot and push the block's result kinds.  Factored out of `OnEndExpr`
to state lemmas about the patching loop. -/
def OnEndPrePatch (bi : BlockInfo) (s : State) : State :=
  let s := { s with lastI32EqzPos := noI32Eqz, blockInfo := s.blockInfo.dropLast }
  let s := if bi.blockType = .tryCatch then harvestCatch bi s else s
  let s := keepBlockResultsIfNeeds bi s
  if bi.shouldRestoreVMStackAtEnd then
    let s := restoreVMStackBy bi s
    match bi.returnValueType with
    | .idx i =>
        let ft := s.ftypeAt i
        let s := popN ft.param.length s
        ft.result.foldl (fun s t => (pushVMStack t s).2) s
    | .val t => (pushVMStack t s).2
    | .void => s
  else s

/-- The emission portion of `OnBrIfExpr` after the fusion decision,
factored on the chosen polarity and condition offset; `OnBrIfExpr`
definitionally equals this applied to the popped (and possibly rewound)
state. -/
def brIfEmit (depth : Nat) (isInverted : Bool) (stackPos : Nat) (s : State) : State :=
  if s.blockInfo.length = depth then
    let pos := s.csize
    let offVal : Int := ((sizeofJumpIf + sizeofEnd + 2 * s.currentFunctionType.result.length : Nat) : Int)
    let s := pushByteCode (if isInverted then .jumpIfTrue stackPos offVal else .jumpIfFalse stackPos offVal) s
    let s := generateEndCode false s
    { s with byteCode := modifyRecordAt s.byteCode pos (setJumpOffset ((s.csize : Int) - (pos : Int))) }
  else
    let blockInfo := findBlockInfoInBr depth s
    let dropSize := dropStackValuesBeforeBrIfNeeds depth s
    if dropSize.2 ≠ 0 then
      let pos := s.csize
      let s := pushByteCode (if isInverted then .jumpIfTrue stackPos 0 else .jumpIfFalse stackPos 0) s
      let s := generateMoveValuesCodeRegardToDrop dropSize s
      let offset : Int := (blockInfo.pos : Int) - (s.csize : Int)
      let s :=
        if blockInfo.blockType ≠ .loop then
          modifyBlockInBr depth
            (fun bi => { bi with jumpToEndBrInfo := bi.jumpToEndBrInfo ++ [⟨.isJump, s.csize⟩] }) s
        else s
      let s := pushByteCode (.jump offset) s
      { s with byteCode := modifyRecordAt s.byteCode pos (setJumpOffset ((s.csize : Int) - (pos : Int))) }
    else if blockInfo.blockType = .loop ∧ blockInfo.returnValueType.isIndex ∧
        (match blockInfo.returnValueType with
         | .idx i => (s.ftypeAt i).param.length
         | _ => 0) ≠ 0 then
      let pos := s.csize
      let s := pushByteCode (if isInverted then .jumpIfTrue stackPos 0 else .jumpIfFalse stackPos 0) s
      let paramLen :=
        match blockInfo.returnValueType with
        | .idx i => (s.ftypeAt i).param.length
        | _ => 0
      let r2 := loopParamCanon paramLen s.vmStack.reverse s
      let s := { r2.2 with vmStack := r2.1.reverse }
      let offset : Int := (blockInfo.pos : Int) - (s.csize : Int)
      let s :=
        if blockInfo.blockType ≠ .loop then
          modifyBlockInBr depth
            (fun bi => { bi with jumpToEndBrInfo := bi.jumpToEndBrInfo ++ [⟨.isJump, s.csize⟩] }) s
        else s
      let s := pushByteCode (.jump offset) s
      { s with byteCode := modifyRecordAt s.byteCode pos (setJumpOffset ((s.csize : Int) - (pos : Int))) }
    else
      let offset : Int := (blockInfo.pos : Int) - (s.csize : Int)
      let s :=
        if blockInfo.blockType ≠ .loop then
          modifyBlockInBr depth
            (fun bi => { bi with jumpToEndBrInfo := bi.jumpToEndBrInfo ++ [⟨.isJumpIf, s.csize⟩] }) s
        else s
      pushByteCode (if isInverted then .jumpIfFalse stackPos offset else .jumpIfTrue stackPos offset) s

/-- The emission portion of `OnIfExpr` after the fusion decision,
factored likewise. -/
def ifEmit (sig : SigType) (isInverted : Bool) (stackPos : Nat) (s : State) : State :=
  let bs := mkBlockInfo .ifElse sig s
  let b := { bs.1 with jumpToEndBrInfo := [⟨.isJumpIf, bs.1.pos⟩] }
  let s := { bs.2 with blockInfo := bs.2.blockInfo ++ [b] }
  let s := pushByteCode (if isInverted then .jumpIfTrue stackPos 0 else .jumpIfFalse stackPos 0) s
  applySeenBranch s

/-! ## Theorems -/

/-- The lookup loop of `addConstantData` reports whether the value is in
the pool. -/
theorem bumpConstant_found (v : ConstValue) (pool : List (ConstValue × Nat)) :
    (bumpConstant v pool).2 = pool.any (fun e => e.1 = v) := by
  induction pool with
  | nil => rfl
  | cons c rest ih =>
      by_cases h : c.1 = v <;> simp [bumpConstant, h, ih]

/-- Bumping a count leaves the pool's values unchanged. -/
theorem bumpConstant_fst (v : ConstValue) (pool : List (ConstValue × Nat)) :
    (bumpConstant v pool).1.map Prod.fst = pool.map Prod.fst := by
  induction pool with
  | nil => rfl
  | cons c rest ih =>
      by_cases h : c.1 = v <;> simp [bumpConstant, h, ih]

/-- Bumping a count leaves the pool's size unchanged. -/
theorem bumpConstant_length (v : ConstValue) (pool : List (ConstValue × Nat)) :
    (bumpConstant v pool).1.length = pool.length := by
  have h1 := congrArg List.length (bumpConstant_fst v pool)
  simpa using h1

/-- Looking up an absent value leaves the pool unchanged. -/
theorem bumpConstant_not_found (v : ConstValue) (pool : List (ConstValue × Nat))
    (h : pool.any (fun e => e.1 = v) = false) : (bumpConstant v pool).1 = pool := by
  induction pool with
  | nil => rfl
  | cons c rest ih =>
      simp only [List.any_cons, Bool.or_eq_false_iff] at h
      have hc : ¬c.1 = v := by simpa using h.1
      simp [bumpConstant, hc, ih h.2]

/-- In a duplicate-free pool, bumping increments the entry's count. -/
theorem bumpConstant_mem (v : ConstValue) (n : Nat) (pool : List (ConstValue × Nat))
    (hnd : (pool.map Prod.fst).Nodup) (hm : (v, n) ∈ pool) :
    (v, n + 1) ∈ (bumpConstant v pool).1 := by
  induction pool with
  | nil => simp at hm
  | cons c rest ih =>
      simp only [List.map_cons, List.nodup_cons] at hnd
      rcases List.mem_cons.mp hm with hc | hrest
      · subst hc
        simp [bumpConstant]
      · have hc : ¬c.1 = v := by
          intro he
          exact hnd.1 (he ▸ List.mem_map_of_mem Prod.fst hrest)
        simp only [bumpConstant, hc, if_false, List.mem_cons]
        exact Or.inr (ih hnd.2 hrest)

/-- `organizeConstantData` permutes the pool. -/
theorem organizeConstantData_perm (pool : List (ConstValue × Nat)) :
    (organizeConstantData pool).Perm pool :=
  List.perm_insertionSort _ _

/-- `organizeConstantData` sorts the pool by descending count. -/
theorem organizeConstantData_sorted (pool : List (ConstValue × Nat)) :
    (organizeConstantData pool).Sorted constCountGE :=
  List.sorted_insertionSort _ _

/-- Closed form of `addConstantData` when the value is already pooled. -/
theorem addConstantData_eq_found (v : ConstValue) (pool : List (ConstValue × Nat))
    (h : pool.any (fun e => e.1 = v) = true) :
    addConstantData pool v =
      (if maxConstantData < pool.length then
        (organizeConstantData (bumpConstant v pool).1).take
          ((organizeConstantData (bumpConstant v pool).1).length - maxConstantData / 4)
      else (bumpConstant v pool).1) := by
  simp only [addConstantData]
  rw [bumpConstant_found, h]
  simp only [if_pos, bumpConstant_length]

/-- Closed form of `addConstantData` when the value is new. -/
theorem addConstantData_eq_not_found (v : ConstValue) (pool : List (ConstValue × Nat))
    (h : pool.any (fun e => e.1 = v) = false) :
    addConstantData pool v =
      (if maxConstantData < pool.length + 1 then
        (organizeConstantData (pool ++ [(v, 1)])).take
          ((organizeConstantData (pool ++ [(v, 1)])).length - maxConstantData / 4)
      else pool ++ [(v, 1)]) := by
  simp only [addConstantData]
  rw [bumpConstant_found, h]
  rw [bumpConstant_not_found v pool h]
  simp only [Bool.false_eq_true, if_false]
  by_cases h2 : maxConstantData < pool.length + 1 <;> simp [h2]

/-- Claim C5, corrected: `addConstantData` bumps the count of a seen
constant and appends an unseen one with count 1; the pool is sorted by
descending count and its final `maxConstantData / 4` entries are erased
whenever it exceeds `maxConstantData` entries — not
`maxConstantData + maxConstantData / 4` — so an unseen constant added to a
full pool of `maxConstantData` entries leaves a sorted pool of exactly
`maxConstantData` entries. -/
theorem claimC5Theorem :
    ∀ (pool : List (ConstValue × Nat)) (v : ConstValue),
      ((addConstantData pool v).length =
          (if pool.any (fun e => e.1 = v) then
            (if maxConstantData < pool.length then pool.length - maxConstantData / 4
              else pool.length)
          else
            (if maxConstantData < pool.length + 1 then pool.length + 1 - maxConstantData / 4
              else pool.length + 1))) ∧
        (pool.any (fun e => e.1 = v) = false →
          pool.length < maxConstantData →
          addConstantData pool v = pool ++ [(v, 1)]) ∧
        (pool.any (fun e => e.1 = v) = false →
          pool.length = maxConstantData →
          addConstantData pool v =
              (organizeConstantData (pool ++ [(v, 1)])).take maxConstantData ∧
            (addConstantData pool v).length = maxConstantData ∧
            (addConstantData pool v).Sorted constCountGE) ∧
        (∀ n, (pool.map Prod.fst).Nodup → (v, n) ∈ pool →
          pool.length ≤ maxConstantData →
          (v, n + 1) ∈ addConstantData pool v ∧
            (addConstantData pool v).length = pool.length) := by
  intro pool v
  have hlenS : ∀ l : List (ConstValue × Nat), (organizeConstantData l).length = l.length :=
    fun l => (organizeConstantData_perm l).length_eq
  refine ⟨?_, ?_, ?_, ?_⟩
  · by_cases h : pool.any (fun e => e.1 = v) = true
    · rw [addConstantData_eq_found v pool h, h]
      by_cases h2 : maxConstantData < pool.length <;>
        simp [h2, hlenS, bumpConstant_length]
    · have h' : pool.any (fun e => e.1 = v) = false := Bool.eq_false_iff.mpr h
      rw [addConstantData_eq_not_found v pool h', h']
      by_cases h2 : maxConstantData < pool.length + 1 <;>
        simp [h2, hlenS]
  · intro h hlt
    rw [addConstantData_eq_not_found v pool h]
    have : ¬maxConstantData < pool.length + 1 := by omega
    simp [this]
  · intro h hlen
    have hgt : maxConstantData < pool.length + 1 := by omega
    have hres : addConstantData pool v =
        (organizeConstantData (pool ++ [(v, 1)])).take maxConstantData := by
      rw [addConstantData_eq_not_found v pool h]
      rw [if_pos hgt, hlenS]
      have he : pool.length + 1 - maxConstantData / 4 = maxConstantData := by
        rw [hlen]; decide
      rw [List.length_append, List.length_cons, List.length_nil, he]
    refine ⟨hres, ?_, ?_⟩
    · rw [hres, List.length_take, hlenS]
      simp [hlen]
    · rw [hres]
      exact (organizeConstantData_sorted _).sublist (List.take_sublist _ _)
  · intro n hnd hm hle
    have hfound : pool.any (fun e => e.1 = v) = true := by
      rw [List.any_eq_true]
      exact ⟨(v, n), hm, by simp⟩
    have hnotgt : ¬maxConstantData < pool.length := by omega
    rw [addConstantData_eq_found v pool hfound, if_neg hnotgt]
    exact ⟨bumpConstant_mem v n pool hnd hm, bumpConstant_length v pool⟩

/-- Witness for claim C5's theorem: adding a seventh distinct constant to
a full pool of six truncates it back to six entries. -/
theorem claimC5Witness : (addConstantData poolSix ⟨.i32, 6⟩).length = maxConstantData :=
  ((claimC5Theorem poolSix ⟨.i32, 6⟩).2.2.1 (by decide) (by decide)).2.1

/-- Counterexample to claim C5 as stated: the pool is truncated as soon as
it exceeds `maxConstantData` entries, so a seventh distinct constant —
which per the claim should survive, since 7 does not exceed
`maxConstantData + maxConstantData / 4 = 7` — is not retained: the pool
ends up with six entries, not seven. -/
theorem claimC5Counterexample : ¬claimC5Statement := by
  intro h
  exact absurd (h poolSix ⟨.i32, 6⟩ (by decide) (by decide)) (by decide)

/-- Counterexample to claim C7 as stated (scenario S1): compiling
`local.get 0; i32.const 1; i32.add` does not produce two records with the
add targeting offset 0 and a required stack of 8 bytes. -/
theorem claimC7Counterexample : ¬claimC7Statement := by
  unfold claimC7Statement
  decide

/-- Claim C7, corrected: scenario S1 emits three records — the constant
prelude `const32(dst = 4, value = 1)`, `i32.add(src0 = 0, src1 = 4,
dst = 8)` and the function-end record listing result offset 8 — with a
required stack size of 16 bytes, and the `local.get` emits no move
record. -/
theorem claimC7Theorem :
    runS1.byteCode = [.const32 4 1, .i32Add 0 4 8, .endRec [8]] ∧
      runS1.requiredStackSize = 16 ∧
      runS1.byteCode.all (fun r => !isMoveRec r) = true := by
  decide

/-- Counterexample to claim C9 as stated: pushing an `i64` onto a frame
whose running size is 65532 does not leave the running size at 65540 — no
failure is reported anywhere; the `uint16_t` size silently wraps. -/
theorem claimC9Counterexample : ¬claimC9Statement := by
  intro h
  exact absurd (h nearLimitState .i64) (by decide)

/-- Claim C9, corrected: the translated `pushVMStack` has no failure
outcome — the release build checks nothing (the source's bound check is a
debug-only `ASSERT` with a `FIXME` noting the case is unsupported), and
`WASMParser::parseBinary` only propagates decoder errors — so a stack
layout that exceeds the 16-bit offset range wraps modulo 2^16: the entry
is recorded at the old running size and the running size continues from
the wrapped value, silently truncating subsequent offsets. -/
theorem claimC9Theorem :
    ∀ (s : State) (t : ValueType),
      (pushVMStack t s).2.functionStackSizeSoFar =
          (s.functionStackSizeSoFar + valueStackAllocatedSize t) % 65536 ∧
        (pushVMStack t s).2.vmStack =
          s.vmStack ++ [⟨t, s.functionStackSizeSoFar, s.functionStackSizeSoFar, sizeMax⟩] ∧
        (pushVMStack t s).1 = s.functionStackSizeSoFar := by
  intro s t
  refine ⟨?_, ?_, rfl⟩ <;> simp [pushVMStack, pushVMStackAt, u16]

/-- Claim C8, confirmed: a first-pass read flags needs-explicit-init
exactly when the local was not already flagged, its
writes-since-last-branch list is empty and no definitive write precedes
the read position; and neither a write event nor a branch event
(`seenBranch`, which clears the writes-since-last-branch list) ever
clears the flag. -/
theorem claimC8Theorem :
    ∀ (pos pushCount : Nat) (info : LocalVariableInfo),
      ((addLocalVariableUsage pos pushCount info).needsExplicitInitOnStartup =
          (info.needsExplicitInitOnStartup ||
            (info.writePlacesBetweenBranches.isEmpty &&
              !info.definitelyWritePlaces.any (fun w => w < pos)))) ∧
        (∀ isDef,
          (addLocalVariableWrite pos isDef info).needsExplicitInitOnStartup =
            info.needsExplicitInitOnStartup) ∧
        (clearWritesBetweenBranches info).needsExplicitInitOnStartup =
          info.needsExplicitInitOnStartup := by
  intro pos pc info
  refine ⟨?_, fun _ => rfl, rfl⟩
  cases h1 : info.needsExplicitInitOnStartup <;>
    cases h2 : info.writePlacesBetweenBranches <;>
      cases h3 : info.definitelyWritePlaces.any (fun w => w < pos) <;>
        simp [addLocalVariableUsage, h1, h2, h3, List.isEmpty]

/-- Slot assignment preserves the pool's size. -/
theorem assignConstantPositions_length (pool : List (ConstValue × Nat)) :
    ∀ init, (assignConstantPositions init pool).1.length = pool.length := by
  induction pool with
  | nil => intro init; rfl
  | cons e rest ih => intro init; simp [assignConstantPositions, ih]

/-- Slot assignment preserves the pool's values. -/
theorem assignConstantPositions_fst (pool : List (ConstValue × Nat)) :
    ∀ init, (assignConstantPositions init pool).1.map Prod.fst = pool.map Prod.fst := by
  induction pool with
  | nil => intro init; rfl
  | cons e rest ih => intro init; simp [assignConstantPositions, ih]

/-- The slot assigned to the `k`-th retained constant is the initial
stack size plus the widths of the constants before it (exact, given the
16-bit bound). -/
theorem assignConstantPositions_get (pool : List (ConstValue × Nat)) :
    ∀ (init k : Nat) (e : ConstValue × Nat),
      init + ((pool.map fun x => valueStackAllocatedSize x.1.ty).sum) ≤ 65535 →
      (assignConstantPositions init pool).1.get? k = some e →
      e.2 = init + (((pool.take k).map fun x => valueStackAllocatedSize x.1.ty).sum) := by
  induction pool with
  | nil =>
      intro init k e hb hg
      simp [assignConstantPositions] at hg
  | cons c rest ih =>
      intro init k e hb hg
      match k with
      | 0 =>
          simp [assignConstantPositions] at hg
          simp [← hg]
      | k + 1 =>
          simp only [assignConstantPositions, List.get?_cons_succ] at hg
          have hb2 : u16 (init + valueStackAllocatedSize c.1.ty) =
              init + valueStackAllocatedSize c.1.ty := by
            simp only [List.map_cons, List.sum_cons] at hb
            have : init + valueStackAllocatedSize c.1.ty ≤ 65535 := by omega
            simp [u16, Nat.mod_eq_of_lt (by omega : init + valueStackAllocatedSize c.1.ty < 65536)]
          have hb3 : (init + valueStackAllocatedSize c.1.ty) +
              ((rest.map fun x => valueStackAllocatedSize x.1.ty).sum) ≤ 65535 := by
            simp only [List.map_cons, List.sum_cons] at hb
            omega
          have := ih (u16 (init + valueStackAllocatedSize c.1.ty)) k e (by rw [hb2]; exact hb3) hg
          rw [this, hb2]
          simp [List.take_cons]
          omega

/-- Every value kind occupies a positive number of stack bytes. -/
theorem valueStackAllocatedSize_pos (t : ValueType) : 0 < valueStackAllocatedSize t := by
  cases t <;> decide

/-- Sums of longer prefixes of a positive list are strictly larger. -/
theorem sum_take_lt_of_pos (l : List Nat) (hpos : ∀ x ∈ l, 0 < x) (i j : Nat)
    (hij : i < j) (hj : j ≤ l.length) : (l.take i).sum < (l.take j).sum := by
  have hsplit : l.take j = (l.take j).take i ++ (l.take j).drop i :=
    (List.take_append_drop i (l.take j)).symm
  have htt : (l.take j).take i = l.take i := by
    rw [List.take_take, Nat.min_eq_left (Nat.le_of_lt hij)]
  have hlen : ((l.take j).drop i).length = j - i := by
    simp [List.length_take, List.length_drop]
    omega
  have hne : (l.take j).drop i ≠ [] := by
    intro hnil
    rw [hnil] at hlen
    simp at hlen
    omega
  have hposd : ∀ x ∈ (l.take j).drop i, 0 < x := fun x hx =>
    hpos x (List.mem_of_mem_take (List.mem_of_mem_drop hx))
  have hsum : 0 < ((l.take j).drop i).sum := List.sum_pos _ hposd hne
  calc (l.take i).sum < (l.take i).sum + ((l.take j).drop i).sum := by omega
    _ = (l.take j).sum := by rw [← List.sum_append, ← htt, ← hsplit]

/-- The constant pool never holds two entries with the same value. -/
theorem addConstantData_nodup (pool : List (ConstValue × Nat)) (v : ConstValue)
    (h : (pool.map Prod.fst).Nodup) :
    ((addConstantData pool v).map Prod.fst).Nodup := by
  have step : ∀ l : List (ConstValue × Nat), (l.map Prod.fst).Nodup →
      (((if maxConstantData < l.length then
        (organizeConstantData l).take ((organizeConstantData l).length - maxConstantData / 4)
      else l) : List (ConstValue × Nat)).map Prod.fst).Nodup := by
    intro l hl
    by_cases hc : maxConstantData < l.length
    · simp only [hc, if_true]
      have hperm : ((organizeConstantData l).map Prod.fst).Perm (l.map Prod.fst) :=
        (organizeConstantData_perm l).map Prod.fst
      have hnd2 : ((organizeConstantData l).map Prod.fst).Nodup := hperm.nodup_iff.mpr hl
      exact hnd2.sublist ((List.take_sublist _ _).map Prod.fst)
    · simpa [hc]
  by_cases hf : pool.any (fun e => e.1 = v) = true
  · rw [addConstantData_eq_found v pool hf]
    have : ((bumpConstant v pool).1.map Prod.fst).Nodup := by
      rw [bumpConstant_fst]; exact h
    have hs := step (bumpConstant v pool).1 this
    rwa [bumpConstant_length] at hs
  · have hf' : pool.any (fun e => e.1 = v) = false := Bool.eq_false_iff.mpr hf
    rw [addConstantData_eq_not_found v pool hf']
    have hv : v ∉ pool.map Prod.fst := by
      intro hm
      obtain ⟨e, he, hfst⟩ := List.mem_map.mp hm
      rw [List.any_eq_false] at hf'
      have hne := hf' e he
      simp at hne
      exact hne hfst
    have hnd : ((pool ++ [(v, 1)]).map Prod.fst).Nodup := by
      simp only [List.map_append, List.map_cons, List.map_nil]
      rw [List.nodup_append]
      refine ⟨h, List.nodup_singleton v, ?_⟩
      intro a ha hb
      simp at hb
      subst hb
      exact hv ha
    have hs := step (pool ++ [(v, 1)]) hnd
    simpa using hs


/-- Claim C2, confirmed: during the emit pass (and outside initializer
expressions) a constant equal to a retained pool entry pushes that
entry's slot offset onto the shadow stack and emits no record; slots
assigned by `OnEndPreprocess` are pairwise distinct across distinct pool
entries; entries with bit-identical values coincide (the pool is
duplicate-free, an invariant `addConstantData` preserves), hence share
their single offset. -/
theorem claimC2Theorem :
    (∀ (s : State) (v : ConstValue) (e : ConstValue × Nat),
      s.inInitExpr = false →
      s.preprocessData.inPreprocess = false →
      s.preprocessData.constantData.find? (fun x => x.1 = v) = some e →
      (processConstValue v s).1 = true ∧
        (processConstValue v s).2.byteCode = s.byteCode ∧
        (processConstValue v s).2.vmStack =
          s.vmStack ++ [⟨v.ty, e.2, s.functionStackSizeSoFar, sizeMax⟩]) ∧
      (∀ (init : Nat) (pool : List (ConstValue × Nat)) (i j : Nat) (ei ej : ConstValue × Nat),
        init + ((pool.map fun x => valueStackAllocatedSize x.1.ty).sum) ≤ 65535 →
        (assignConstantPositions init pool).1.get? i = some ei →
        (assignConstantPositions init pool).1.get? j = some ej →
        (i ≠ j → ei.2 ≠ ej.2) ∧
          ((pool.map Prod.fst).Nodup → ei.1 = ej.1 → ei.2 = ej.2)) ∧
      (∀ (pool : List (ConstValue × Nat)) (v : ConstValue),
        (pool.map Prod.fst).Nodup → ((addConstantData pool v).map Prod.fst).Nodup) := by
  refine ⟨?_, ?_, fun pool v h => addConstantData_nodup pool v h⟩
  · intro s v e h1 h2 h3
    simp only [processConstValue, h1, h2, Bool.false_eq_true, not_false_iff, if_true, if_false,
      h3]
    refine ⟨trivial, ?_, ?_⟩ <;> simp [pushVMStackAt, sizeMax]
  · intro init pool i j ei ej hb hi hj
    have widthsPos : ∀ x ∈ pool.map fun x => valueStackAllocatedSize x.1.ty, 0 < x := by
      intro x hx
      obtain ⟨y, _, hy⟩ := List.mem_map.mp hx
      rw [← hy]
      exact valueStackAllocatedSize_pos _
    have hleni : i < pool.length := by
      obtain ⟨hlt, -⟩ := List.get?_eq_some.mp hi
      rwa [assignConstantPositions_length] at hlt
    have hlenj : j < pool.length := by
      obtain ⟨hlt, -⟩ := List.get?_eq_some.mp hj
      rwa [assignConstantPositions_length] at hlt
    have hformi := assignConstantPositions_get pool init i ei hb hi
    have hformj := assignConstantPositions_get pool init j ej hb hj
    constructor
    · intro hne
      rcases Nat.lt_or_ge i j with hlt | hge
      · have := sum_take_lt_of_pos (pool.map fun x => valueStackAllocatedSize x.1.ty)
          widthsPos i j hlt (by simpa using Nat.le_of_lt hlenj)
        rw [← List.map_take, ← List.map_take] at this
        omega
      · have hlt : j < i := Nat.lt_of_le_of_ne hge (fun h => hne h.symm)
        have := sum_take_lt_of_pos (pool.map fun x => valueStackAllocatedSize x.1.ty)
          widthsPos j i hlt (by simpa using Nat.le_of_lt hleni)
        rw [← List.map_take, ← List.map_take] at this
        omega
    · intro hnd hfst
      have hndA : ((assignConstantPositions init pool).1.map Prod.fst).Nodup := by
        rw [assignConstantPositions_fst]
        exact hnd
      have hmi : ((assignConstantPositions init pool).1.map Prod.fst).get? i = some ei.1 := by
        rw [List.get?_map, hi]
        rfl
      have hmj : ((assignConstantPositions init pool).1.map Prod.fst).get? j = some ej.1 := by
        rw [List.get?_map, hj]
        rfl
      have hij : i = j := by
        apply List.get?_inj ?_ hndA
        · rw [hmi, hmj, hfst]
        · rw [List.length_map, assignConstantPositions_length]
          exact hleni
      subst hij
      rw [hi] at hj
      cases hj
      rfl

/-- Witness for claim C2's theorem: in an emit-pass state retaining the
`i32` constant 7 at slot 12, processing that constant pushes offset 12
and leaves the buffer unchanged. -/
theorem claimC2Witness :
    (processConstValue ⟨.i32, 7⟩ emitPoolState).1 = true ∧
      (processConstValue ⟨.i32, 7⟩ emitPoolState).2.byteCode = emitPoolState.byteCode ∧
      (processConstValue ⟨.i32, 7⟩ emitPoolState).2.vmStack =
        emitPoolState.vmStack ++
          [⟨ValueType.i32, 12, emitPoolState.functionStackSizeSoFar, sizeMax⟩] :=
  claimC2Theorem.1 emitPoolState ⟨.i32, 7⟩ (⟨.i32, 7⟩, 12) (by decide) (by decide) (by decide)

/-- Recording a local usage touches only the preprocess collector. -/
theorem applyAddLocalVariableUsage_fields (idx : Nat) (s : State) :
    (applyAddLocalVariableUsage idx s).vmStack = s.vmStack ∧
      (applyAddLocalVariableUsage idx s).functionStackSizeSoFar = s.functionStackSizeSoFar ∧
      (applyAddLocalVariableUsage idx s).initialFunctionStackSize = s.initialFunctionStackSize ∧
      (applyAddLocalVariableUsage idx s).requiredStackSize = s.requiredStackSize := by
  unfold applyAddLocalVariableUsage
  by_cases h : s.preprocessData.inPreprocess <;> simp [h]

/-- Closing a usage interval touches only the preprocess collector. -/
theorem closeUsageOfLocal_fields (idx : Nat) (s : State) :
    (closeUsageOfLocal idx s).vmStack = s.vmStack ∧
      (closeUsageOfLocal idx s).functionStackSizeSoFar = s.functionStackSizeSoFar ∧
      (closeUsageOfLocal idx s).initialFunctionStackSize = s.initialFunctionStackSize ∧
      (closeUsageOfLocal idx s).requiredStackSize = s.requiredStackSize := by
  unfold closeUsageOfLocal
  exact ⟨rfl, rfl, rfl, rfl⟩

/-- `stackWidthSum` only reads the shadow stack. -/
theorem stackWidthSum_set_vmStack (s : State) (l : List VMStackInfo) :
    stackWidthSum { s with vmStack := l } = (l.map (·.stackAllocatedSize)).sum := rfl

/-- 16-bit arithmetic is exact below the wrap point. -/
theorem u16_of_le (n : Nat) (h : n ≤ 65535) : u16 n = n :=
  Nat.mod_eq_of_lt (by omega)

/-- The full effect of `pushVMStack(type, pos, localIndex)` on the
tracker fields. -/
theorem pushVMStackAt_shape (t : ValueType) (pos idx : Nat) (s : State) :
    (pushVMStackAt t pos idx s).vmStack =
        s.vmStack ++ [⟨t, pos, s.functionStackSizeSoFar, idx⟩] ∧
      (pushVMStackAt t pos idx s).functionStackSizeSoFar =
        u16 (s.functionStackSizeSoFar + valueStackAllocatedSize t) ∧
      (pushVMStackAt t pos idx s).initialFunctionStackSize = s.initialFunctionStackSize ∧
      (pushVMStackAt t pos idx s).requiredStackSize =
        max s.requiredStackSize (u16 (s.functionStackSizeSoFar + valueStackAllocatedSize t)) := by
  unfold pushVMStackAt
  by_cases h : idx = sizeMax
  · simp [h]
  · obtain ⟨h1, h2, h3, h4⟩ := applyAddLocalVariableUsage_fields idx s
    simp [h, h1, h2, h3, h4]

/-- The full effect of `popVMStackInfo()` on the tracker fields. -/
theorem popVMStackInfo_shape (s : State) (l : List VMStackInfo) (x : VMStackInfo)
    (h : s.vmStack = l ++ [x]) :
    (popVMStackInfo s).1 = x ∧
      (popVMStackInfo s).2.vmStack = l ∧
      (popVMStackInfo s).2.functionStackSizeSoFar =
        u16 (s.functionStackSizeSoFar + 65536 - valueStackAllocatedSize x.valueType) ∧
      (popVMStackInfo s).2.initialFunctionStackSize = s.initialFunctionStackSize ∧
      (popVMStackInfo s).2.requiredStackSize = s.requiredStackSize := by
  have hlast : s.vmStack.getLast? = some x := by
    rw [h]
    simp
  simp only [popVMStackInfo, hlast]
  by_cases hc : s.preprocessData.inPreprocess = true ∧ x.hasValidLocalIndex = true <;>
    simp [hc, closeUsageOfLocal, h]

/-- A fitting push preserves tracker well-formedness. -/
theorem trackerWF_push (s : State) (t : ValueType) (pos idx : Nat)
    (hwf : trackerWF s)
    (hfit : s.initialFunctionStackSize + stackWidthSum s + valueStackAllocatedSize t ≤ 65535) :
    trackerWF (pushVMStackAt t pos idx s) := by
  obtain ⟨h1, h2, h3, h4⟩ := pushVMStackAt_shape t pos idx s
  obtain ⟨hwf1, hwf2⟩ := hwf
  constructor
  · rw [h2, h3]
    have hsum : stackWidthSum (pushVMStackAt t pos idx s) =
        stackWidthSum s + valueStackAllocatedSize t := by
      unfold stackWidthSum
      rw [h1]
      simp [VMStackInfo.stackAllocatedSize]
    rw [hsum, hwf1, u16_of_le _ (by omega)]
    omega
  · rw [h3]
    have hsum : stackWidthSum (pushVMStackAt t pos idx s) =
        stackWidthSum s + valueStackAllocatedSize t := by
      unfold stackWidthSum
      rw [h1]
      simp [VMStackInfo.stackAllocatedSize]
    omega

/-- A pop on a nonempty stack preserves tracker well-formedness and
shrinks the running size by exactly the popped width. -/
theorem trackerWF_pop (s : State) (hwf : trackerWF s) (hne : s.vmStack ≠ []) :
    trackerWF (popVMStackInfo s).2 ∧
      (popVMStackInfo s).2.functionStackSizeSoFar =
        s.functionStackSizeSoFar - valueStackAllocatedSize (popVMStackInfo s).1.valueType := by
  obtain ⟨l, x, h⟩ : ∃ l x, s.vmStack = l ++ [x] := by
    rcases List.eq_nil_or_concat s.vmStack with hnil | ⟨l, x, hc⟩
    · exact absurd hnil hne
    · rw [List.concat_eq_append] at hc
      exact ⟨l, x, hc⟩
  obtain ⟨p1, p2, p3, p4, p5⟩ := popVMStackInfo_shape s l x h
  obtain ⟨hwf1, hwf2⟩ := hwf
  have hsums : stackWidthSum s =
      (l.map (·.stackAllocatedSize)).sum + valueStackAllocatedSize x.valueType := by
    unfold stackWidthSum
    rw [h]
    simp [VMStackInfo.stackAllocatedSize]
  have halloc : valueStackAllocatedSize x.valueType ≤ s.functionStackSizeSoFar := by omega
  have harith : u16 (s.functionStackSizeSoFar + 65536 - valueStackAllocatedSize x.valueType) =
      s.functionStackSizeSoFar - valueStackAllocatedSize x.valueType := by
    have : s.functionStackSizeSoFar + 65536 - valueStackAllocatedSize x.valueType =
        (s.functionStackSizeSoFar - valueStackAllocatedSize x.valueType) + 65536 := by omega
    rw [this]
    unfold u16
    rw [Nat.add_mod_right]
    exact Nat.mod_eq_of_lt (by omega)
  refine ⟨⟨?_, ?_⟩, ?_⟩
  · rw [p3, p4, harith]
    have : stackWidthSum (popVMStackInfo s).2 = (l.map (·.stackAllocatedSize)).sum := by
      unfold stackWidthSum
      rw [p2]
    rw [this]
    omega
  · rw [p4]
    have : stackWidthSum (popVMStackInfo s).2 = (l.map (·.stackAllocatedSize)).sum := by
      unfold stackWidthSum
      rw [p2]
    rw [this]
    omega
  · rw [p3, p1, harith]

/-- No tracker operation decreases the required-stack watermark. -/
theorem trackerOp_required_mono (s : State) (op : TrackerOp) :
    s.requiredStackSize ≤ (applyTrackerOp s op).requiredStackSize := by
  cases op with
  | push t =>
      obtain ⟨-, -, -, h4⟩ := pushVMStackAt_shape t s.functionStackSizeSoFar sizeMax s
      simp only [applyTrackerOp, pushVMStack]
      rw [h4]
      exact Nat.le_max_left _ _
  | pushAt t pos idx =>
      obtain ⟨-, -, -, h4⟩ := pushVMStackAt_shape t pos idx s
      simp only [applyTrackerOp]
      rw [h4]
      exact Nat.le_max_left _ _
  | pop =>
      simp only [applyTrackerOp]
      unfold popVMStackInfo
      cases h : s.vmStack.getLast? with
      | none => simp
      | some x =>
          by_cases hc : s.preprocessData.inPreprocess ∧ x.hasValidLocalIndex = true <;>
            simp [hc, closeUsageOfLocal]

/-- Counterexample to claim C6 as stated: at the entry of a function with
one `i32` parameter the shadow stack is empty but the running stack size
is 4 (the parameter area), so the running size does not equal the sum of
the entry widths. -/
theorem claimC6Counterexample : ¬claimC6Statement := by
  intro h
  exact absurd (h ⟨[.i32], []⟩ [] [] (by decide)) (by decide)

/-- Claim C6, corrected: over every fitting tracker-operation sequence
the running stack size equals the function's initial stack size (the
parameter/local/constant area) plus the sum of the allocated widths of
the entries on the shadow stack; each pop reduces the running size by
exactly the width of the popped entry's kind; and the required-stack
watermark never decreases across push and pop operations.  A fresh
function state is well formed. -/
theorem claimC6Theorem :
    (∀ (ops : List TrackerOp) (s : State),
      trackerWF s → trackerOpsFit ops s = true →
      trackerWF (applyTrackerOps ops s)) ∧
      (∀ (s : State) (l : List VMStackInfo) (x : VMStackInfo),
        trackerWF s → s.vmStack = l ++ [x] →
        (popVMStackInfo s).1 = x ∧
          (popVMStackInfo s).2.functionStackSizeSoFar =
            s.functionStackSizeSoFar - valueStackAllocatedSize x.valueType) ∧
      (∀ (ops : List TrackerOp) (s : State),
        s.requiredStackSize ≤ (applyTrackerOps ops s).requiredStackSize) ∧
      (∀ (ft : FunctionType) (locals : List ValueType) (ftypes : List FunctionType)
        (bytes : List Nat) (endOff : Nat),
        (beginFunctionState ft locals ftypes bytes endOff).initialFunctionStackSize ≤ 65535 →
        trackerWF (beginFunctionState ft locals ftypes bytes endOff)) := by
  refine ⟨?_, ?_, ?_, ?_⟩
  · intro ops
    induction ops with
    | nil => intro s hwf _; exact hwf
    | cons op rest ih =>
        intro s hwf hfit
        simp only [trackerOpsFit, Bool.and_eq_true] at hfit
        obtain ⟨hop, hrest⟩ := hfit
        have hwf2 : trackerWF (applyTrackerOp s op) := by
          cases op with
          | push t =>
              exact trackerWF_push s t s.functionStackSizeSoFar sizeMax hwf (by simpa using hop)
          | pushAt t pos idx =>
              exact trackerWF_push s t pos idx hwf (by simpa using hop)
          | pop =>
              have hne : s.vmStack ≠ [] := by
                simpa [List.isEmpty_iff] using hop
              exact (trackerWF_pop s hwf hne).1
        exact ih (applyTrackerOp s op) hwf2 hrest
  · intro s l x hwf h
    have hne : s.vmStack ≠ [] := by
      rw [h]; simp
    obtain ⟨p1, -, -, -, -⟩ := popVMStackInfo_shape s l x h
    exact ⟨p1, by rw [← p1]; exact (trackerWF_pop s hwf hne).2⟩
  · intro ops
    induction ops with
    | nil => intro s; exact Nat.le_refl _
    | cons op rest ih =>
        intro s
        exact Nat.le_trans (trackerOp_required_mono s op) (ih (applyTrackerOp s op))
  · intro ft locals ftypes bytes endOff hle
    constructor
    · simp [beginFunctionState, stackWidthSum]
    · simpa [beginFunctionState, stackWidthSum] using hle

/-- Witness for claim C6's theorem at a concrete operation sequence. -/
theorem claimC6Witness :
    trackerWF
      (applyTrackerOps [.push .i32, .pushAt .i64 0 sizeMax, .pop, .pop]
        (beginFunctionState ⟨[.i32], []⟩ [] [] [] 0)) :=
  claimC6Theorem.1 [.push .i32, .pushAt .i64 0 sizeMax, .pop, .pop]
    (beginFunctionState ⟨[.i32], []⟩ [] [] [] 0)
    (claimC6Theorem.2.2.2 ⟨[.i32], []⟩ [] [] [] 0 (by decide)) (by decide)


theorem recordSize_pos (r : ByteCodeRec) : 0 < recordSize r := by
  cases r <;> simp [recordSize, pointerAlignedSize, sizeofBrTable]

theorem byteCodeSizeOf_nil : byteCodeSizeOf [] = 0 := rfl

theorem byteCodeSizeOf_cons (r : ByteCodeRec) (b : List ByteCodeRec) :
    byteCodeSizeOf (r :: b) = recordSize r + byteCodeSizeOf b := by
  simp [byteCodeSizeOf]

theorem byteCodeSizeOf_append (a b : List ByteCodeRec) :
    byteCodeSizeOf (a ++ b) = byteCodeSizeOf a + byteCodeSizeOf b := by
  simp [byteCodeSizeOf]

theorem byteCodeSizeOf_eq_zero (b : List ByteCodeRec) (h : byteCodeSizeOf b = 0) : b = [] := by
  cases b with
  | nil => rfl
  | cons r rest =>
      rw [byteCodeSizeOf_cons] at h
      exact absurd h (by have := recordSize_pos r; omega)

theorem recordAtGo_append (front : List ByteCodeRec) (r : ByteCodeRec) (rest : List ByteCodeRec) :
    ∀ cur, recordAtGo (cur + byteCodeSizeOf front) cur (front ++ r :: rest) = some r := by
  induction front with
  | nil => intro cur; simp [recordAtGo, byteCodeSizeOf_nil]
  | cons f fr ih =>
      intro cur
      rw [byteCodeSizeOf_cons]
      simp only [List.cons_append, recordAtGo, List.append_eq]
      have hne : ¬(cur = cur + (recordSize f + byteCodeSizeOf fr)) := by
        have := recordSize_pos f; omega
      rw [if_neg hne]
      have h := ih (cur + recordSize f)
      rw [show cur + (recordSize f + byteCodeSizeOf fr)
            = cur + recordSize f + byteCodeSizeOf fr by omega]
      exact h

theorem recordAt_append (front : List ByteCodeRec) (r : ByteCodeRec) (rest : List ByteCodeRec) :
    recordAt (front ++ r :: rest) (byteCodeSizeOf front) = some r := by
  have := recordAtGo_append front r rest 0
  simpa [recordAt] using this

theorem recordAtGo_last_decomp (b : List ByteCodeRec) (r : ByteCodeRec) :
    ∀ (p cur : Nat), recordAtGo p cur b = some r →
      p + recordSize r = cur + byteCodeSizeOf b →
      ∃ front, b = front ++ [r] ∧ cur + byteCodeSizeOf front = p := by
  induction b with
  | nil => intro p cur h; simp [recordAtGo] at h
  | cons f fr ih =>
      intro p cur h hsz
      rw [byteCodeSizeOf_cons] at hsz
      by_cases hc : cur = p
      · simp only [recordAtGo, hc, if_pos] at h
        cases h
        have : byteCodeSizeOf fr = 0 := by omega
        have hfr := byteCodeSizeOf_eq_zero fr this
        subst hfr
        exact ⟨[], rfl, by simpa using hc⟩
      · simp only [recordAtGo, hc, if_false] at h
        obtain ⟨front, hb, hp⟩ := ih p (cur + recordSize f) h (by omega)
        refine ⟨f :: front, by simp [hb], ?_⟩
        rw [byteCodeSizeOf_cons]
        omega

theorem recordAt_last_decomp (b : List ByteCodeRec) (r : ByteCodeRec) (p : Nat)
    (h : recordAt b p = some r) (hsz : p + recordSize r = byteCodeSizeOf b) :
    ∃ front, b = front ++ [r] ∧ byteCodeSizeOf front = p := by
  obtain ⟨front, h1, h2⟩ := recordAtGo_last_decomp b r p 0 h (by simpa using hsz)
  exact ⟨front, h1, by simpa using h2⟩

theorem resizeByteCodeGo_append (front : List ByteCodeRec) (r : ByteCodeRec) :
    ∀ cur, resizeByteCodeGo (cur + byteCodeSizeOf front) cur (front ++ [r]) = front := by
  induction front with
  | nil =>
      intro cur
      have : ¬(cur + recordSize r ≤ cur + byteCodeSizeOf ([] : List ByteCodeRec)) := by
        rw [byteCodeSizeOf_nil]
        have := recordSize_pos r
        omega
      simp only [List.nil_append, resizeByteCodeGo, if_neg this]
  | cons f fr ih =>
      intro cur
      rw [byteCodeSizeOf_cons]
      simp only [List.cons_append, resizeByteCodeGo, List.append_eq]
      have hk : cur + recordSize f ≤ cur + (recordSize f + byteCodeSizeOf fr) := by omega
      rw [if_pos hk]
      have h := ih (cur + recordSize f)
      rw [show cur + (recordSize f + byteCodeSizeOf fr)
            = cur + recordSize f + byteCodeSizeOf fr by omega]
      rw [h]

theorem resizeByteCode_append (front : List ByteCodeRec) (r : ByteCodeRec) :
    resizeByteCode (front ++ [r]) (byteCodeSizeOf front) = front := by
  have := resizeByteCodeGo_append front r 0
  simpa [resizeByteCode] using this

theorem recordAtGo_append_of_some (b ext : List ByteCodeRec) (r : ByteCodeRec) :
    ∀ (p cur : Nat), recordAtGo p cur b = some r → recordAtGo p cur (b ++ ext) = some r := by
  induction b with
  | nil => intro p cur h; simp [recordAtGo] at h
  | cons f fr ih =>
      intro p cur h
      by_cases hc : cur = p
      · simp only [recordAtGo, hc, if_pos] at h ⊢
        simpa using h
      · simp only [recordAtGo, hc, if_false] at h ⊢
        exact ih p (cur + recordSize f) h

theorem recordContainingGo_bounds (b : List ByteCodeRec) :
    ∀ (p cur st : Nat) (r : ByteCodeRec), recordContainingGo p cur b = some (st, r) →
      cur ≤ st ∧ st ≤ p ∧ p < st + recordSize r := by
  induction b with
  | nil => intro p cur st r h; simp [recordContainingGo] at h
  | cons f fr ih =>
      intro p cur st r h
      by_cases hc : cur ≤ p ∧ p < cur + recordSize f
      · simp only [recordContainingGo, if_pos hc] at h
        cases h
        exact ⟨Nat.le_refl _, hc.1, hc.2⟩
      · simp only [recordContainingGo, if_neg hc] at h
        have := ih p (cur + recordSize f) st r h
        exact ⟨by omega, this.2.1, this.2.2⟩

theorem recordContainingGo_append_of_some (b ext : List ByteCodeRec) :
    ∀ (p cur : Nat) (v : Nat × ByteCodeRec), recordContainingGo p cur b = some v →
      recordContainingGo p cur (b ++ ext) = some v := by
  induction b with
  | nil => intro p cur v h; simp [recordContainingGo] at h
  | cons f fr ih =>
      intro p cur v h
      by_cases hc : cur ≤ p ∧ p < cur + recordSize f
      · simp only [recordContainingGo, if_pos hc] at h ⊢
        exact h
      · simp only [recordContainingGo, if_neg hc] at h ⊢
        exact ih p (cur + recordSize f) v h

theorem byteCodeSizeOf_modifyRecordAtGo (p : Nat) (f : ByteCodeRec → ByteCodeRec)
    (hsz : ∀ r, recordSize (f r) = recordSize r) (b : List ByteCodeRec) :
    ∀ cur, byteCodeSizeOf (modifyRecordAtGo p f cur b) = byteCodeSizeOf b := by
  induction b with
  | nil => intro cur; rfl
  | cons r rest ih =>
      intro cur
      by_cases hc : cur = p
      · simp [modifyRecordAtGo, hc, byteCodeSizeOf_cons, hsz]
      · simp [modifyRecordAtGo, hc, byteCodeSizeOf_cons, ih]

theorem byteCodeSizeOf_modifyRecordAt (b : List ByteCodeRec) (p : Nat)
    (f : ByteCodeRec → ByteCodeRec) (hsz : ∀ r, recordSize (f r) = recordSize r) :
    byteCodeSizeOf (modifyRecordAt b p f) = byteCodeSizeOf b :=
  byteCodeSizeOf_modifyRecordAtGo p f hsz b 0

theorem recordAtGo_modify_self (p : Nat) (f : ByteCodeRec → ByteCodeRec) (b : List ByteCodeRec) :
    ∀ cur, recordAtGo p cur (modifyRecordAtGo p f cur b) = (recordAtGo p cur b).map f := by
  induction b with
  | nil => intro cur; simp [modifyRecordAtGo, recordAtGo]
  | cons r rest ih =>
      intro cur
      by_cases hc : cur = p
      · simp [modifyRecordAtGo, recordAtGo, hc]
      · simp [modifyRecordAtGo, recordAtGo, hc, ih]

theorem recordAt_modify_self (b : List ByteCodeRec) (p : Nat) (f : ByteCodeRec → ByteCodeRec) :
    recordAt (modifyRecordAt b p f) p = (recordAt b p).map f :=
  recordAtGo_modify_self p f b 0

theorem recordAtGo_modify_ne (p q : Nat) (f : ByteCodeRec → ByteCodeRec) (hq : q ≠ p)
    (hsz : ∀ r, recordSize (f r) = recordSize r) (b : List ByteCodeRec) :
    ∀ cur, recordAtGo q cur (modifyRecordAtGo p f cur b) = recordAtGo q cur b := by
  induction b with
  | nil => intro cur; simp [modifyRecordAtGo]
  | cons r rest ih =>
      intro cur
      by_cases hc : cur = p
      · have hcq : ¬(cur = q) := by rw [hc]; exact fun h => hq h.symm
        simp [modifyRecordAtGo, recordAtGo, hc, hcq, hsz, Ne.symm hq]
      · by_cases hcq : cur = q
        · simp [modifyRecordAtGo, recordAtGo, hc, hcq, hq]
        · simp [modifyRecordAtGo, recordAtGo, hc, hcq, ih]

theorem recordAt_modify_ne (b : List ByteCodeRec) (p q : Nat) (f : ByteCodeRec → ByteCodeRec)
    (hq : q ≠ p) (hsz : ∀ r, recordSize (f r) = recordSize r) :
    recordAt (modifyRecordAt b p f) q = recordAt b q :=
  recordAtGo_modify_ne p q f hq hsz b 0

theorem recordContainingGo_modify_same (p : Nat) (f : ByteCodeRec → ByteCodeRec)
    (hsz : ∀ r, recordSize (f r) = recordSize r) (b : List ByteCodeRec) :
    ∀ (q cur : Nat) (r : ByteCodeRec), recordContainingGo q cur b = some (p, r) →
      recordContainingGo q cur (modifyRecordAtGo p f cur b) = some (p, f r) := by
  induction b with
  | nil => intro q cur r h; simp [recordContainingGo] at h
  | cons r0 rest ih =>
      intro q cur r h
      by_cases hc : cur ≤ q ∧ q < cur + recordSize r0
      · rw [recordContainingGo, if_pos hc] at h
        have hcur : cur = p ∧ r0 = r := by simpa using h
        obtain ⟨hcur, hr⟩ := hcur
        subst hcur; subst hr
        rw [modifyRecordAtGo, if_pos rfl, recordContainingGo,
          if_pos (by rw [hsz]; exact hc)]
      · rw [recordContainingGo, if_neg hc] at h
        have hb := recordContainingGo_bounds rest q (cur + recordSize r0) p r h
        have hcp : ¬(cur = p) := by have := recordSize_pos r0; omega
        rw [modifyRecordAtGo, if_neg hcp, recordContainingGo, if_neg hc]
        exact ih q (cur + recordSize r0) r h

theorem recordContaining_modify_same (b : List ByteCodeRec) (p q : Nat)
    (f : ByteCodeRec → ByteCodeRec) (hsz : ∀ r, recordSize (f r) = recordSize r)
    (r : ByteCodeRec) (h : recordContaining b q = some (p, r)) :
    recordContaining (modifyRecordAt b p f) q = some (p, f r) :=
  recordContainingGo_modify_same p f hsz b q 0 r h

theorem recordContainingGo_modify_ne (p : Nat) (f : ByteCodeRec → ByteCodeRec)
    (hsz : ∀ r, recordSize (f r) = recordSize r) (b : List ByteCodeRec) :
    ∀ (q cur st : Nat) (r : ByteCodeRec), recordContainingGo q cur b = some (st, r) → st ≠ p →
      recordContainingGo q cur (modifyRecordAtGo p f cur b) = some (st, r) := by
  induction b with
  | nil => intro q cur st r h _; simp [recordContainingGo] at h
  | cons r0 rest ih =>
      intro q cur st r h hne
      by_cases hc : cur ≤ q ∧ q < cur + recordSize r0
      · rw [recordContainingGo, if_pos hc] at h
        have hcur : cur = st ∧ r0 = r := by simpa using h
        obtain ⟨hcur, hr⟩ := hcur
        subst hcur; subst hr
        rw [modifyRecordAtGo, if_neg hne, recordContainingGo, if_pos hc]
      · rw [recordContainingGo, if_neg hc] at h
        by_cases hcp : cur = p
        · rw [modifyRecordAtGo, if_pos hcp, recordContainingGo,
            if_neg (by rw [hsz]; exact hc), hsz]
          exact h
        · rw [modifyRecordAtGo, if_neg hcp, recordContainingGo, if_neg hc]
          exact ih q (cur + recordSize r0) st r h hne

theorem recordContaining_modify_ne (b : List ByteCodeRec) (p q st : Nat)
    (f : ByteCodeRec → ByteCodeRec) (hsz : ∀ r, recordSize (f r) = recordSize r)
    (r : ByteCodeRec) (h : recordContaining b q = some (st, r)) (hne : st ≠ p) :
    recordContaining (modifyRecordAt b p f) q = some (st, r) :=
  recordContainingGo_modify_ne p f hsz b q 0 st r h hne

theorem recordContainingGo_recordAtGo (b : List ByteCodeRec) :
    ∀ (q cur st : Nat) (r : ByteCodeRec), recordContainingGo q cur b = some (st, r) →
      recordAtGo st cur b = some r := by
  induction b with
  | nil => intro q cur st r h; simp [recordContainingGo] at h
  | cons r0 rest ih =>
      intro q cur st r h
      by_cases hc : cur ≤ q ∧ q < cur + recordSize r0
      · rw [recordContainingGo, if_pos hc] at h
        have hcur : cur = st ∧ r0 = r := by simpa using h
        obtain ⟨hcur, hr⟩ := hcur
        subst hcur; subst hr
        rw [recordAtGo, if_pos rfl]
      · rw [recordContainingGo, if_neg hc] at h
        have hb := recordContainingGo_bounds rest q (cur + recordSize r0) st r h
        have hcs : ¬(cur = st) := by have := recordSize_pos r0; omega
        rw [recordAtGo, if_neg hcs]
        exact ih q (cur + recordSize r0) st r h

theorem recordContaining_recordAt (b : List ByteCodeRec) (q st : Nat) (r : ByteCodeRec)
    (h : recordContaining b q = some (st, r)) : recordAt b st = some r :=
  recordContainingGo_recordAtGo b q 0 st r h

theorem setJumpOffset_size (off : Int) (r : ByteCodeRec) :
    recordSize (setJumpOffset off r) = recordSize r := by
  cases r <;> rfl

theorem brTableSlotSet_size (r : ByteCodeRec) (jo : Nat) (v : Int) :
    recordSize (brTableSlotSet r jo v) = recordSize r := by
  cases r <;> try rfl
  case brTable cond dflt offs =>
    simp only [brTableSlotSet]
    split
    · rfl
    · split
      · simp [recordSize]
      · rfl

theorem brTableSlotGet_set_self (r : ByteCodeRec) (jo : Nat) (v old : Int)
    (h : brTableSlotGet r jo = some old) :
    brTableSlotGet (brTableSlotSet r jo v) jo = some v := by
  cases r
  case brTable cond dflt offs =>
    by_cases h1 : jo = offsetOfDefault
    · simp [brTableSlotGet, brTableSlotSet, h1]
    · by_cases h2 : sizeofBrTable ≤ jo
      · simp only [brTableSlotGet, if_neg h1, if_pos h2] at h
        have hlt : (jo - sizeofBrTable) / 4 < offs.length := by
          by_contra hge
          rw [List.get?_eq_getElem?, getElem?_neg _ _ (by omega)] at h
          exact Option.noConfusion h
        simp only [brTableSlotSet, if_neg h1, if_pos h2, brTableSlotGet]
        rw [List.get?_eq_getElem?, List.getElem?_set_eq hlt]
      · simp [brTableSlotGet, h1, h2] at h
  all_goals exact absurd h (by simp [brTableSlotGet])

theorem brTableSlotGet_set_ne (cond : Nat) (dflt : Int) (offs : List Int)
    (jo jo2 : Nat) (v : Int)
    (hjo : jo = offsetOfDefault ∨ (sizeofBrTable ≤ jo ∧ (jo - sizeofBrTable) % 4 = 0))
    (hjo2 : jo2 = offsetOfDefault ∨ (sizeofBrTable ≤ jo2 ∧ (jo2 - sizeofBrTable) % 4 = 0))
    (hne : jo ≠ jo2) :
    brTableSlotGet (brTableSlotSet (.brTable cond dflt offs) jo v) jo2 =
      brTableSlotGet (.brTable cond dflt offs) jo2 := by
  have hdv : offsetOfDefault = 16 := rfl
  have hbv : sizeofBrTable = 24 := rfl
  rcases hjo with h1 | ⟨h1, h1a⟩
  · rcases hjo2 with h2 | ⟨h2, _⟩
    · exact absurd (h1.trans h2.symm) hne
    · have hne2 : ¬(jo2 = offsetOfDefault) := by omega
      simp [brTableSlotSet, brTableSlotGet, h1, hne2, h2]
  · have hne1 : ¬(jo = offsetOfDefault) := by omega
    rcases hjo2 with h2 | ⟨h2, h2a⟩
    · simp [brTableSlotSet, brTableSlotGet, hne1, h1, h2]
    · have hne2 : ¬(jo2 = offsetOfDefault) := by omega
      have hidx : (jo2 - sizeofBrTable) / 4 ≠ (jo - sizeofBrTable) / 4 := by omega
      simp only [brTableSlotSet, brTableSlotGet, if_neg hne1, if_pos h1,
        if_neg hne2, if_pos h2]
      rw [List.get?_eq_getElem?, List.get?_eq_getElem?,
        List.getElem?_set_ne (fun h => hidx h.symm)]

theorem jumpOffsetOf_setJumpOffset (off : Int) (r : ByteCodeRec) :
    jumpOffsetOf (setJumpOffset off r) = (jumpOffsetOf r).map (fun _ => off) := by
  cases r <;> rfl

theorem fixupValueAt_jump (b : List ByteCodeRec) (f : JumpToEndBrInfo)
    (hty : f.ty = .isJump ∨ f.ty = .isJumpIf) :
    fixupValueAt b f = (recordAt b f.pos).bind jumpOffsetOf := by
  rcases hty with hty | hty <;>
    · simp only [fixupValueAt, hty]
      rcases hr : recordAt b f.pos with _ | r
      · rfl
      · cases r <;> rfl

theorem fixupKindValid_jump (b : List ByteCodeRec) (f : JumpToEndBrInfo)
    (hty : f.ty = .isJump ∨ f.ty = .isJumpIf) :
    fixupKindValid b f = ((recordAt b f.pos).bind jumpOffsetOf).isSome := by
  rcases hty with hty | hty <;>
    · simp only [fixupKindValid, hty]
      rcases hr : recordAt b f.pos with _ | r
      · rfl
      · cases r <;> rfl

theorem fixupKindValid_brTable (b : List ByteCodeRec) (f : JumpToEndBrInfo)
    (hty : f.ty = .isBrTable) (hv : fixupKindValid b f = true) :
    ∃ st cond dflt offs, recordContaining b f.pos = some (st, .brTable cond dflt offs) ∧
      (f.pos - st = offsetOfDefault ∨
        (sizeofBrTable ≤ f.pos - st ∧ (f.pos - st - sizeofBrTable) % 4 = 0 ∧
          (f.pos - st - sizeofBrTable) / 4 < offs.length)) := by
  simp only [fixupKindValid, hty] at hv
  rcases hc : recordContaining b f.pos with _ | ⟨st, r⟩
  · rw [hc] at hv; exact absurd hv (by simp)
  · rw [hc] at hv
    cases r
    case brTable cond dflt offs =>
      refine ⟨st, cond, dflt, offs, rfl, ?_⟩
      simp only [Bool.or_eq_true, Bool.and_eq_true, decide_eq_true_eq] at hv
      tauto
    all_goals exact absurd hv (by simp)

theorem brTableSlotGet_some_of_valid (cond : Nat) (dflt : Int) (offs : List Int) (jo : Nat)
    (h : jo = offsetOfDefault ∨
      (sizeofBrTable ≤ jo ∧ (jo - sizeofBrTable) % 4 = 0 ∧ (jo - sizeofBrTable) / 4 < offs.length)) :
    ∃ old, brTableSlotGet (.brTable cond dflt offs) jo = some old := by
  rcases h with h | ⟨h1, _, h3⟩
  · exact ⟨dflt, by simp [brTableSlotGet, h]⟩
  · have hne : ¬(jo = offsetOfDefault) := by
      have : offsetOfDefault = 16 := rfl
      have : sizeofBrTable = 24 := rfl
      omega
    refine ⟨offs.get ⟨(jo - sizeofBrTable) / 4, h3⟩, ?_⟩
    simp only [brTableSlotGet, if_neg hne, if_pos h1]
    exact List.get?_eq_get h3

theorem modifyRecordAtGo_congr (p : Nat) (f g : ByteCodeRec → ByteCodeRec)
    (b : List ByteCodeRec) :
    ∀ cur, (∀ r, recordAtGo p cur b = some r → f r = g r) →
      modifyRecordAtGo p f cur b = modifyRecordAtGo p g cur b := by
  induction b with
  | nil => intro cur _; rfl
  | cons r0 rest ih =>
      intro cur hfg
      by_cases hc : cur = p
      · simp only [modifyRecordAtGo, if_pos hc]
        rw [hfg r0 (by rw [recordAtGo, if_pos hc])]
      · simp only [modifyRecordAtGo, if_neg hc]
        rw [ih (cur + recordSize r0)
          (fun r hr => hfg r (by rw [recordAtGo, if_neg hc]; exact hr))]

theorem modifyBrTableSlotAt_eq (b : List ByteCodeRec) (p : Nat) (f : Int → Int)
    (start : Nat) (r : ByteCodeRec) (old : Int)
    (hc : recordContaining b p = some (start, r))
    (hg : brTableSlotGet r (p - start) = some old) :
    modifyBrTableSlotAt b p f =
      modifyRecordAt b start (fun r0 => brTableSlotSet r0 (p - start) (f old)) := by
  unfold modifyBrTableSlotAt
  simp only [hc, hg]
  exact modifyRecordAtGo_congr start _ _ b 0
    (fun r0 hr0 => by
      have hra := recordContaining_recordAt b p start r hc
      rw [show recordAt b start = recordAtGo start 0 b from rfl, hr0] at hra
      cases hra
      rfl)

theorem patchOneFixup_byteCode_size (g : JumpToEndBrInfo) (s : State) :
    byteCodeSizeOf (patchOneFixup g s).byteCode = byteCodeSizeOf s.byteCode := by
  cases hty : g.ty
  case isJump =>
    simp only [patchOneFixup, hty]
    exact byteCodeSizeOf_modifyRecordAt _ _ _ (setJumpOffset_size _)
  case isJumpIf =>
    simp only [patchOneFixup, hty]
    exact byteCodeSizeOf_modifyRecordAt _ _ _ (setJumpOffset_size _)
  case isBrTable =>
    simp only [patchOneFixup, hty]
    rcases hc : recordContaining s.byteCode g.pos with _ | ⟨st, r⟩
    · simp [modifyBrTableSlotAt, hc]
    · rcases hg : brTableSlotGet r (g.pos - st) with _ | old
      · simp [modifyBrTableSlotAt, hc, hg]
      · rw [modifyBrTableSlotAt_eq s.byteCode g.pos _ st r old hc hg]
        exact byteCodeSizeOf_modifyRecordAt _ _ _ (fun r0 => brTableSlotSet_size r0 _ _)

theorem patchOneFixup_csize (g : JumpToEndBrInfo) (s : State) :
    (patchOneFixup g s).csize = s.csize :=
  patchOneFixup_byteCode_size g s

theorem patchOneFixup_own (f : JumpToEndBrInfo) (s : State)
    (hv : fixupKindValid s.byteCode f = true) :
    fixupKindValid (patchOneFixup f s).byteCode f = true ∧
    ((f.ty = .isJump ∨ f.ty = .isJumpIf) →
      fixupValueAt (patchOneFixup f s).byteCode f = some ((s.csize : Int) - (f.pos : Int))) ∧
    (f.ty = .isBrTable → ∀ old, fixupValueAt s.byteCode f = some old →
      fixupValueAt (patchOneFixup f s).byteCode f = some ((s.csize : Int) + old - (f.pos : Int))) := by
  cases hty : f.ty
  case isJump =>
    have hjk : f.ty = .isJump ∨ f.ty = .isJumpIf := Or.inl hty
    rw [fixupKindValid_jump s.byteCode f hjk] at hv
    rcases hr : recordAt s.byteCode f.pos with _ | r
    · rw [hr] at hv; simp at hv
    · rw [hr] at hv
      have hb : (patchOneFixup f s).byteCode =
          modifyRecordAt s.byteCode f.pos (setJumpOffset ((s.csize : Int) - (f.pos : Int))) := by
        simp [patchOneFixup, hty]
      have hra : recordAt (patchOneFixup f s).byteCode f.pos =
          some (setJumpOffset ((s.csize : Int) - (f.pos : Int)) r) := by
        rw [hb, recordAt_modify_self, hr]
        rfl
      simp only [Option.some_bind] at hv
      refine ⟨?_, fun _ => ?_, fun hbt => JumpToEndType.noConfusion hbt⟩
      · rw [fixupKindValid_jump _ f hjk, hra]
        simp only [Option.some_bind, jumpOffsetOf_setJumpOffset]
        rcases hjo : jumpOffsetOf r with _ | off
        · rw [hjo] at hv; simp at hv
        · rfl
      · rw [fixupValueAt_jump _ f hjk, hra]
        simp only [Option.some_bind, jumpOffsetOf_setJumpOffset]
        rcases hjo : jumpOffsetOf r with _ | off
        · rw [hjo] at hv; simp at hv
        · rfl
  case isJumpIf =>
    have hjk : f.ty = .isJump ∨ f.ty = .isJumpIf := Or.inr hty
    rw [fixupKindValid_jump s.byteCode f hjk] at hv
    rcases hr : recordAt s.byteCode f.pos with _ | r
    · rw [hr] at hv; simp at hv
    · rw [hr] at hv
      have hb : (patchOneFixup f s).byteCode =
          modifyRecordAt s.byteCode f.pos (setJumpOffset ((s.csize : Int) - (f.pos : Int))) := by
        simp [patchOneFixup, hty]
      have hra : recordAt (patchOneFixup f s).byteCode f.pos =
          some (setJumpOffset ((s.csize : Int) - (f.pos : Int)) r) := by
        rw [hb, recordAt_modify_self, hr]
        rfl
      simp only [Option.some_bind] at hv
      refine ⟨?_, fun _ => ?_, fun hbt => JumpToEndType.noConfusion hbt⟩
      · rw [fixupKindValid_jump _ f hjk, hra]
        simp only [Option.some_bind, jumpOffsetOf_setJumpOffset]
        rcases hjo : jumpOffsetOf r with _ | off
        · rw [hjo] at hv; simp at hv
        · rfl
      · rw [fixupValueAt_jump _ f hjk, hra]
        simp only [Option.some_bind, jumpOffsetOf_setJumpOffset]
        rcases hjo : jumpOffsetOf r with _ | off
        · rw [hjo] at hv; simp at hv
        · rfl
  case isBrTable =>
    obtain ⟨st, cond, dflt, offs, hc, hvalid⟩ := fixupKindValid_brTable s.byteCode f hty hv
    obtain ⟨old0, hg⟩ := brTableSlotGet_some_of_valid cond dflt offs (f.pos - st) hvalid
    have hb : (patchOneFixup f s).byteCode =
        modifyRecordAt s.byteCode st
          (fun r0 => brTableSlotSet r0 (f.pos - st) ((s.csize : Int) + old0 - (f.pos : Int))) := by
      simp only [patchOneFixup, hty]
      exact modifyBrTableSlotAt_eq s.byteCode f.pos _ st _ old0 hc hg
    have hcnew : recordContaining (patchOneFixup f s).byteCode f.pos =
        some (st, brTableSlotSet (.brTable cond dflt offs) (f.pos - st)
          ((s.csize : Int) + old0 - (f.pos : Int))) := by
      rw [hb]
      exact recordContaining_modify_same s.byteCode st f.pos _
        (fun r0 => brTableSlotSet_size r0 _ _) _ hc
    refine ⟨?_, fun hjk => ?_, fun _ old hold => ?_⟩
    case refine_2 =>
      rcases hjk with h | h <;> exact JumpToEndType.noConfusion h
    · simp only [fixupKindValid, hty, hcnew]
      simp only [brTableSlotSet]
      rcases hvalid with hd | ⟨h1, h2, h3⟩
      · rw [if_pos hd]
        simp [hd]
      · have hnd : ¬(f.pos - st = offsetOfDefault) := by
          have : offsetOfDefault = 16 := rfl
          have : sizeofBrTable = 24 := rfl
          omega
        rw [if_neg hnd, if_pos h1]
        simp only [Bool.or_eq_true, Bool.and_eq_true, decide_eq_true_eq]
        right
        exact ⟨⟨h1, h2⟩, by rw [List.length_set]; exact h3⟩
    · have hold' : old = old0 := by
        simp only [fixupValueAt, hty, hc] at hold
        rw [hg] at hold
        exact (Option.some.injEq _ _ ▸ hold).symm
      subst hold'
      simp only [fixupValueAt, hty, hcnew]
      exact brTableSlotGet_set_self _ _ _ old hg

theorem fixupValueAt_brTable (b : List ByteCodeRec) (f : JumpToEndBrInfo)
    (hty : f.ty = .isBrTable) (st : Nat) (r : ByteCodeRec)
    (hc : recordContaining b f.pos = some (st, r)) :
    fixupValueAt b f = brTableSlotGet r (f.pos - st) := by
  simp [fixupValueAt, hty, hc]

theorem fixupKindValid_brTable_intro (b : List ByteCodeRec) (f : JumpToEndBrInfo)
    (hty : f.ty = .isBrTable) (st cond : Nat) (dflt : Int) (offs : List Int)
    (hc : recordContaining b f.pos = some (st, .brTable cond dflt offs))
    (hvalid : f.pos - st = offsetOfDefault ∨
      (sizeofBrTable ≤ f.pos - st ∧ (f.pos - st - sizeofBrTable) % 4 = 0 ∧
        (f.pos - st - sizeofBrTable) / 4 < offs.length)) :
    fixupKindValid b f = true := by
  simp only [fixupKindValid, hty, hc]
  simp only [Bool.or_eq_true, Bool.and_eq_true, decide_eq_true_eq]
  rcases hvalid with h | ⟨h1, h2, h3⟩
  · exact Or.inl h
  · exact Or.inr ⟨⟨h1, h2⟩, h3⟩

theorem brTableSlotSet_shape (cond : Nat) (dflt : Int) (offs : List Int) (jo : Nat) (v : Int) :
    ∃ d2 offs2, brTableSlotSet (.brTable cond dflt offs) jo v = .brTable cond d2 offs2 ∧
      offs2.length = offs.length := by
  simp only [brTableSlotSet]
  split
  · exact ⟨v, offs, rfl, rfl⟩
  · split
    · exact ⟨dflt, _, rfl, List.length_set _ _ _⟩
    · exact ⟨dflt, offs, rfl, rfl⟩

theorem patchOneFixup_indep_jumpG (f g : JumpToEndBrInfo) (s : State)
    (hf : fixupKindValid s.byteCode f = true) (hg : fixupKindValid s.byteCode g = true)
    (hne : f.pos ≠ g.pos) (hgjk : g.ty = .isJump ∨ g.ty = .isJumpIf) :
    fixupKindValid (patchOneFixup g s).byteCode f = true ∧
    fixupValueAt (patchOneFixup g s).byteCode f = fixupValueAt s.byteCode f := by
  have hbc : (patchOneFixup g s).byteCode =
      modifyRecordAt s.byteCode g.pos (setJumpOffset ((s.csize : Int) - (g.pos : Int))) := by
    rcases hgjk with h | h <;> simp [patchOneFixup, h]
  rw [fixupKindValid_jump s.byteCode g hgjk] at hg
  rcases hrg : recordAt s.byteCode g.pos with _ | rg
  · rw [hrg] at hg; simp at hg
  · rw [hrg] at hg
    simp only [Option.some_bind] at hg
    cases hfty : f.ty
    case isJump =>
      have hjk : f.ty = .isJump ∨ f.ty = .isJumpIf := Or.inl hfty
      have hpres : recordAt (patchOneFixup g s).byteCode f.pos = recordAt s.byteCode f.pos := by
        rw [hbc]
        exact recordAt_modify_ne s.byteCode g.pos f.pos _ hne (setJumpOffset_size _)
      rw [fixupKindValid_jump _ f hjk, fixupValueAt_jump _ f hjk, fixupValueAt_jump _ f hjk,
        hpres, ← fixupKindValid_jump s.byteCode f hjk]
      exact ⟨hf, rfl⟩
    case isJumpIf =>
      have hjk : f.ty = .isJump ∨ f.ty = .isJumpIf := Or.inr hfty
      have hpres : recordAt (patchOneFixup g s).byteCode f.pos = recordAt s.byteCode f.pos := by
        rw [hbc]
        exact recordAt_modify_ne s.byteCode g.pos f.pos _ hne (setJumpOffset_size _)
      rw [fixupKindValid_jump _ f hjk, fixupValueAt_jump _ f hjk, fixupValueAt_jump _ f hjk,
        hpres, ← fixupKindValid_jump s.byteCode f hjk]
      exact ⟨hf, rfl⟩
    case isBrTable =>
      obtain ⟨stf, cf, df, offsf, hcf, hvf⟩ := fixupKindValid_brTable s.byteCode f hfty hf
      have hst : stf ≠ g.pos := by
        intro heq
        have hra := recordContaining_recordAt s.byteCode f.pos stf _ hcf
        rw [heq, hrg] at hra
        cases hra
        simp [jumpOffsetOf] at hg
      have hcnew : recordContaining (patchOneFixup g s).byteCode f.pos =
          some (stf, .brTable cf df offsf) := by
        rw [hbc]
        exact recordContaining_modify_ne s.byteCode g.pos f.pos stf _
          (setJumpOffset_size _) _ hcf hst
      constructor
      · exact fixupKindValid_brTable_intro _ f hfty stf cf df offsf hcnew hvf
      · rw [fixupValueAt_brTable _ f hfty stf _ hcnew,
          fixupValueAt_brTable s.byteCode f hfty stf _ hcf]

theorem patchOneFixup_indep_brG (f g : JumpToEndBrInfo) (s : State)
    (hf : fixupKindValid s.byteCode f = true) (hg : fixupKindValid s.byteCode g = true)
    (hne : f.pos ≠ g.pos) (hgty : g.ty = .isBrTable) :
    fixupKindValid (patchOneFixup g s).byteCode f = true ∧
    fixupValueAt (patchOneFixup g s).byteCode f = fixupValueAt s.byteCode f := by
  obtain ⟨stg, cg, dg, offsg, hcg, hvg⟩ := fixupKindValid_brTable s.byteCode g hgty hg
  obtain ⟨old0, hgo⟩ := brTableSlotGet_some_of_valid cg dg offsg (g.pos - stg) hvg
  have hbc : (patchOneFixup g s).byteCode =
      modifyRecordAt s.byteCode stg
        (fun r0 => brTableSlotSet r0 (g.pos - stg) ((s.csize : Int) + old0 - (g.pos : Int))) := by
    simp only [patchOneFixup, hgty]
    exact modifyBrTableSlotAt_eq s.byteCode g.pos _ stg _ old0 hcg hgo
  have hrag := recordContaining_recordAt s.byteCode g.pos stg _ hcg
  have hbg := recordContainingGo_bounds s.byteCode g.pos 0 stg _ hcg
  cases hfty : f.ty
  case isJump =>
    have hjk : f.ty = .isJump ∨ f.ty = .isJumpIf := Or.inl hfty
    rw [fixupKindValid_jump s.byteCode f hjk] at hf
    have hfpne : f.pos ≠ stg := by
      intro heq
      rw [← heq] at hrag
      rw [hrag] at hf
      simp [jumpOffsetOf] at hf
    have hpres : recordAt (patchOneFixup g s).byteCode f.pos = recordAt s.byteCode f.pos := by
      rw [hbc]
      exact recordAt_modify_ne s.byteCode stg f.pos _ hfpne
        (fun r0 => brTableSlotSet_size r0 _ _)
    rw [fixupKindValid_jump _ f hjk, fixupValueAt_jump _ f hjk, fixupValueAt_jump _ f hjk, hpres]
    exact ⟨hf, rfl⟩
  case isJumpIf =>
    have hjk : f.ty = .isJump ∨ f.ty = .isJumpIf := Or.inr hfty
    rw [fixupKindValid_jump s.byteCode f hjk] at hf
    have hfpne : f.pos ≠ stg := by
      intro heq
      rw [← heq] at hrag
      rw [hrag] at hf
      simp [jumpOffsetOf] at hf
    have hpres : recordAt (patchOneFixup g s).byteCode f.pos = recordAt s.byteCode f.pos := by
      rw [hbc]
      exact recordAt_modify_ne s.byteCode stg f.pos _ hfpne
        (fun r0 => brTableSlotSet_size r0 _ _)
    rw [fixupKindValid_jump _ f hjk, fixupValueAt_jump _ f hjk, fixupValueAt_jump _ f hjk, hpres]
    exact ⟨hf, rfl⟩
  case isBrTable =>
    obtain ⟨stf, cf, df, offsf, hcf, hvf⟩ := fixupKindValid_brTable s.byteCode f hfty hf
    by_cases hstst : stf = stg
    · subst hstst
      have hraf := recordContaining_recordAt s.byteCode f.pos stf _ hcf
      rw [hraf] at hrag
      have hrec : (ByteCodeRec.brTable cf df offsf) = (ByteCodeRec.brTable cg dg offsg) := by
        exact Option.some.inj hrag
      injection hrec with e1 e2 e3
      subst e1; subst e2; subst e3
      have hbf := recordContainingGo_bounds s.byteCode f.pos 0 stf _ hcf
      have hcnew : recordContaining (patchOneFixup g s).byteCode f.pos =
          some (stf, brTableSlotSet (.brTable cf df offsf) (g.pos - stf)
            ((s.csize : Int) + old0 - (g.pos : Int))) := by
        rw [hbc]
        exact recordContaining_modify_same s.byteCode stf f.pos _
          (fun r0 => brTableSlotSet_size r0 _ _) _ hcf
      have hjone : f.pos - stf ≠ g.pos - stf := by omega
      obtain ⟨d2, offs2, hshape, hlen⟩ :=
        brTableSlotSet_shape cf df offsf (g.pos - stf) ((s.csize : Int) + old0 - (g.pos : Int))
      constructor
      · apply fixupKindValid_brTable_intro _ f hfty stf cf d2 offs2 (by rw [← hshape]; exact hcnew)
        rcases hvf with h | ⟨h1, h2, h3⟩
        · exact Or.inl h
        · exact Or.inr ⟨h1, h2, by rw [hlen]; exact h3⟩
      · rw [fixupValueAt_brTable _ f hfty stf _ hcnew,
          fixupValueAt_brTable s.byteCode f hfty stf _ hcf]
        apply brTableSlotGet_set_ne
        · rcases hvg with h | ⟨h1, h2, _⟩
          · exact Or.inl h
          · exact Or.inr ⟨h1, h2⟩
        · rcases hvf with h | ⟨h1, h2, _⟩
          · exact Or.inl h
          · exact Or.inr ⟨h1, h2⟩
        · exact fun h => hjone h.symm
    · have hcnew : recordContaining (patchOneFixup g s).byteCode f.pos =
          some (stf, .brTable cf df offsf) := by
        rw [hbc]
        exact recordContaining_modify_ne s.byteCode stg f.pos stf _
          (fun r0 => brTableSlotSet_size r0 _ _) _ hcf hstst
      constructor
      · exact fixupKindValid_brTable_intro _ f hfty stf cf df offsf hcnew hvf
      · rw [fixupValueAt_brTable _ f hfty stf _ hcnew,
          fixupValueAt_brTable s.byteCode f hfty stf _ hcf]

theorem patchOneFixup_indep (f g : JumpToEndBrInfo) (s : State)
    (hf : fixupKindValid s.byteCode f = true) (hg : fixupKindValid s.byteCode g = true)
    (hne : f.pos ≠ g.pos) :
    fixupKindValid (patchOneFixup g s).byteCode f = true ∧
    fixupValueAt (patchOneFixup g s).byteCode f = fixupValueAt s.byteCode f := by
  cases hgty : g.ty
  case isJump => exact patchOneFixup_indep_jumpG f g s hf hg hne (Or.inl hgty)
  case isJumpIf => exact patchOneFixup_indep_jumpG f g s hf hg hne (Or.inr hgty)
  case isBrTable => exact patchOneFixup_indep_brG f g s hf hg hne hgty

theorem patchFixups_preserve (rest : List JumpToEndBrInfo) :
    ∀ (s : State) (f : JumpToEndBrInfo),
      fixupKindValid s.byteCode f = true →
      (∀ g ∈ rest, fixupKindValid s.byteCode g = true) →
      f.pos ∉ rest.map (·.pos) →
      (rest.map (·.pos)).Nodup →
      fixupKindValid (rest.foldl (fun s g => patchOneFixup g s) s).byteCode f = true ∧
      fixupValueAt (rest.foldl (fun s g => patchOneFixup g s) s).byteCode f =
        fixupValueAt s.byteCode f := by
  induction rest with
  | nil => intro s f hf _ _ _; exact ⟨hf, rfl⟩
  | cons g rest ih =>
      intro s f hf hall hnotin hnd
      simp only [List.map_cons, List.mem_cons, not_or] at hnotin
      rw [List.map_cons, List.nodup_cons] at hnd
      have hg := hall g (List.mem_cons_self g rest)
      obtain ⟨hf1, hv1⟩ := patchOneFixup_indep f g s hf hg hnotin.1
      have hall1 : ∀ g2 ∈ rest, fixupKindValid (patchOneFixup g s).byteCode g2 = true := by
        intro g2 hg2
        have hne2 : g2.pos ≠ g.pos := by
          intro heq
          exact hnd.1 (heq ▸ List.mem_map_of_mem (·.pos) hg2)
        exact (patchOneFixup_indep g2 g s (hall g2 (List.mem_cons_of_mem g hg2)) hg hne2).1
      have hres := ih (patchOneFixup g s) f hf1 hall1 hnotin.2 hnd.2
      rw [List.foldl_cons]
      exact ⟨hres.1, hres.2.trans hv1⟩

theorem patchFixups_csize (fixups : List JumpToEndBrInfo) :
    ∀ (s : State), (fixups.foldl (fun s g => patchOneFixup g s) s).csize = s.csize := by
  induction fixups with
  | nil => intro s; rfl
  | cons g rest ih =>
      intro s
      rw [List.foldl_cons, ih (patchOneFixup g s), patchOneFixup_csize]

theorem patchFixups_spec (fixups : List JumpToEndBrInfo) :
    ∀ (s : State),
      (fixups.map (·.pos)).Nodup →
      (∀ f ∈ fixups, fixupKindValid s.byteCode f = true) →
      ∀ f ∈ fixups,
        ((f.ty = .isJump ∨ f.ty = .isJumpIf) →
          fixupValueAt (fixups.foldl (fun s g => patchOneFixup g s) s).byteCode f =
            some ((s.csize : Int) - (f.pos : Int))) ∧
        (f.ty = .isBrTable → ∀ old, fixupValueAt s.byteCode f = some old →
          fixupValueAt (fixups.foldl (fun s g => patchOneFixup g s) s).byteCode f =
            some ((s.csize : Int) + old - (f.pos : Int))) := by
  induction fixups with
  | nil => intro s _ _ f hf; exact absurd hf (List.not_mem_nil f)
  | cons g rest ih =>
      intro s hnd hall f hf
      rw [List.map_cons, List.nodup_cons] at hnd
      have hg := hall g (List.mem_cons_self g rest)
      have hall1 : ∀ g2 ∈ rest, fixupKindValid (patchOneFixup g s).byteCode g2 = true := by
        intro g2 hg2
        have hne2 : g2.pos ≠ g.pos := by
          intro heq
          exact hnd.1 (heq ▸ List.mem_map_of_mem (·.pos) hg2)
        exact (patchOneFixup_indep g2 g s (hall g2 (List.mem_cons_of_mem g hg2)) hg hne2).1
      rcases List.mem_cons.mp hf with heq | hmem
      · subst heq
        obtain ⟨hown1, hown2, hown3⟩ := patchOneFixup_own f s hg
        have hpres := patchFixups_preserve rest (patchOneFixup f s) f hown1 hall1 hnd.1 hnd.2
        rw [List.foldl_cons]
        constructor
        · intro hjk
          rw [hpres.2]
          exact hown2 hjk
        · intro hbt old hold
          rw [hpres.2]
          exact hown3 hbt old hold
      · have hres := ih (patchOneFixup g s) hnd.2 hall1 f hmem
        have hcs : (patchOneFixup g s).csize = s.csize := patchOneFixup_csize g s
        have hne : f.pos ≠ g.pos := by
          intro heq
          exact hnd.1 (heq ▸ List.mem_map_of_mem (·.pos) hmem)
        have hvpre := (patchOneFixup_indep f g s (hall f hf) hg hne).2
        rw [List.foldl_cons]
        constructor
        · intro hjk
          rw [(hres.1 hjk), hcs]
        · intro hbt old hold
          rw [hres.2 hbt old (by rw [hvpre]; exact hold), hcs]

theorem applyAddLocalVariableUsage_byteCode (idx : Nat) (s : State) :
    (applyAddLocalVariableUsage idx s).byteCode = s.byteCode := by
  unfold applyAddLocalVariableUsage
  split <;> rfl

theorem closeUsageOfLocal_byteCode (idx : Nat) (s : State) :
    (closeUsageOfLocal idx s).byteCode = s.byteCode := rfl

theorem pushVMStackAt_byteCode (t : ValueType) (pos idx : Nat) (s : State) :
    (pushVMStackAt t pos idx s).byteCode = s.byteCode := by
  unfold pushVMStackAt
  split <;> simp [applyAddLocalVariableUsage_byteCode]

theorem pushVMStack_byteCode (t : ValueType) (s : State) :
    (pushVMStack t s).2.byteCode = s.byteCode :=
  pushVMStackAt_byteCode t _ _ s

theorem popVMStackInfo_byteCode (s : State) :
    (popVMStackInfo s).2.byteCode = s.byteCode := by
  unfold popVMStackInfo
  rcases s.vmStack.getLast? with _ | info
  · rfl
  · simp only
    split
    · rw [closeUsageOfLocal_byteCode]
    · rfl

theorem popN_byteCode (n : Nat) : ∀ s : State, (popN n s).byteCode = s.byteCode := by
  induction n with
  | zero => intro s; rfl
  | succ n ih =>
      intro s
      rw [popN, ih, popVMStackInfo_byteCode]

theorem restoreVMStackBy_byteCode (bi : BlockInfo) (s : State) :
    (restoreVMStackBy bi s).byteCode = s.byteCode := by
  unfold restoreVMStackBy
  split <;> simp [popN_byteCode]

theorem harvestCatch_byteCode (bi : BlockInfo) (s : State) :
    (harvestCatch bi s).byteCode = s.byteCode := rfl

theorem pushByteCode_byteCode (r : ByteCodeRec) (s : State) :
    (pushByteCode r s).byteCode = s.byteCode ++ [r] := by
  cases r <;> rfl

theorem generateMoveCodeIfNeeds_extends (a b : Nat) (t : ValueType) (s : State) :
    ∃ ext, (generateMoveCodeIfNeeds a b t s).byteCode = s.byteCode ++ ext := by
  unfold generateMoveCodeIfNeeds
  split
  · exact ⟨[moveRecordFor t a b], pushByteCode_byteCode _ s⟩
  · exact ⟨[], (List.append_nil _).symm⟩

theorem popResultsWithMoves_extends (n : Nat) :
    ∀ s : State, ∃ ext, (popResultsWithMoves n s).byteCode = s.byteCode ++ ext := by
  induction n with
  | zero => intro s; exact ⟨[], (List.append_nil _).symm⟩
  | succ n ih =>
      intro s
      rw [popResultsWithMoves]
      obtain ⟨ext1, h1⟩ := generateMoveCodeIfNeeds_extends
        (peekVMStackInfo s).pos (peekVMStackInfo s).nonOptimizedPos (peekVMStackInfo s).valueType s
      obtain ⟨ext2, h2⟩ := ih (popVMStackInfo (generateMoveCodeIfNeeds
        (peekVMStackInfo s).pos (peekVMStackInfo s).nonOptimizedPos (peekVMStackInfo s).valueType s)).2
      refine ⟨ext1 ++ ext2, ?_⟩
      rw [h2, popVMStackInfo_byteCode, h1, List.append_assoc]

theorem keepBlockResultsIfNeeds_extends (bi : BlockInfo) (s : State) :
    ∃ ext, (keepBlockResultsIfNeeds bi s).byteCode = s.byteCode ++ ext := by
  unfold keepBlockResultsIfNeeds
  split
  · split
    · exact popResultsWithMoves_extends _ s
    · exact popResultsWithMoves_extends _ s
    · exact ⟨[], (List.append_nil _).symm⟩
  · exact ⟨[], (List.append_nil _).symm⟩

theorem fixupKindValid_append (b ext : List ByteCodeRec) (f : JumpToEndBrInfo)
    (h : fixupKindValid b f = true) : fixupKindValid (b ++ ext) f = true := by
  cases hty : f.ty
  case isJump =>
    have hjk : f.ty = .isJump ∨ f.ty = .isJumpIf := Or.inl hty
    rw [fixupKindValid_jump b f hjk] at h
    rcases hr : recordAt b f.pos with _ | r
    · rw [hr] at h; simp at h
    · rw [fixupKindValid_jump _ f hjk,
        show recordAt (b ++ ext) f.pos = some r from
          recordAtGo_append_of_some b ext r f.pos 0 hr]
      rw [hr] at h
      exact h
  case isJumpIf =>
    have hjk : f.ty = .isJump ∨ f.ty = .isJumpIf := Or.inr hty
    rw [fixupKindValid_jump b f hjk] at h
    rcases hr : recordAt b f.pos with _ | r
    · rw [hr] at h; simp at h
    · rw [fixupKindValid_jump _ f hjk,
        show recordAt (b ++ ext) f.pos = some r from
          recordAtGo_append_of_some b ext r f.pos 0 hr]
      rw [hr] at h
      exact h
  case isBrTable =>
    obtain ⟨st, cond, dflt, offs, hc, hv⟩ := fixupKindValid_brTable b f hty h
    exact fixupKindValid_brTable_intro _ f hty st cond dflt offs
      (recordContainingGo_append_of_some b ext f.pos 0 _ hc) hv

theorem fixupValueAt_append (b ext : List ByteCodeRec) (f : JumpToEndBrInfo)
    (h : fixupKindValid b f = true) : fixupValueAt (b ++ ext) f = fixupValueAt b f := by
  cases hty : f.ty
  case isJump =>
    have hjk : f.ty = .isJump ∨ f.ty = .isJumpIf := Or.inl hty
    rw [fixupKindValid_jump b f hjk] at h
    rcases hr : recordAt b f.pos with _ | r
    · rw [hr] at h; simp at h
    · rw [fixupValueAt_jump _ f hjk, fixupValueAt_jump b f hjk, hr,
        show recordAt (b ++ ext) f.pos = some r from
          recordAtGo_append_of_some b ext r f.pos 0 hr]
  case isJumpIf =>
    have hjk : f.ty = .isJump ∨ f.ty = .isJumpIf := Or.inr hty
    rw [fixupKindValid_jump b f hjk] at h
    rcases hr : recordAt b f.pos with _ | r
    · rw [hr] at h; simp at h
    · rw [fixupValueAt_jump _ f hjk, fixupValueAt_jump b f hjk, hr,
        show recordAt (b ++ ext) f.pos = some r from
          recordAtGo_append_of_some b ext r f.pos 0 hr]
  case isBrTable =>
    obtain ⟨st, cond, dflt, offs, hc, hv⟩ := fixupKindValid_brTable b f hty h
    rw [fixupValueAt_brTable _ f hty st _
        (recordContainingGo_append_of_some b ext f.pos 0 _ hc),
      fixupValueAt_brTable b f hty st _ hc]

theorem OnEndExpr_eq (s : State) (hbi : s.blockInfo.length ≠ 0)
    (hns : ¬((s.blockInfo.getLast?.getD default).byteCodeGenerationStopped ∧
      (s.blockInfo.getLast?.getD default).jumpToEndBrInfo.length = 0)) :
    OnEndExpr s = (s.blockInfo.getLast?.getD default).jumpToEndBrInfo.foldl
      (fun s f => patchOneFixup f s)
      (OnEndPrePatch (s.blockInfo.getLast?.getD default) s) := by
  simp only [OnEndExpr, OnEndPrePatch]
  rw [if_pos hbi, if_neg hns]

theorem foldl_pushVMStack_byteCode (ts : List ValueType) :
    ∀ s : State, (ts.foldl (fun s t => (pushVMStack t s).2) s).byteCode = s.byteCode := by
  induction ts with
  | nil => intro s; rfl
  | cons t ts ih =>
      intro s
      rw [List.foldl_cons, ih, pushVMStack_byteCode]

theorem OnEndPrePatch_extends (bi : BlockInfo) (s : State) :
    ∃ ext, (OnEndPrePatch bi s).byteCode = s.byteCode ++ ext := by
  obtain ⟨ext, hext⟩ := keepBlockResultsIfNeeds_extends bi
    (if bi.blockType = .tryCatch then
      harvestCatch bi { s with lastI32EqzPos := noI32Eqz, blockInfo := s.blockInfo.dropLast }
    else { s with lastI32EqzPos := noI32Eqz, blockInfo := s.blockInfo.dropLast })
  have h2 : (if bi.blockType = .tryCatch then
      harvestCatch bi { s with lastI32EqzPos := noI32Eqz, blockInfo := s.blockInfo.dropLast }
    else { s with lastI32EqzPos := noI32Eqz, blockInfo := s.blockInfo.dropLast }).byteCode
      = s.byteCode := by
    split
    · rw [harvestCatch_byteCode]
    · rfl
  rw [h2] at hext
  refine ⟨ext, ?_⟩
  unfold OnEndPrePatch
  cases hres : bi.shouldRestoreVMStackAtEnd
  · simp only [hres, Bool.false_eq_true, if_false]
    exact hext
  · rcases hrt : bi.returnValueType with _ | t | i
    · simp only [hres, if_true, hrt]
      rw [restoreVMStackBy_byteCode]
      exact hext
    · simp only [hres, if_true, hrt]
      rw [pushVMStack_byteCode, restoreVMStackBy_byteCode]
      exact hext
    · simp only [hres, if_true, hrt]
      rw [foldl_pushVMStack_byteCode, popN_byteCode, restoreVMStackBy_byteCode]
      exact hext

/-- C4 (amended): on a block `end` that still generates byte code, with the
block's fixup sites pairwise distinct and each referring to a record of its
kind, every jump and conditional-jump fixup is patched to
`current position - site`, while every br-table-entry fixup is patched to
`current position + stored value - site` (the stored value being the
offset of the jump site within the br-table record, added by
`emitBrTableCase`), not `current position - site` as claimed. -/
theorem claimC4Theorem (s : State)
    (hbi : s.blockInfo.length ≠ 0)
    (hns : ¬((s.blockInfo.getLast?.getD default).byteCodeGenerationStopped ∧
      (s.blockInfo.getLast?.getD default).jumpToEndBrInfo.length = 0))
    (hwf : fixupsWellFormed s.byteCode (s.blockInfo.getLast?.getD default).jumpToEndBrInfo) :
    ∀ f ∈ (s.blockInfo.getLast?.getD default).jumpToEndBrInfo,
      ((f.ty = .isJump ∨ f.ty = .isJumpIf) →
        fixupValueAt (OnEndExpr s).byteCode f =
          some (((OnEndExpr s).csize : Int) - (f.pos : Int))) ∧
      (f.ty = .isBrTable → ∀ old, fixupValueAt s.byteCode f = some old →
        fixupValueAt (OnEndExpr s).byteCode f =
          some (((OnEndExpr s).csize : Int) + old - (f.pos : Int))) := by
  intro f hf
  obtain ⟨ext, hext⟩ := OnEndPrePatch_extends (s.blockInfo.getLast?.getD default) s
  have hval4 : ∀ g ∈ (s.blockInfo.getLast?.getD default).jumpToEndBrInfo,
      fixupKindValid (OnEndPrePatch (s.blockInfo.getLast?.getD default) s).byteCode g = true := by
    intro g hg
    rw [hext]
    exact fixupKindValid_append _ _ _ (hwf.2 g hg)
  have hspec := patchFixups_spec (s.blockInfo.getLast?.getD default).jumpToEndBrInfo
    (OnEndPrePatch (s.blockInfo.getLast?.getD default) s) hwf.1 hval4 f hf
  have hcs4 : (OnEndPrePatch (s.blockInfo.getLast?.getD default) s).csize =
      ((s.blockInfo.getLast?.getD default).jumpToEndBrInfo.foldl
        (fun s f => patchOneFixup f s)
        (OnEndPrePatch (s.blockInfo.getLast?.getD default) s)).csize :=
    (patchFixups_csize _ _).symm
  rw [OnEndExpr_eq s hbi hns]
  constructor
  · intro hjk
    rw [hspec.1 hjk, hcs4]
  · intro hbt old hold
    have hold4 : fixupValueAt
        (OnEndPrePatch (s.blockInfo.getLast?.getD default) s).byteCode f = some old := by
      rw [hext, fixupValueAt_append _ _ _ (hwf.2 f hf)]
      exact hold
    rw [hspec.2 hbt old hold4, hcs4]

/-- C4 counterexample: at the `end` of the block of scenario S4 (a block
containing a `br_table`), the br-table fixups are patched to
`current position + stored value - site`, not `current position - site`:
the fixup at site 40 ends up holding 32 while the claim predicts 8. -/
theorem claimC4Counterexample : ¬claimC4Statement := by
  intro h
  have := h stateBeforeEndBrT ⟨.isBrTable, 40⟩
    (by intro he; have hl := congrArg List.length he; revert hl; decide)
    (by decide)
  exact absurd this (by decide)

/-- C4 witness: the amended theorem at the S4 state, for the br-table
fixup at site 40 whose stored value is 24. -/
theorem claimC4Witness :
    fixupValueAt (OnEndExpr stateBeforeEndBrT).byteCode ⟨.isBrTable, 40⟩ =
      some (((OnEndExpr stateBeforeEndBrT).csize : Int) + 24 - 40) :=
  (claimC4Theorem stateBeforeEndBrT (by decide) (by decide)
    (by unfold fixupsWellFormed; decide)
    ⟨.isBrTable, 40⟩ (by decide)).2 rfl 24 (by decide)

theorem applySeenBranch_byteCode (s : State) :
    (applySeenBranch s).byteCode = s.byteCode := by
  unfold applySeenBranch
  split <;> rfl

theorem applySeenBranch_lastEqz (s : State) :
    (applySeenBranch s).lastI32EqzPos = s.lastI32EqzPos := by
  unfold applySeenBranch
  split <;> rfl

theorem applySeenBranch_vmStack (s : State) :
    (applySeenBranch s).vmStack = s.vmStack := by
  unfold applySeenBranch
  split <;> rfl

theorem popVMStackInfo_fst (s : State) :
    (popVMStackInfo s).1 = s.vmStack.getLast?.getD default := by
  unfold popVMStackInfo
  rcases h : s.vmStack.getLast? with _ | info
  · rfl
  · rfl

theorem popVMStackInfo_lastEqz (s : State) :
    (popVMStackInfo s).2.lastI32EqzPos = s.lastI32EqzPos := by
  unfold popVMStackInfo
  rcases h : s.vmStack.getLast? with _ | info
  · rfl
  · simp only
    split
    · rw [show ∀ s0 : State, (closeUsageOfLocal info.localIndex s0).lastI32EqzPos
          = s0.lastI32EqzPos from fun _ => rfl]
    · rfl

theorem popVMStackInfo_set_lastEqz (s : State) (x : Nat) :
    popVMStackInfo { s with lastI32EqzPos := x } =
      ((popVMStackInfo s).1, { (popVMStackInfo s).2 with lastI32EqzPos := x }) := by
  unfold popVMStackInfo
  rcases h : s.vmStack.getLast? with _ | info
  · simp only [show ({ s with lastI32EqzPos := x } : State).vmStack = s.vmStack from rfl, h]
  · simp only [show ({ s with lastI32EqzPos := x } : State).vmStack = s.vmStack from rfl, h]
    split
    · rfl
    · rfl

theorem modifyRecordAtGo_append (front : List ByteCodeRec) (r : ByteCodeRec)
    (rest : List ByteCodeRec) (f : ByteCodeRec → ByteCodeRec) :
    ∀ cur, modifyRecordAtGo (cur + byteCodeSizeOf front) f cur (front ++ r :: rest) =
      front ++ f r :: rest := by
  induction front with
  | nil => intro cur; simp [modifyRecordAtGo, byteCodeSizeOf_nil]
  | cons g fr ih =>
      intro cur
      rw [byteCodeSizeOf_cons]
      simp only [List.cons_append, modifyRecordAtGo, List.append_eq]
      have hne : ¬(cur = cur + (recordSize g + byteCodeSizeOf fr)) := by
        have := recordSize_pos g; omega
      rw [if_neg hne]
      have h := ih (cur + recordSize g)
      rw [show cur + (recordSize g + byteCodeSizeOf fr)
            = cur + recordSize g + byteCodeSizeOf fr by omega]
      rw [h]

theorem modifyRecordAt_append (front : List ByteCodeRec) (r : ByteCodeRec)
    (rest : List ByteCodeRec) (f : ByteCodeRec → ByteCodeRec) :
    modifyRecordAt (front ++ r :: rest) (byteCodeSizeOf front) f = front ++ f r :: rest := by
  have := modifyRecordAtGo_append front r rest f 0
  simpa [modifyRecordAt] using this

theorem eqzCount_filter (b : List ByteCodeRec) : eqzCount b = (b.filter isEqzRec).length := by
  unfold eqzCount
  congr 1

theorem eqzCount_append (a b : List ByteCodeRec) :
    eqzCount (a ++ b) = eqzCount a + eqzCount b := by
  simp [eqzCount_filter, List.filter_append]

theorem eqzCount_nil : eqzCount [] = 0 := rfl

theorem eqzCount_cons_not (r : ByteCodeRec) (l : List ByteCodeRec) (h : isEqzRec r = false) :
    eqzCount (r :: l) = eqzCount l := by
  simp [eqzCount_filter, List.filter_cons, h]

theorem eqzCount_moves (ext : List ByteCodeRec) (h : ∀ r ∈ ext, isMoveRec r = true) :
    eqzCount ext = 0 := by
  induction ext with
  | nil => rfl
  | cons r rest ih =>
      have hr := h r (List.mem_cons_self r rest)
      have hne : isEqzRec r = false := by
        cases r <;> simp_all [isMoveRec, isEqzRec]
      rw [eqzCount_cons_not r rest hne, ih (fun g hg => h g (List.mem_cons_of_mem r hg))]

theorem isMoveRec_moveRecordFor (t : ValueType) (a b : Nat) :
    isMoveRec (moveRecordFor t a b) = true := by
  cases t <;> rfl

theorem generateMoveCodeIfNeeds_moves (a b : Nat) (t : ValueType) (s : State) :
    ∃ ext, (generateMoveCodeIfNeeds a b t s).byteCode = s.byteCode ++ ext ∧
      ∀ r ∈ ext, isMoveRec r = true := by
  unfold generateMoveCodeIfNeeds
  split
  · refine ⟨[moveRecordFor t a b], pushByteCode_byteCode _ s, ?_⟩
    intro r hr
    rw [List.mem_singleton] at hr
    subst hr
    exact isMoveRec_moveRecordFor t a b
  · exact ⟨[], (List.append_nil _).symm, by intro r hr; simp at hr⟩

theorem emitDropMoves_moves (rev : List VMStackInfo) (d : Nat) :
    ∀ (k : Nat) (s : State), ∃ ext, (emitDropMoves rev d k s).byteCode = s.byteCode ++ ext ∧
      ∀ r ∈ ext, isMoveRec r = true := by
  intro k
  induction k with
  | zero =>
      intro s
      exact generateMoveCodeIfNeeds_moves _ _ _ s
  | succ k ih =>
      intro s
      rw [emitDropMoves]
      obtain ⟨e1, h1, hm1⟩ := generateMoveCodeIfNeeds_moves
        (rev.getD (k + 1) default).pos (rev.getD (k + 1 + d) default).nonOptimizedPos
        (rev.getD (k + 1) default).valueType s
      obtain ⟨e2, h2, hm2⟩ := ih (generateMoveCodeIfNeeds (rev.getD (k + 1) default).pos
        (rev.getD (k + 1 + d) default).nonOptimizedPos (rev.getD (k + 1) default).valueType s)
      refine ⟨e1 ++ e2, ?_, ?_⟩
      · rw [h2, h1, List.append_assoc]
      · intro r hr
        rcases List.mem_append.mp hr with h | h
        · exact hm1 r h
        · exact hm2 r h

theorem generateMoveValuesCodeRegardToDrop_moves (ds : Nat × Nat) (s : State) :
    ∃ ext, (generateMoveValuesCodeRegardToDrop ds s).byteCode = s.byteCode ++ ext ∧
      ∀ r ∈ ext, isMoveRec r = true := by
  unfold generateMoveValuesCodeRegardToDrop
  rcases h1 : findExactAllocIdx ds.2 s.vmStack.reverse with _ | a
  · simp only [h1]
    exact ⟨[], (List.append_nil _).symm, by intro r hr; simp at hr⟩
  · rcases h2 : findExactAllocIdx ds.1 s.vmStack.reverse with _ | b
    · simp only [h1, h2]
      exact ⟨[], (List.append_nil _).symm, by intro r hr; simp at hr⟩
    · simp only [h1, h2]
      exact emitDropMoves_moves s.vmStack.reverse (b - a) a s

theorem loopParamCanon_moves :
    ∀ (k : Nat) (l : List VMStackInfo) (s : State),
      ∃ ext, (loopParamCanon k l s).2.byteCode = s.byteCode ++ ext ∧
        ∀ r ∈ ext, isMoveRec r = true := by
  intro k
  induction k with
  | zero =>
      intro l s
      exact ⟨[], (List.append_nil _).symm, by intro r hr; simp at hr⟩
  | succ k ih =>
      intro l s
      cases l with
      | nil => exact ⟨[], (List.append_nil _).symm, by intro r hr; simp at hr⟩
      | cons e rest =>
          rw [loopParamCanon]
          obtain ⟨e1, h1, hm1⟩ :=
            generateMoveCodeIfNeeds_moves e.pos e.nonOptimizedPos e.valueType s
          obtain ⟨e2, h2, hm2⟩ := ih rest
            (generateMoveCodeIfNeeds e.pos e.nonOptimizedPos e.valueType s)
          refine ⟨e1 ++ e2, ?_, ?_⟩
          · simp only
            rw [h2, h1, List.append_assoc]
          · intro r hr
            rcases List.mem_append.mp hr with h | h
            · exact hm1 r h
            · exact hm2 r h

theorem closeUsageOfLocal_byteCode_eq (idx : Nat) (s : State) :
    (closeUsageOfLocal idx s).byteCode = s.byteCode := rfl

theorem blockParamCanonCtor_moves :
    ∀ (k : Nat) (l : List VMStackInfo),
      ∃ ext, (∀ r ∈ ext, isMoveRec r = true) ∧
        ∀ s : State, (blockParamCanonCtor k l s).2.byteCode = s.byteCode ++ ext := by
  intro k
  induction k with
  | zero =>
      intro l
      exact ⟨[], by intro r hr; simp at hr, fun s => (List.append_nil _).symm⟩
  | succ k ih =>
      intro l
      cases l with
      | nil => exact ⟨[], by intro r hr; simp at hr, fun s => (List.append_nil _).symm⟩
      | cons e rest =>
          obtain ⟨ext2, hm2, h2⟩ := ih rest
          by_cases hc : e.pos ≠ e.nonOptimizedPos
          · refine ⟨moveRecordFor e.valueType e.pos e.nonOptimizedPos :: ext2, ?_, ?_⟩
            · intro r hr
              rcases List.mem_cons.mp hr with h | h
              · subst h; exact isMoveRec_moveRecordFor _ _ _
              · exact hm2 r h
            · intro s
              rw [blockParamCanonCtor]
              rw [if_pos hc]
              simp only
              rw [h2]
              have hgm : (generateMoveCodeIfNeeds e.pos e.nonOptimizedPos e.valueType s).byteCode
                  = s.byteCode ++ [moveRecordFor e.valueType e.pos e.nonOptimizedPos] := by
                unfold generateMoveCodeIfNeeds
                rw [if_pos hc]
                exact pushByteCode_byteCode _ s
              split
              · rw [closeUsageOfLocal_byteCode_eq, hgm, List.append_assoc]
                rfl
              · rw [hgm, List.append_assoc]
                rfl
          · refine ⟨ext2, hm2, ?_⟩
            intro s
            rw [blockParamCanonCtor]
            rw [if_neg hc]
            simp only
            rw [h2]

theorem generateEndCode_ext (clear : Bool) (s : State) :
    ∃ ext, (generateEndCode clear s).byteCode = s.byteCode ++ ext ∧ eqzCount ext = 0 := by
  unfold generateEndCode
  split
  · exact ⟨[], (List.append_nil _).symm, rfl⟩
  · refine ⟨[.endRec ?_], ?_, ?_⟩
    case refine_2 =>
      split
      · rw [popN_byteCode, pushByteCode_byteCode]
        exact rfl
      · rw [pushByteCode_byteCode]
    case refine_3 => rfl

theorem mkBlockInfo_pair (bt : BlockType) (sig : SigType) (s1 s2 : State)
    (hvm : s1.vmStack = s2.vmStack) (hft : s1.functionTypes = s2.functionTypes) :
    ∃ ext, (∀ r ∈ ext, isMoveRec r = true) ∧
      (mkBlockInfo bt sig s1).2.byteCode = s1.byteCode ++ ext ∧
      (mkBlockInfo bt sig s2).2.byteCode = s2.byteCode ++ ext := by
  unfold mkBlockInfo
  rcases sig with _ | t | i
  · exact ⟨[], by intro r hr; simp at hr,
      (List.append_nil _).symm, (List.append_nil _).symm⟩
  · exact ⟨[], by intro r hr; simp at hr,
      (List.append_nil _).symm, (List.append_nil _).symm⟩
  · have hfty : s1.ftypeAt i = s2.ftypeAt i := by
      unfold State.ftypeAt
      rw [hft]
    simp only
    by_cases hp : (s1.ftypeAt i).param.length ≠ 0
    · obtain ⟨ext, hm, hext⟩ :=
        blockParamCanonCtor_moves (s1.ftypeAt i).param.length s1.vmStack.reverse
      refine ⟨ext, hm, ?_, ?_⟩
      · rw [if_pos hp]
        exact hext s1
      · rw [← hfty, ← hvm, if_pos hp]
        exact hext s2
    · refine ⟨[], by intro r hr; simp at hr, ?_, ?_⟩
      · rw [if_neg hp]
        exact (List.append_nil _).symm
      · rw [← hfty, ← hvm, if_neg hp]
        exact (List.append_nil _).symm

theorem OnBrIfExpr_eq_brIfEmit (depth : Nat) (s : State) :
    OnBrIfExpr depth s =
      (let s0 := applySeenBranch s
       let r := popVMStack s0
       let s2 := r.2
       let isInverted := canBeInverted s2 r.1
       let stackPos := if isInverted then trackedEqzSrc s2 else r.1
       let s3 :=
         if isInverted then
           { s2 with byteCode := resizeByteCode s2.byteCode s2.lastI32EqzPos, lastI32EqzPos := noI32Eqz }
         else s2
       brIfEmit depth isInverted stackPos s3) := rfl

theorem OnIfExpr_eq_ifEmit (sig : SigType) (s : State) :
    OnIfExpr sig s =
      (let r := popVMStack s
       let s2 := r.2
       let isInverted := canBeInverted s2 r.1
       let stackPos := if isInverted then trackedEqzSrc s2 else r.1
       let s3 :=
         if isInverted then
           { s2 with byteCode := resizeByteCode s2.byteCode s2.lastI32EqzPos, lastI32EqzPos := noI32Eqz }
         else s2
       ifEmit sig isInverted stackPos s3) := rfl

theorem modifyBlockInBr_byteCode (depth : Nat) (f : BlockInfo → BlockInfo) (s : State) :
    (modifyBlockInBr depth f s).byteCode = s.byteCode := rfl

theorem ifEmit_byteCode (sig : SigType) (inv : Bool) (sp : Nat) (s : State) :
    (ifEmit sig inv sp s).byteCode =
      (mkBlockInfo .ifElse sig s).2.byteCode ++
        [if inv then .jumpIfTrue sp 0 else .jumpIfFalse sp 0] := by
  unfold ifEmit
  rw [applySeenBranch_byteCode, pushByteCode_byteCode]

theorem eqzCount_cons_jumpIfTrue (sp : Nat) (off : Int) (l : List ByteCodeRec) :
    eqzCount (.jumpIfTrue sp off :: l) = eqzCount l := by
  simp [eqzCount_filter, List.filter_cons, isEqzRec]

theorem eqzCount_cons_jumpIfFalse (sp : Nat) (off : Int) (l : List ByteCodeRec) :
    eqzCount (.jumpIfFalse sp off :: l) = eqzCount l := by
  simp [eqzCount_filter, List.filter_cons, isEqzRec]

theorem eqzCount_jump_singleton (off : Int) : eqzCount [.jump off] = 0 := rfl

theorem brIfEmit_shape (depth : Nat) (sp : Nat) (s : State) :
    ∃ brRec tail2,
      (brIfEmit depth true sp s).byteCode = s.byteCode ++ brRec :: tail2 ∧
      eqzCount (brIfEmit depth true sp s).byteCode = eqzCount s.byteCode ∧
      ∃ pol, condBranchInfo brRec = some (pol, sp) := by
  unfold brIfEmit
  simp only [eq_self_iff_true, if_true]
  by_cases h1 : s.blockInfo.length = depth
  · rw [if_pos h1]
    obtain ⟨ext, hend, hec⟩ := generateEndCode_ext false
      (pushByteCode (.jumpIfTrue sp
        ((sizeofJumpIf + sizeofEnd + 2 * s.currentFunctionType.result.length : Nat) : Int)) s)
    simp only [hend, pushByteCode_byteCode, List.append_assoc, List.singleton_append,
      List.cons_append, List.nil_append,
      show s.csize = byteCodeSizeOf s.byteCode from rfl,
      modifyRecordAt_append, setJumpOffset]
    refine ⟨_, _, rfl, ?_, ⟨true, rfl⟩⟩
    rw [eqzCount_append, eqzCount_cons_jumpIfTrue, hec]
    omega
  · rw [if_neg h1]
    by_cases h2 : (dropStackValuesBeforeBrIfNeeds depth s).2 ≠ 0
    · rw [if_pos h2]
      obtain ⟨ext1, hmv, hm1⟩ := generateMoveValuesCodeRegardToDrop_moves
        (dropStackValuesBeforeBrIfNeeds depth s)
        (pushByteCode (.jumpIfTrue sp 0) s)
      split
      all_goals
        simp only [modifyBlockInBr_byteCode, pushByteCode_byteCode, hmv,
          List.append_assoc, List.singleton_append, List.cons_append, List.nil_append,
          show s.csize = byteCodeSizeOf s.byteCode from rfl,
          modifyRecordAt_append, setJumpOffset]
      all_goals
        refine ⟨_, _, rfl, ?_, ⟨true, rfl⟩⟩
      all_goals
        rw [eqzCount_append, eqzCount_cons_jumpIfTrue, eqzCount_append,
          eqzCount_moves ext1 hm1, eqzCount_jump_singleton]
      all_goals omega
    · rw [if_neg h2]
      by_cases h3 : (findBlockInfoInBr depth s).blockType = .loop ∧
          (findBlockInfoInBr depth s).returnValueType.isIndex ∧
          (match (findBlockInfoInBr depth s).returnValueType with
           | .idx i => (s.ftypeAt i).param.length
           | _ => 0) ≠ 0
      · rw [if_pos h3]
        obtain ⟨h3a, h3b, h3c⟩ := h3
        rcases hrt : (findBlockInfoInBr depth s).returnValueType with _ | t | i
        · rw [hrt] at h3b
          simp [SigType.isIndex] at h3b
        · rw [hrt] at h3b
          simp [SigType.isIndex] at h3b
        simp only [hrt]
        obtain ⟨ext1, hlc, hm1⟩ := loopParamCanon_moves
          ((pushByteCode (.jumpIfTrue sp 0) s).ftypeAt i).param.length
          (pushByteCode (.jumpIfTrue sp 0) s).vmStack.reverse
          (pushByteCode (.jumpIfTrue sp 0) s)
        split
        all_goals
          simp only [modifyBlockInBr_byteCode, pushByteCode_byteCode, hlc,
            List.append_assoc, List.singleton_append, List.cons_append, List.nil_append,
            show s.csize = byteCodeSizeOf s.byteCode from rfl,
            modifyRecordAt_append, setJumpOffset]
        all_goals
          refine ⟨_, _, rfl, ?_, ⟨true, rfl⟩⟩
        all_goals
          rw [eqzCount_append, eqzCount_cons_jumpIfTrue, eqzCount_append,
            eqzCount_moves ext1 hm1, eqzCount_jump_singleton]
        all_goals omega
      · rw [if_neg h3]
        split
        all_goals
          simp only [modifyBlockInBr_byteCode, pushByteCode_byteCode,
            List.append_assoc, List.singleton_append, List.cons_append, List.nil_append]
        all_goals
          refine ⟨_, _, rfl, ?_, ⟨false, rfl⟩⟩
        all_goals
          rw [eqzCount_append, eqzCount_cons_jumpIfFalse, eqzCount_nil]
        all_goals omega

theorem eqzCount_eqz_singleton (a b : Nat) : eqzCount [.i32Eqz a b] = 1 := rfl

theorem fusion_setup (s : State) (src dst : Nat)
    (hr : recordAt s.byteCode s.lastI32EqzPos = some (.i32Eqz src dst))
    (hadj : s.lastI32EqzPos + sizeofI32Eqz = s.csize) :
    ∃ front, s.byteCode = front ++ [.i32Eqz src dst] ∧
      byteCodeSizeOf front = s.lastI32EqzPos ∧
      resizeByteCode s.byteCode s.lastI32EqzPos = front := by
  obtain ⟨front, hb, hsz⟩ := recordAt_last_decomp s.byteCode _ s.lastI32EqzPos hr
    (by rw [show recordSize (.i32Eqz src dst) = sizeofI32Eqz from rfl]; exact hadj)
  refine ⟨front, hb, hsz, ?_⟩
  rw [hb, ← hsz]
  exact resizeByteCode_append front _

theorem canBeInverted_true (s2 : State) (src dst c : Nat)
    (hr : recordAt s2.byteCode s2.lastI32EqzPos = some (.i32Eqz src dst))
    (hadj : s2.lastI32EqzPos + sizeofI32Eqz = s2.csize)
    (hc : c = dst) :
    canBeInverted s2 c = true := by
  unfold canBeInverted
  rw [hr, hc]
  simp [hadj]

theorem sizeofI32Eqz_le_sizeMax : sizeofI32Eqz ≤ sizeMax := by decide

theorem canBeInverted_false_noEqz (s2 : State) (c : Nat)
    (h : s2.lastI32EqzPos = noI32Eqz) (hcs : s2.csize < sizeMax) :
    canBeInverted s2 c = false := by
  unfold canBeInverted
  rw [h]
  have hsum : noI32Eqz + sizeofI32Eqz = sizeMax := by
    have := sizeofI32Eqz_le_sizeMax
    unfold noI32Eqz
    omega
  have hne : ¬(noI32Eqz + sizeofI32Eqz = s2.csize) := by
    rw [hsum]
    omega
  simp [hne]

theorem OnBrIfExpr_fusion (s : State) (src dst depth : Nat)
    (hr : recordAt s.byteCode s.lastI32EqzPos = some (.i32Eqz src dst))
    (hadj : s.lastI32EqzPos + sizeofI32Eqz = s.csize)
    (hpos : (s.vmStack.getLast?.getD default).pos = dst) :
    ∃ front brRec tail pol,
      s.byteCode = front ++ [.i32Eqz src dst] ∧
      (OnBrIfExpr depth s).byteCode = front ++ brRec :: tail ∧
      condBranchInfo brRec = some (pol, src) ∧
      eqzCount (OnBrIfExpr depth s).byteCode + 1 = eqzCount s.byteCode := by
  obtain ⟨front, hb, hszf, hres⟩ := fusion_setup s src dst hr hadj
  have hb2 : (popVMStack (applySeenBranch s)).2.byteCode = s.byteCode := by
    show (popVMStackInfo _).2.byteCode = _
    rw [popVMStackInfo_byteCode, applySeenBranch_byteCode]
  have hl2 : (popVMStack (applySeenBranch s)).2.lastI32EqzPos = s.lastI32EqzPos := by
    show (popVMStackInfo _).2.lastI32EqzPos = _
    rw [popVMStackInfo_lastEqz, applySeenBranch_lastEqz]
  have h21 : (popVMStack (applySeenBranch s)).1 = dst := by
    show (popVMStackInfo _).1.pos = _
    rw [popVMStackInfo_fst, applySeenBranch_vmStack, hpos]
  have hinv : canBeInverted (popVMStack (applySeenBranch s)).2
      (popVMStack (applySeenBranch s)).1 = true := by
    apply canBeInverted_true _ src dst _ _ _ h21
    · rw [hb2, hl2]
      exact hr
    · rw [hl2]
      show _ = byteCodeSizeOf (popVMStack (applySeenBranch s)).2.byteCode
      rw [hb2]
      exact hadj
  have htr : trackedEqzSrc (popVMStack (applySeenBranch s)).2 = src := by
    unfold trackedEqzSrc
    rw [hb2, hl2, hr]
  rw [OnBrIfExpr_eq_brIfEmit depth s]
  simp only [hinv, eq_self_iff_true, if_true, htr]
  obtain ⟨brRec, tail2, hshape, heqz, pol, hcond⟩ := brIfEmit_shape depth src
    { (popVMStack (applySeenBranch s)).2 with
      byteCode := resizeByteCode (popVMStack (applySeenBranch s)).2.byteCode
        (popVMStack (applySeenBranch s)).2.lastI32EqzPos,
      lastI32EqzPos := noI32Eqz }
  have hfb : ({ (popVMStack (applySeenBranch s)).2 with
      byteCode := resizeByteCode (popVMStack (applySeenBranch s)).2.byteCode
        (popVMStack (applySeenBranch s)).2.lastI32EqzPos,
      lastI32EqzPos := noI32Eqz } : State).byteCode = front := by
    show resizeByteCode _ _ = front
    rw [hb2, hl2]
    exact hres
  rw [hfb] at hshape heqz
  refine ⟨front, brRec, tail2, pol, hb, hshape, hcond, ?_⟩
  rw [heqz, hb, eqzCount_append, eqzCount_eqz_singleton]

theorem OnIfExpr_fusion (s : State) (src dst : Nat) (sig : SigType)
    (hr : recordAt s.byteCode s.lastI32EqzPos = some (.i32Eqz src dst))
    (hadj : s.lastI32EqzPos + sizeofI32Eqz = s.csize)
    (hpos : (s.vmStack.getLast?.getD default).pos = dst)
    (hcs : s.csize < sizeMax) :
    ∃ front ext,
      s.byteCode = front ++ [.i32Eqz src dst] ∧
      (∀ r ∈ ext, isMoveRec r = true) ∧
      (OnIfExpr sig s).byteCode = front ++ (ext ++ [.jumpIfTrue src 0]) ∧
      (OnIfExpr sig { s with lastI32EqzPos := noI32Eqz }).byteCode =
        front ++ ([.i32Eqz src dst] ++ (ext ++ [.jumpIfFalse dst 0])) := by
  obtain ⟨front, hb, hszf, hres⟩ := fusion_setup s src dst hr hadj
  have hb2 : (popVMStack s).2.byteCode = s.byteCode := popVMStackInfo_byteCode s
  have hl2 : (popVMStack s).2.lastI32EqzPos = s.lastI32EqzPos := popVMStackInfo_lastEqz s
  have h21 : (popVMStack s).1 = dst := by
    show (popVMStackInfo s).1.pos = _
    rw [popVMStackInfo_fst, hpos]
  have hinv : canBeInverted (popVMStack s).2 (popVMStack s).1 = true := by
    apply canBeInverted_true _ src dst _ _ _ h21
    · rw [hb2, hl2]
      exact hr
    · rw [hl2]
      show _ = byteCodeSizeOf (popVMStack s).2.byteCode
      rw [hb2]
      exact hadj
  have htr : trackedEqzSrc (popVMStack s).2 = src := by
    unfold trackedEqzSrc
    rw [hb2, hl2, hr]
  -- the suppressed run
  have hpopSup : popVMStack { s with lastI32EqzPos := noI32Eqz } =
      ((popVMStack s).1, { (popVMStack s).2 with lastI32EqzPos := noI32Eqz }) := by
    show ((popVMStackInfo { s with lastI32EqzPos := noI32Eqz }).1.pos,
      (popVMStackInfo { s with lastI32EqzPos := noI32Eqz }).2) = _
    rw [popVMStackInfo_set_lastEqz]
    rfl
  have hninv : canBeInverted { (popVMStack s).2 with lastI32EqzPos := noI32Eqz }
      (popVMStack s).1 = false := by
    apply canBeInverted_false_noEqz
    · rfl
    · show byteCodeSizeOf ({ (popVMStack s).2 with
        lastI32EqzPos := noI32Eqz } : State).byteCode < sizeMax
      rw [show ({ (popVMStack s).2 with lastI32EqzPos := noI32Eqz } : State).byteCode
          = (popVMStack s).2.byteCode from rfl, hb2]
      exact hcs
  -- states fed to mkBlockInfo in the two runs
  have hvm3 : ({ (popVMStack s).2 with
      byteCode := resizeByteCode (popVMStack s).2.byteCode (popVMStack s).2.lastI32EqzPos,
      lastI32EqzPos := noI32Eqz } : State).vmStack =
      ({ (popVMStack s).2 with lastI32EqzPos := noI32Eqz } : State).vmStack := rfl
  have hft3 : ({ (popVMStack s).2 with
      byteCode := resizeByteCode (popVMStack s).2.byteCode (popVMStack s).2.lastI32EqzPos,
      lastI32EqzPos := noI32Eqz } : State).functionTypes =
      ({ (popVMStack s).2 with lastI32EqzPos := noI32Eqz } : State).functionTypes := rfl
  obtain ⟨ext, hm, hmk1, hmk2⟩ := mkBlockInfo_pair .ifElse sig
    { (popVMStack s).2 with
      byteCode := resizeByteCode (popVMStack s).2.byteCode (popVMStack s).2.lastI32EqzPos,
      lastI32EqzPos := noI32Eqz }
    { (popVMStack s).2 with lastI32EqzPos := noI32Eqz } hvm3 hft3
  refine ⟨front, ext, hb, hm, ?_, ?_⟩
  · rw [OnIfExpr_eq_ifEmit sig s]
    simp only [hinv, eq_self_iff_true, if_true, htr]
    rw [ifEmit_byteCode, hmk1]
    rw [show ({ (popVMStack s).2 with
        byteCode := resizeByteCode (popVMStack s).2.byteCode (popVMStack s).2.lastI32EqzPos,
        lastI32EqzPos := noI32Eqz } : State).byteCode
        = resizeByteCode (popVMStack s).2.byteCode (popVMStack s).2.lastI32EqzPos from rfl]
    rw [hb2, hl2, hres, List.append_assoc]
    rfl
  · rw [OnIfExpr_eq_ifEmit sig { s with lastI32EqzPos := noI32Eqz }]
    simp only [hpopSup, hninv, Bool.false_eq_true, if_false]
    rw [ifEmit_byteCode, hmk2]
    rw [show ({ (popVMStack s).2 with lastI32EqzPos := noI32Eqz } : State).byteCode
        = (popVMStack s).2.byteCode from rfl]
    rw [hb2, h21, hb, List.append_assoc, List.append_assoc]
    rfl

/-- C1 (amended): conditional-branch/eqz fusion is triggered by the
`m_lastI32EqzPos` tracker — the tracked `i32.eqz` must still be the final
record of the buffer (`lastI32EqzPos + sizeof(I32Eqz) == currentByteCodeSize`)
and its destination must equal the branch condition — not by mere physical
adjacency as the claim states (the tracker is cleared at every block `end`,
see C10).  When the guard holds: `if` rewinds the buffer past the eqz and
emits `jump-if-true` on the eqz's source where the unfused run emits
`jump-if-false` on the eqz's destination (with identical parameter-move
records in between); `br_if` likewise rewinds and emits a conditional
branch on the eqz's source (inverted polarity per path), removing exactly
one `i32.eqz` record. -/
theorem claimC1Theorem (s : State) (src dst : Nat)
    (hr : recordAt s.byteCode s.lastI32EqzPos = some (.i32Eqz src dst))
    (hadj : s.lastI32EqzPos + sizeofI32Eqz = s.csize)
    (hpos : (s.vmStack.getLast?.getD default).pos = dst)
    (hcs : s.csize < sizeMax) :
    (∀ sig : SigType, ∃ front ext,
      s.byteCode = front ++ [.i32Eqz src dst] ∧
      (∀ r ∈ ext, isMoveRec r = true) ∧
      (OnIfExpr sig s).byteCode = front ++ (ext ++ [.jumpIfTrue src 0]) ∧
      (OnIfExpr sig { s with lastI32EqzPos := noI32Eqz }).byteCode =
        front ++ ([.i32Eqz src dst] ++ (ext ++ [.jumpIfFalse dst 0]))) ∧
    (∀ depth : Nat, ∃ front brRec tail pol,
      s.byteCode = front ++ [.i32Eqz src dst] ∧
      (OnBrIfExpr depth s).byteCode = front ++ brRec :: tail ∧
      condBranchInfo brRec = some (pol, src) ∧
      eqzCount (OnBrIfExpr depth s).byteCode + 1 = eqzCount s.byteCode) :=
  ⟨fun sig => OnIfExpr_fusion s src dst sig hr hadj hpos hcs,
   fun depth => OnBrIfExpr_fusion s src dst depth hr hadj hpos⟩

/-- C1 counterexample: in scenario `block (param i32) ... i32.eqz end br_if`
(state `stateBeforeBrIf`), the `i32.eqz` is the physically preceding record
and its destination matches the branch condition, yet `OnBrIfExpr` does not
fuse (the block `end` cleared the tracker): the eqz record stays in the
buffer and the branch is emitted unfused. -/
theorem claimC1Counterexample : ¬claimC1Statement := by
  intro h
  have := h stateBeforeBrIf 0 0 4 (by decide) (by decide) (by decide)
  exact absurd this (by decide)

/-- C1 witness: the amended theorem applied to the fusing scenario
`local.get 0; i32.eqz; br_if 0` at the `br_if`, branch depth 0. -/
theorem claimC1Witness :
    ∃ front brRec tail pol,
      stateBeforeBrIfFuse.byteCode = front ++ [.i32Eqz 0 4] ∧
      (OnBrIfExpr 0 stateBeforeBrIfFuse).byteCode = front ++ brRec :: tail ∧
      condBranchInfo brRec = some (pol, 0) ∧
      eqzCount (OnBrIfExpr 0 stateBeforeBrIfFuse).byteCode + 1 =
        eqzCount stateBeforeBrIfFuse.byteCode :=
  (claimC1Theorem stateBeforeBrIfFuse 0 4 (by decide) (by decide) (by decide) (by decide)).2 0

theorem applyAddLocalVariableUsage_lastEqz (idx : Nat) (s : State) :
    (applyAddLocalVariableUsage idx s).lastI32EqzPos = s.lastI32EqzPos := by
  unfold applyAddLocalVariableUsage
  split <;> rfl

theorem applyAddLocalVariableWrite_lastEqz (idx : Nat) (s : State) :
    (applyAddLocalVariableWrite idx s).lastI32EqzPos = s.lastI32EqzPos := by
  unfold applyAddLocalVariableWrite
  split <;> rfl

theorem pushVMStackAt_lastEqz (t : ValueType) (pos idx : Nat) (s : State) :
    (pushVMStackAt t pos idx s).lastI32EqzPos = s.lastI32EqzPos := by
  unfold pushVMStackAt
  split
  · rw [show ∀ s0 : State, ({ s0 with
        vmStack := s0.vmStack ++ [⟨t, pos, s0.functionStackSizeSoFar, idx⟩],
        functionStackSizeSoFar := u16 (s0.functionStackSizeSoFar + valueStackAllocatedSize t),
        requiredStackSize := max s0.requiredStackSize
          (u16 (s0.functionStackSizeSoFar + valueStackAllocatedSize t)) } : State).lastI32EqzPos
        = s0.lastI32EqzPos from fun _ => rfl]
    exact applyAddLocalVariableUsage_lastEqz idx s
  · rfl

theorem pushVMStack_lastEqz (t : ValueType) (s : State) :
    (pushVMStack t s).2.lastI32EqzPos = s.lastI32EqzPos :=
  pushVMStackAt_lastEqz t _ _ s

theorem popN_lastEqz (n : Nat) : ∀ s : State, (popN n s).lastI32EqzPos = s.lastI32EqzPos := by
  induction n with
  | zero => intro s; rfl
  | succ n ih =>
      intro s
      rw [popN, ih, popVMStackInfo_lastEqz]

theorem popWhileDrop_lastEqz (fuel : Nat) :
    ∀ (d : Int) (s : State), (popWhileDrop fuel d s).lastI32EqzPos = s.lastI32EqzPos := by
  induction fuel with
  | zero => intro d s; rfl
  | succ f ih =>
      intro d s
      rw [popWhileDrop]
      split
      · rfl
      · rw [ih, popVMStackInfo_lastEqz]

theorem restoreVMStackBy_lastEqz (bi : BlockInfo) (s : State) :
    (restoreVMStackBy bi s).lastI32EqzPos = s.lastI32EqzPos := by
  unfold restoreVMStackBy
  split
  · show (popN _ s).lastI32EqzPos = _
    rw [popN_lastEqz]
  · rfl

theorem harvestCatch_lastEqz (bi : BlockInfo) (s : State) :
    (harvestCatch bi s).lastI32EqzPos = s.lastI32EqzPos := rfl

theorem modifyBlockInBr_lastEqz (depth : Nat) (f : BlockInfo → BlockInfo) (s : State) :
    (modifyBlockInBr depth f s).lastI32EqzPos = s.lastI32EqzPos := rfl

theorem pushByteCode_move_lastEqz (t : ValueType) (a b : Nat) (s : State) :
    (pushByteCode (moveRecordFor t a b) s).lastI32EqzPos = s.lastI32EqzPos := by
  cases t <;> rfl

theorem generateMoveCodeIfNeeds_lastEqz (a b : Nat) (t : ValueType) (s : State) :
    (generateMoveCodeIfNeeds a b t s).lastI32EqzPos = s.lastI32EqzPos := by
  unfold generateMoveCodeIfNeeds
  split
  · exact pushByteCode_move_lastEqz t a b s
  · rfl

theorem blockParamCanonCtor_lastEqz :
    ∀ (k : Nat) (l : List VMStackInfo) (s : State),
      (blockParamCanonCtor k l s).2.lastI32EqzPos = s.lastI32EqzPos := by
  intro k
  induction k with
  | zero => intro l s; rfl
  | succ k ih =>
      intro l s
      cases l with
      | nil => rfl
      | cons e rest =>
          rw [blockParamCanonCtor]
          split
          · simp only
            rw [ih]
            split
            · rw [show ∀ (i : Nat) (s0 : State),
                  (closeUsageOfLocal i s0).lastI32EqzPos = s0.lastI32EqzPos
                  from fun _ _ => rfl]
              exact generateMoveCodeIfNeeds_lastEqz _ _ _ s
            · exact generateMoveCodeIfNeeds_lastEqz _ _ _ s
          · simp only
            rw [ih]

theorem loopParamCanon_lastEqz :
    ∀ (k : Nat) (l : List VMStackInfo) (s : State),
      (loopParamCanon k l s).2.lastI32EqzPos = s.lastI32EqzPos := by
  intro k
  induction k with
  | zero => intro l s; rfl
  | succ k ih =>
      intro l s
      cases l with
      | nil => rfl
      | cons e rest =>
          rw [loopParamCanon]
          simp only
          rw [ih, generateMoveCodeIfNeeds_lastEqz]

theorem emitDropMoves_lastEqz (rev : List VMStackInfo) (d : Nat) :
    ∀ (k : Nat) (s : State), (emitDropMoves rev d k s).lastI32EqzPos = s.lastI32EqzPos := by
  intro k
  induction k with
  | zero => intro s; exact generateMoveCodeIfNeeds_lastEqz _ _ _ s
  | succ k ih =>
      intro s
      rw [emitDropMoves, ih, generateMoveCodeIfNeeds_lastEqz]

theorem generateMoveValuesCodeRegardToDrop_lastEqz (ds : Nat × Nat) (s : State) :
    (generateMoveValuesCodeRegardToDrop ds s).lastI32EqzPos = s.lastI32EqzPos := by
  unfold generateMoveValuesCodeRegardToDrop
  rcases h1 : findExactAllocIdx ds.2 s.vmStack.reverse with _ | a
  · simp only [h1]
  · rcases h2 : findExactAllocIdx ds.1 s.vmStack.reverse with _ | b
    · simp only [h1, h2]
    · simp only [h1, h2]
      exact emitDropMoves_lastEqz _ _ _ s

theorem mkBlockInfo_lastEqz (bt : BlockType) (sig : SigType) (s : State) :
    (mkBlockInfo bt sig s).2.lastI32EqzPos = s.lastI32EqzPos := by
  unfold mkBlockInfo
  rcases sig with _ | t | i
  · rfl
  · rfl
  · simp only
    split
    · show ({ (blockParamCanonCtor _ _ s).2 with
        vmStack := (blockParamCanonCtor _ _ s).1.reverse } : State).lastI32EqzPos = _
      rw [show ∀ (p : List VMStackInfo × State),
          ({ p.2 with vmStack := p.1.reverse } : State).lastI32EqzPos = p.2.lastI32EqzPos
          from fun _ => rfl]
      exact blockParamCanonCtor_lastEqz _ _ s
    · rfl

theorem generateEndCode_lastEqz (clear : Bool) (s : State) :
    (generateEndCode clear s).lastI32EqzPos = s.lastI32EqzPos := by
  unfold generateEndCode
  split
  · rfl
  · split
    · rw [popN_lastEqz]
      rfl
    · rfl

theorem stopToGenerateByteCodeWhileBlockEnd_lastEqz (s : State) :
    (stopToGenerateByteCodeWhileBlockEnd s).lastI32EqzPos = s.lastI32EqzPos := by
  unfold stopToGenerateByteCodeWhileBlockEnd
  split
  · rfl
  · split
    · rfl
    · show ({ popN s.vmStack.length s with
        shouldContinueToGenerateByteCode := false } : State).lastI32EqzPos = _
      rw [show ∀ s0 : State, ({ s0 with
          shouldContinueToGenerateByteCode := false } : State).lastI32EqzPos = s0.lastI32EqzPos
          from fun _ => rfl]
      exact popN_lastEqz _ s

theorem generateFunctionReturnCode_lastEqz (clear : Bool) (s : State) :
    (generateFunctionReturnCode clear s).lastI32EqzPos = s.lastI32EqzPos := by
  unfold generateFunctionReturnCode
  have hfin : ∀ s0 : State,
      (if s0.blockInfo.length = 0 then
        ({ s0 with shouldContinueToGenerateByteCode := false, resumeGenerateByteCodeAfterNBlockEnd := 0 } : State)
      else s0).lastI32EqzPos = s0.lastI32EqzPos := by
    intro s0
    split <;> rfl
  split
  · rw [hfin, popWhileDrop_lastEqz, generateEndCode_lastEqz]
  · rw [hfin, stopToGenerateByteCodeWhileBlockEnd_lastEqz, popN_lastEqz, generateEndCode_lastEqz]

theorem popResultsWithMoves_lastEqz (n : Nat) :
    ∀ s : State, (popResultsWithMoves n s).lastI32EqzPos = s.lastI32EqzPos := by
  induction n with
  | zero => intro s; rfl
  | succ n ih =>
      intro s
      rw [popResultsWithMoves, ih, popVMStackInfo_lastEqz, generateMoveCodeIfNeeds_lastEqz]

theorem keepBlockResultsIfNeeds_lastEqz (bi : BlockInfo) (s : State) :
    (keepBlockResultsIfNeeds bi s).lastI32EqzPos = s.lastI32EqzPos := by
  unfold keepBlockResultsIfNeeds
  split
  · split
    · exact popResultsWithMoves_lastEqz _ s
    · exact popResultsWithMoves_lastEqz _ s
    · rfl
  · rfl

theorem patchOneFixup_lastEqz (f : JumpToEndBrInfo) (s : State) :
    (patchOneFixup f s).lastI32EqzPos = s.lastI32EqzPos := by
  unfold patchOneFixup
  rcases f.ty <;> rfl

theorem patchFixups_lastEqz (fixups : List JumpToEndBrInfo) :
    ∀ s : State,
      (fixups.foldl (fun s f => patchOneFixup f s) s).lastI32EqzPos = s.lastI32EqzPos := by
  induction fixups with
  | nil => intro s; rfl
  | cons f rest ih =>
      intro s
      rw [List.foldl_cons, ih, patchOneFixup_lastEqz]

theorem OnEndExpr_lastEqz (s : State) : (OnEndExpr s).lastI32EqzPos = noI32Eqz := by
  unfold OnEndExpr
  dsimp only
  split
  · split
    · rw [stopToGenerateByteCodeWhileBlockEnd_lastEqz]
      split <;> rfl
    · rw [patchFixups_lastEqz]
      split
      · rcases hrt : (s.blockInfo.getLast?.getD default).returnValueType with _ | t | i
        · simp only [hrt]
          rw [restoreVMStackBy_lastEqz, keepBlockResultsIfNeeds_lastEqz]
          split <;> rfl
        · simp only [hrt]
          rw [pushVMStack_lastEqz, restoreVMStackBy_lastEqz, keepBlockResultsIfNeeds_lastEqz]
          split <;> rfl
        · simp only [hrt]
          rw [show ∀ (ts : List ValueType) (s0 : State),
              (ts.foldl (fun s t => (pushVMStack t s).2) s0).lastI32EqzPos = s0.lastI32EqzPos
              from ?_]
          · rw [popN_lastEqz, restoreVMStackBy_lastEqz, keepBlockResultsIfNeeds_lastEqz]
            split <;> rfl
          · intro ts
            induction ts with
            | nil => intro s0; rfl
            | cons t ts ih => intro s0; rw [List.foldl_cons, ih, pushVMStack_lastEqz]
      · rw [keepBlockResultsIfNeeds_lastEqz]
        split <;> rfl
  · rw [generateEndCode_lastEqz]

theorem computeExprResultPosition_lastEqz (t : ValueType) (s : State) :
    (computeExprResultPosition t s).2.lastI32EqzPos = s.lastI32EqzPos := by
  unfold computeExprResultPosition
  split
  · rcases h : readAheadLocalGetIfExists s with _ | r
    · simp only [h]
      exact pushVMStack_lastEqz t s
    · simp only [h]
  · exact pushVMStack_lastEqz t s

theorem processConstValue_lastEqz (v : ConstValue) (s : State) :
    (processConstValue v s).2.lastI32EqzPos = s.lastI32EqzPos := by
  unfold processConstValue
  split
  · dsimp only
    split
    · rfl
    · split
      · rw [pushVMStackAt_lastEqz]
      · rfl
  · rfl

theorem OnLocalGetExpr_lastEqz (idx : Nat) (s : State) :
    (OnLocalGetExpr idx s).lastI32EqzPos = s.lastI32EqzPos := by
  unfold OnLocalGetExpr
  dsimp only
  split
  · exact pushVMStackAt_lastEqz _ _ _ s
  · rw [generateMoveCodeIfNeeds_lastEqz, pushVMStackAt_lastEqz]

theorem OnLocalSetExpr_lastEqz (idx : Nat) (s : State) :
    (OnLocalSetExpr idx s).lastI32EqzPos = s.lastI32EqzPos := by
  unfold OnLocalSetExpr
  rw [applyAddLocalVariableWrite_lastEqz, generateMoveCodeIfNeeds_lastEqz,
    popVMStackInfo_lastEqz]

theorem OnI32ConstExpr_lastEqz (v : Nat) (s : State) :
    (OnI32ConstExpr v s).lastI32EqzPos = s.lastI32EqzPos := by
  unfold OnI32ConstExpr
  dsimp only
  split
  · exact processConstValue_lastEqz _ s
  · show (pushByteCode (.const32 _ v) _).lastI32EqzPos = _
    rw [show ∀ (a : Nat) (b : Nat) (s0 : State),
        (pushByteCode (.const32 a b) s0).lastI32EqzPos = s0.lastI32EqzPos
        from fun _ _ _ => rfl]
    rw [computeExprResultPosition_lastEqz]
    exact processConstValue_lastEqz _ s

theorem OnI32AddExpr_lastEqz (s : State) :
    (OnI32AddExpr s).lastI32EqzPos = s.lastI32EqzPos := by
  unfold OnI32AddExpr
  rw [show ∀ (a b c : Nat) (s0 : State),
      (pushByteCode (.i32Add a b c) s0).lastI32EqzPos = s0.lastI32EqzPos
      from fun _ _ _ _ => rfl]
  rw [computeExprResultPosition_lastEqz]
  show (popVMStackInfo _).2.lastI32EqzPos = _
  rw [popVMStackInfo_lastEqz]
  exact popVMStackInfo_lastEqz s

theorem OnDropExpr_lastEqz (s : State) :
    (OnDropExpr s).lastI32EqzPos = s.lastI32EqzPos :=
  popVMStackInfo_lastEqz s

theorem OnBlockExpr_lastEqz (sig : SigType) (s : State) :
    (OnBlockExpr sig s).lastI32EqzPos = s.lastI32EqzPos := by
  unfold OnBlockExpr
  show ({ (mkBlockInfo .block sig s).2 with
    blockInfo := (mkBlockInfo .block sig s).2.blockInfo ++ [(mkBlockInfo .block sig s).1]
      } : State).lastI32EqzPos = _
  rw [show ∀ (p : BlockInfo × State),
      ({ p.2 with blockInfo := p.2.blockInfo ++ [p.1] } : State).lastI32EqzPos
        = p.2.lastI32EqzPos from fun _ => rfl]
  exact mkBlockInfo_lastEqz _ _ s

theorem OnLoopExpr_lastEqz (sig : SigType) (s : State) :
    (OnLoopExpr sig s).lastI32EqzPos = s.lastI32EqzPos := by
  unfold OnLoopExpr
  show ({ (mkBlockInfo .loop sig s).2 with
    blockInfo := (mkBlockInfo .loop sig s).2.blockInfo ++ [(mkBlockInfo .loop sig s).1]
      } : State).lastI32EqzPos = _
  rw [show ∀ (p : BlockInfo × State),
      ({ p.2 with blockInfo := p.2.blockInfo ++ [p.1] } : State).lastI32EqzPos
        = p.2.lastI32EqzPos from fun _ => rfl]
  exact mkBlockInfo_lastEqz _ _ s

theorem OnBrExpr_lastEqz (depth : Nat) (s : State) :
    (OnBrExpr depth s).lastI32EqzPos = s.lastI32EqzPos := by
  unfold OnBrExpr
  dsimp only
  split
  · rw [generateFunctionReturnCode_lastEqz, applySeenBranch_lastEqz]
  · rw [stopToGenerateByteCodeWhileBlockEnd_lastEqz]
    rw [show ∀ (off : Int) (s0 : State),
        (pushByteCode (.jump off) s0).lastI32EqzPos = s0.lastI32EqzPos
        from fun _ _ => rfl]
    split
    · rw [modifyBlockInBr_lastEqz]
      split
      · rw [generateMoveValuesCodeRegardToDrop_lastEqz, applySeenBranch_lastEqz]
      · split
        · split
          · rw [show ∀ (p : List VMStackInfo × State),
                ({ p.2 with vmStack := p.1.reverse } : State).lastI32EqzPos = p.2.lastI32EqzPos
                from fun _ => rfl,
              loopParamCanon_lastEqz, applySeenBranch_lastEqz]
          · rw [applySeenBranch_lastEqz]
        · rw [applySeenBranch_lastEqz]
    · split
      · rw [generateMoveValuesCodeRegardToDrop_lastEqz, applySeenBranch_lastEqz]
      · split
        · split
          · rw [show ∀ (p : List VMStackInfo × State),
                ({ p.2 with vmStack := p.1.reverse } : State).lastI32EqzPos = p.2.lastI32EqzPos
                from fun _ => rfl,
              loopParamCanon_lastEqz, applySeenBranch_lastEqz]
          · rw [applySeenBranch_lastEqz]
        · rw [applySeenBranch_lastEqz]

theorem emitBrTableCase_lastEqz (btc depth jo : Nat) (s : State) :
    (emitBrTableCase btc depth jo s).lastI32EqzPos = s.lastI32EqzPos := by
  unfold emitBrTableCase
  dsimp only
  split
  · rw [generateEndCode_lastEqz]
  · split
    · rw [OnBrExpr_lastEqz]
    · split <;> rfl

theorem OnBrTableExpr_lastEqz (ts : List Nat) (d : Nat) (s : State) :
    (OnBrTableExpr ts d s).lastI32EqzPos = s.lastI32EqzPos := by
  unfold OnBrTableExpr
  dsimp only
  rw [stopToGenerateByteCodeWhileBlockEnd_lastEqz, emitBrTableCase_lastEqz]
  rw [show ∀ (l : List Nat) (s0 : State),
      ((List.range l.length).foldl (fun s i =>
        emitBrTableCase ((popVMStack (applySeenBranch s0)).2.csize) (l.getD i 0)
          (sizeofBrTable + 4 * i) s) (pushByteCode
            (.brTable (popVMStack (applySeenBranch s0)).1 0
              (List.replicate l.length 0)) (popVMStack (applySeenBranch s0)).2)).lastI32EqzPos
        = (pushByteCode (.brTable (popVMStack (applySeenBranch s0)).1 0
            (List.replicate l.length 0)) (popVMStack (applySeenBranch s0)).2).lastI32EqzPos
      from ?_]
  · rw [show ∀ (c : Nat) (dflt : Int) (offs : List Int) (s0 : State),
        (pushByteCode (.brTable c dflt offs) s0).lastI32EqzPos = s0.lastI32EqzPos
        from fun _ _ _ _ => rfl]
    show (popVMStackInfo _).2.lastI32EqzPos = _
    rw [popVMStackInfo_lastEqz, applySeenBranch_lastEqz]
  · intro l s0
    generalize (pushByteCode (.brTable (popVMStack (applySeenBranch s0)).1 0
      (List.replicate l.length 0)) (popVMStack (applySeenBranch s0)).2) = sInit
    generalize List.range l.length = idxs
    induction idxs generalizing sInit with
    | nil => rfl
    | cons i rest ih =>
        rw [List.foldl_cons, ih, emitBrTableCase_lastEqz]

theorem OnReturnExpr_lastEqz (s : State) :
    (OnReturnExpr s).lastI32EqzPos = s.lastI32EqzPos := by
  unfold OnReturnExpr
  rw [generateFunctionReturnCode_lastEqz, applySeenBranch_lastEqz]

theorem OnUnreachableExpr_lastEqz (s : State) :
    (OnUnreachableExpr s).lastI32EqzPos = s.lastI32EqzPos := by
  unfold OnUnreachableExpr
  rw [stopToGenerateByteCodeWhileBlockEnd_lastEqz]
  rw [show ∀ s0 : State, (pushByteCode .unreachableRec s0).lastI32EqzPos = s0.lastI32EqzPos
    from fun _ => rfl]
  exact applySeenBranch_lastEqz s

theorem ifEmit_lastEqz (sig : SigType) (inv : Bool) (sp : Nat) (s : State) :
    (ifEmit sig inv sp s).lastI32EqzPos = s.lastI32EqzPos := by
  unfold ifEmit
  rw [applySeenBranch_lastEqz]
  cases inv
  · show (pushByteCode (.jumpIfFalse sp 0) _).lastI32EqzPos = _
    rw [show ∀ (a : Nat) (b : Int) (s0 : State),
        (pushByteCode (.jumpIfFalse a b) s0).lastI32EqzPos = s0.lastI32EqzPos
        from fun _ _ _ => rfl]
    show ({ (mkBlockInfo .ifElse sig s).2 with blockInfo := _ } : State).lastI32EqzPos = _
    rw [show ∀ (s0 : State) (l : List BlockInfo),
        ({ s0 with blockInfo := l } : State).lastI32EqzPos = s0.lastI32EqzPos
        from fun _ _ => rfl]
    exact mkBlockInfo_lastEqz _ _ s
  · show (pushByteCode (.jumpIfTrue sp 0) _).lastI32EqzPos = _
    rw [show ∀ (a : Nat) (b : Int) (s0 : State),
        (pushByteCode (.jumpIfTrue a b) s0).lastI32EqzPos = s0.lastI32EqzPos
        from fun _ _ _ => rfl]
    show ({ (mkBlockInfo .ifElse sig s).2 with blockInfo := _ } : State).lastI32EqzPos = _
    rw [show ∀ (s0 : State) (l : List BlockInfo),
        ({ s0 with blockInfo := l } : State).lastI32EqzPos = s0.lastI32EqzPos
        from fun _ _ => rfl]
    exact mkBlockInfo_lastEqz _ _ s

theorem pushByteCode_lastEqz_of_not_eqz (r : ByteCodeRec) (h : isEqzRec r = false) :
    ∀ s0 : State, (pushByteCode r s0).lastI32EqzPos = s0.lastI32EqzPos := by
  intro s0
  cases r
  case i32Eqz => exact absurd h (by simp [isEqzRec])
  all_goals rfl

theorem brIfEmit_lastEqz (depth : Nat) (inv : Bool) (sp : Nat) (s : State) :
    (brIfEmit depth inv sp s).lastI32EqzPos = s.lastI32EqzPos := by
  have hbcu : ∀ (s0 : State) (b : List ByteCodeRec),
      ({ s0 with byteCode := b } : State).lastI32EqzPos = s0.lastI32EqzPos :=
    fun _ _ => rfl
  have hpushTF : ∀ (c : Bool) (a : Nat) (b1 b2 : Int) (s0 : State),
      (pushByteCode (if c = true then ByteCodeRec.jumpIfTrue a b1
        else ByteCodeRec.jumpIfFalse a b2) s0).lastI32EqzPos = s0.lastI32EqzPos := by
    intro c a b1 b2 s0
    cases c <;> rfl
  have hpushJ : ∀ (off : Int) (s0 : State),
      (pushByteCode (.jump off) s0).lastI32EqzPos = s0.lastI32EqzPos :=
    fun _ _ => rfl
  have hvmu : ∀ (p : List VMStackInfo × State),
      ({ p.2 with vmStack := p.1.reverse } : State).lastI32EqzPos = p.2.lastI32EqzPos :=
    fun _ => rfl
  unfold brIfEmit
  dsimp only
  split
  · rw [hbcu, generateEndCode_lastEqz, hpushTF]
  · split
    · rw [hbcu, hpushJ]
      split
      · rw [modifyBlockInBr_lastEqz, generateMoveValuesCodeRegardToDrop_lastEqz, hpushTF]
      · rw [generateMoveValuesCodeRegardToDrop_lastEqz, hpushTF]
    · split
      · rw [hbcu, hpushJ]
        split
        · rw [modifyBlockInBr_lastEqz, hvmu, loopParamCanon_lastEqz, hpushTF]
        · rw [hvmu, loopParamCanon_lastEqz, hpushTF]
      · split
        · rw [show ∀ (a : Nat) (b : Int) (s0 : State),
              (pushByteCode (.jumpIfFalse a b) s0).lastI32EqzPos = s0.lastI32EqzPos
              from fun _ _ _ => rfl]
          split
          · rw [modifyBlockInBr_lastEqz]
          · rfl
        · rw [show ∀ (a : Nat) (b : Int) (s0 : State),
              (pushByteCode (.jumpIfTrue a b) s0).lastI32EqzPos = s0.lastI32EqzPos
              from fun _ _ _ => rfl]
          split
          · rw [modifyBlockInBr_lastEqz]
          · rfl

theorem OnIfExpr_lastEqz_or (sig : SigType) (s : State) :
    (OnIfExpr sig s).lastI32EqzPos = s.lastI32EqzPos ∨
    (OnIfExpr sig s).lastI32EqzPos = noI32Eqz := by
  rw [OnIfExpr_eq_ifEmit]
  dsimp only
  cases hinv : canBeInverted (popVMStack s).2 (popVMStack s).1
  · left
    show (ifEmit sig false ((popVMStack s).1) ((popVMStack s).2)).lastI32EqzPos = _
    rw [ifEmit_lastEqz]
    exact popVMStackInfo_lastEqz s
  · right
    show (ifEmit sig true (trackedEqzSrc (popVMStack s).2)
      { (popVMStack s).2 with
        byteCode := resizeByteCode (popVMStack s).2.byteCode (popVMStack s).2.lastI32EqzPos,
        lastI32EqzPos := noI32Eqz }).lastI32EqzPos = _
    rw [ifEmit_lastEqz]

theorem OnBrIfExpr_lastEqz_or (depth : Nat) (s : State) :
    (OnBrIfExpr depth s).lastI32EqzPos = s.lastI32EqzPos ∨
    (OnBrIfExpr depth s).lastI32EqzPos = noI32Eqz := by
  rw [OnBrIfExpr_eq_brIfEmit]
  dsimp only
  cases hinv : canBeInverted (popVMStack (applySeenBranch s)).2 (popVMStack (applySeenBranch s)).1
  · left
    show (brIfEmit depth false ((popVMStack (applySeenBranch s)).1)
      ((popVMStack (applySeenBranch s)).2)).lastI32EqzPos = _
    rw [brIfEmit_lastEqz]
    show (popVMStackInfo _).2.lastI32EqzPos = _
    rw [popVMStackInfo_lastEqz, applySeenBranch_lastEqz]
  · right
    show (brIfEmit depth true (trackedEqzSrc (popVMStack (applySeenBranch s)).2)
      { (popVMStack (applySeenBranch s)).2 with
        byteCode := resizeByteCode (popVMStack (applySeenBranch s)).2.byteCode
          (popVMStack (applySeenBranch s)).2.lastI32EqzPos,
        lastI32EqzPos := noI32Eqz }).lastI32EqzPos = _
    rw [brIfEmit_lastEqz]

theorem applyEvent_endE_lastEqz (s : State) (off : Nat) :
    (applyEvent s (off, .endE)).lastI32EqzPos = noI32Eqz := by
  unfold applyEvent
  dsimp only
  split
  · rw [show ∀ (s0 : State) (a : Nat) (b : Bool), ({ s0 with
        resumeGenerateByteCodeAfterNBlockEnd := a,
        shouldContinueToGenerateByteCode := b } : State).lastI32EqzPos = s0.lastI32EqzPos
        from fun _ _ _ => rfl]
    exact OnEndExpr_lastEqz _
  · exact OnEndExpr_lastEqz _

theorem applyEvent_lastEqz_or (s : State) (oe : Nat × Event) (hne : oe.2 ≠ .i32EqzE) :
    (applyEvent s oe).lastI32EqzPos = s.lastI32EqzPos ∨
    (applyEvent s oe).lastI32EqzPos = noI32Eqz := by
  rcases oe with ⟨off, ev⟩
  have hro : ∀ s0 : State, ({ s0 with readerOffset := off } : State).lastI32EqzPos
      = s0.lastI32EqzPos := fun _ => rfl
  cases ev
  case localGet idx =>
    left
    show (OnLocalGetExpr idx { s with readerOffset := off }).lastI32EqzPos = _
    rw [OnLocalGetExpr_lastEqz, hro]
  case localSet idx =>
    left
    show (OnLocalSetExpr idx { s with readerOffset := off }).lastI32EqzPos = _
    rw [OnLocalSetExpr_lastEqz, hro]
  case i32Const v =>
    left
    show (OnI32ConstExpr v { s with readerOffset := off }).lastI32EqzPos = _
    rw [OnI32ConstExpr_lastEqz, hro]
  case i32AddE =>
    left
    show (OnI32AddExpr { s with readerOffset := off }).lastI32EqzPos = _
    rw [OnI32AddExpr_lastEqz, hro]
  case i32EqzE => exact absurd rfl hne
  case dropE =>
    left
    show (OnDropExpr { s with readerOffset := off }).lastI32EqzPos = _
    rw [OnDropExpr_lastEqz, hro]
  case blockE sig =>
    left
    show (OnBlockExpr sig { s with readerOffset := off }).lastI32EqzPos = _
    rw [OnBlockExpr_lastEqz, hro]
  case loopE sig =>
    left
    show (OnLoopExpr sig { s with readerOffset := off }).lastI32EqzPos = _
    rw [OnLoopExpr_lastEqz, hro]
  case ifE sig =>
    rcases OnIfExpr_lastEqz_or sig { s with readerOffset := off } with h | h
    · left
      show (OnIfExpr sig { s with readerOffset := off }).lastI32EqzPos = _
      rw [h, hro]
    · right
      exact h
  case endE => exact Or.inr (applyEvent_endE_lastEqz s off)
  case brE d =>
    left
    show (OnBrExpr d { s with readerOffset := off }).lastI32EqzPos = _
    rw [OnBrExpr_lastEqz, hro]
  case brIfE d =>
    rcases OnBrIfExpr_lastEqz_or d { s with readerOffset := off } with h | h
    · left
      show (OnBrIfExpr d { s with readerOffset := off }).lastI32EqzPos = _
      rw [h, hro]
    · right
      exact h
  case brTableE ts d =>
    left
    show (OnBrTableExpr ts d { s with readerOffset := off }).lastI32EqzPos = _
    rw [OnBrTableExpr_lastEqz, hro]
  case returnE =>
    left
    show (OnReturnExpr { s with readerOffset := off }).lastI32EqzPos = _
    rw [OnReturnExpr_lastEqz, hro]
  case unreachableE =>
    left
    show (OnUnreachableExpr { s with readerOffset := off }).lastI32EqzPos = _
    rw [OnUnreachableExpr_lastEqz, hro]

theorem applyEvents_sentinel (evs : List (Nat × Event)) :
    ∀ s : State, s.lastI32EqzPos = noI32Eqz → (∀ p ∈ evs, p.2 ≠ .i32EqzE) →
      (applyEvents evs s).lastI32EqzPos = noI32Eqz := by
  induction evs with
  | nil => intro s hs _; exact hs
  | cons p rest ih =>
      intro s hs hall
      show (applyEvents rest (applyEvent s p)).lastI32EqzPos = noI32Eqz
      apply ih
      · rcases applyEvent_lastEqz_or s p (hall p (List.mem_cons_self p rest)) with h | h
        · rw [h, hs]
        · exact h
      · intro q hq
        exact hall q (List.mem_cons_of_mem p hq)

theorem brIfEmit_false_eqzCount (depth sp : Nat) (s : State) :
    eqzCount (brIfEmit depth false sp s).byteCode = eqzCount s.byteCode := by
  unfold brIfEmit
  simp only [Bool.false_eq_true, if_false]
  by_cases h1 : s.blockInfo.length = depth
  · rw [if_pos h1]
    obtain ⟨ext, hend, hec⟩ := generateEndCode_ext false
      (pushByteCode (.jumpIfFalse sp
        ((sizeofJumpIf + sizeofEnd + 2 * s.currentFunctionType.result.length : Nat) : Int)) s)
    simp only [hend, pushByteCode_byteCode, List.append_assoc, List.singleton_append,
      List.cons_append, List.nil_append,
      show s.csize = byteCodeSizeOf s.byteCode from rfl,
      modifyRecordAt_append, setJumpOffset]
    rw [eqzCount_append, eqzCount_cons_jumpIfFalse, hec]
    omega
  · rw [if_neg h1]
    by_cases h2 : (dropStackValuesBeforeBrIfNeeds depth s).2 ≠ 0
    · rw [if_pos h2]
      obtain ⟨ext1, hmv, hm1⟩ := generateMoveValuesCodeRegardToDrop_moves
        (dropStackValuesBeforeBrIfNeeds depth s)
        (pushByteCode (.jumpIfFalse sp 0) s)
      split
      all_goals
        simp only [modifyBlockInBr_byteCode, pushByteCode_byteCode, hmv,
          List.append_assoc, List.singleton_append, List.cons_append, List.nil_append,
          show s.csize = byteCodeSizeOf s.byteCode from rfl,
          modifyRecordAt_append, setJumpOffset]
      all_goals
        rw [eqzCount_append, eqzCount_cons_jumpIfFalse, eqzCount_append,
          eqzCount_moves ext1 hm1, eqzCount_jump_singleton]
      all_goals omega
    · rw [if_neg h2]
      by_cases h3 : (findBlockInfoInBr depth s).blockType = .loop ∧
          (findBlockInfoInBr depth s).returnValueType.isIndex ∧
          (match (findBlockInfoInBr depth s).returnValueType with
           | .idx i => (s.ftypeAt i).param.length
           | _ => 0) ≠ 0
      · rw [if_pos h3]
        obtain ⟨h3a, h3b, h3c⟩ := h3
        rcases hrt : (findBlockInfoInBr depth s).returnValueType with _ | t | i
        · rw [hrt] at h3b
          simp [SigType.isIndex] at h3b
        · rw [hrt] at h3b
          simp [SigType.isIndex] at h3b
        simp only [hrt]
        obtain ⟨ext1, hlc, hm1⟩ := loopParamCanon_moves
          ((pushByteCode (.jumpIfFalse sp 0) s).ftypeAt i).param.length
          (pushByteCode (.jumpIfFalse sp 0) s).vmStack.reverse
          (pushByteCode (.jumpIfFalse sp 0) s)
        split
        all_goals
          simp only [modifyBlockInBr_byteCode, pushByteCode_byteCode, hlc,
            List.append_assoc, List.singleton_append, List.cons_append, List.nil_append,
            show s.csize = byteCodeSizeOf s.byteCode from rfl,
            modifyRecordAt_append, setJumpOffset]
        all_goals
          rw [eqzCount_append, eqzCount_cons_jumpIfFalse, eqzCount_append,
            eqzCount_moves ext1 hm1, eqzCount_jump_singleton]
        all_goals omega
      · rw [if_neg h3]
        split
        all_goals
          simp only [modifyBlockInBr_byteCode, pushByteCode_byteCode,
            List.append_assoc, List.singleton_append, List.cons_append, List.nil_append]
        all_goals
          rw [eqzCount_append, eqzCount_cons_jumpIfTrue, eqzCount_nil]
        all_goals omega

theorem mkBlockInfo_extends (bt : BlockType) (sig : SigType) (s : State) :
    ∃ ext, (∀ r ∈ ext, isMoveRec r = true) ∧
      (mkBlockInfo bt sig s).2.byteCode = s.byteCode ++ ext := by
  obtain ⟨ext, hm, h1, _⟩ := mkBlockInfo_pair bt sig s s rfl rfl
  exact ⟨ext, hm, h1⟩

theorem ifEmit_false_eqzCount (sig : SigType) (sp : Nat) (s : State) :
    eqzCount (ifEmit sig false sp s).byteCode = eqzCount s.byteCode := by
  rw [ifEmit_byteCode]
  obtain ⟨ext, hm, hbc⟩ := mkBlockInfo_extends .ifElse sig s
  rw [hbc, List.append_assoc, eqzCount_append, eqzCount_append, eqzCount_moves ext hm]
  rw [show (if false then ByteCodeRec.jumpIfTrue sp 0 else .jumpIfFalse sp 0)
      = ByteCodeRec.jumpIfFalse sp 0 from rfl]
  rw [show eqzCount [ByteCodeRec.jumpIfFalse sp 0] = 0 from rfl]
  omega

theorem OnBrIfExpr_no_fusion (depth : Nat) (s : State)
    (hinv : canBeInverted (popVMStack (applySeenBranch s)).2
      (popVMStack (applySeenBranch s)).1 = false) :
    eqzCount (OnBrIfExpr depth s).byteCode = eqzCount s.byteCode := by
  rw [OnBrIfExpr_eq_brIfEmit]
  dsimp only
  rw [hinv]
  show eqzCount (brIfEmit depth false ((popVMStack (applySeenBranch s)).1)
    ((popVMStack (applySeenBranch s)).2)).byteCode = _
  rw [brIfEmit_false_eqzCount]
  show eqzCount (popVMStackInfo _).2.byteCode = _
  rw [popVMStackInfo_byteCode, applySeenBranch_byteCode]

theorem OnIfExpr_no_fusion (sig : SigType) (s : State)
    (hinv : canBeInverted (popVMStack s).2 (popVMStack s).1 = false) :
    eqzCount (OnIfExpr sig s).byteCode = eqzCount s.byteCode := by
  rw [OnIfExpr_eq_ifEmit]
  dsimp only
  rw [hinv]
  show eqzCount (ifEmit sig false ((popVMStack s).1) ((popVMStack s).2)).byteCode = _
  rw [ifEmit_false_eqzCount]
  show eqzCount (popVMStackInfo s).2.byteCode = _
  rw [popVMStackInfo_byteCode]

/-- C10 (confirmed): the eqz-fusion candidate tracker is cleared at every
block `end` (and at the function-body `end`, which runs through the same
handler): `OnEndExpr` unconditionally sets `m_lastI32EqzPos` to the
sentinel; with the sentinel set and a byte-code size below `SIZE_MAX`,
`canBeInverted` is false; the sentinel persists across every decoder event
other than `i32.eqz` itself; and with `canBeInverted` false neither
`br_if` nor `if` removes an `i32.eqz` record from the buffer — so a
branch is never fused with an eqz emitted before the most recent block
`end`, even if that eqz is still the physically preceding record. -/
theorem claimC10Theorem :
    (∀ s : State, (OnEndExpr s).lastI32EqzPos = noI32Eqz) ∧
    (∀ (s : State) (c : Nat), s.lastI32EqzPos = noI32Eqz → s.csize < sizeMax →
      canBeInverted s c = false) ∧
    (∀ (evs : List (Nat × Event)) (s : State), s.lastI32EqzPos = noI32Eqz →
      (∀ p ∈ evs, p.2 ≠ .i32EqzE) →
      (applyEvents evs s).lastI32EqzPos = noI32Eqz) ∧
    (∀ (depth : Nat) (s : State),
      canBeInverted (popVMStack (applySeenBranch s)).2
        (popVMStack (applySeenBranch s)).1 = false →
      eqzCount (OnBrIfExpr depth s).byteCode = eqzCount s.byteCode) ∧
    (∀ (sig : SigType) (s : State),
      canBeInverted (popVMStack s).2 (popVMStack s).1 = false →
      eqzCount (OnIfExpr sig s).byteCode = eqzCount s.byteCode) :=
  ⟨OnEndExpr_lastEqz,
   fun s c h hcs => canBeInverted_false_noEqz s c h hcs,
   fun evs s h hall => applyEvents_sentinel evs s h hall,
   fun depth s hinv => OnBrIfExpr_no_fusion depth s hinv,
   fun sig s hinv => OnIfExpr_no_fusion sig s hinv⟩

/-- C10 witness: the cleared tracker at the S4 `end`, the suppressed
fusion at the stale-tracker state of the C1 counterexample scenario, the
sentinel surviving the following `br_if` event, and the eqz record staying
in the buffer. -/
theorem claimC10Witness :
    (OnEndExpr stateBeforeEndBrT).lastI32EqzPos = noI32Eqz ∧
    canBeInverted stateBeforeBrIf 4 = false ∧
    (applyEvents [(9, .brIfE 0)] stateBeforeBrIf).lastI32EqzPos = noI32Eqz ∧
    eqzCount (OnBrIfExpr 0 stateBeforeBrIf).byteCode = eqzCount stateBeforeBrIf.byteCode :=
  ⟨claimC10Theorem.1 stateBeforeEndBrT,
   claimC10Theorem.2.1 stateBeforeBrIf 4 (by decide) (by decide),
   claimC10Theorem.2.2.1 [(9, .brIfE 0)] stateBeforeBrIf (by decide) (by decide),
   claimC10Theorem.2.2.2.1 0 stateBeforeBrIf (by decide)⟩

end Walrus
